import Mathlib

/-!
Verification of the pyodk Entity merge engine
(`pyodk/_endpoints/entities.py`: `EntityService._prep_data_for_merge` and
`EntityService.merge`) against its natural-language specification.

The Python code is shallowly embedded: Python dictionaries become association
lists in insertion order (assignment replaces the value of an existing key in
place, otherwise appends), Python sets become deduplicated lists in insertion
order, and fallible code returns `Except`.  Scalar values are modelled by
`Atom`; a row value (`Value`) is an atom or a one-level mapping of atoms,
which is the shape of rows returned by Central's OData table endpoint (the
`__system` field holds scalar metadata such as the integer `version`).
-/

namespace PyODK

/-- A scalar Python/JSON value as it appears in merge source or target rows.
`float n` models a Python float holding the integral value `n`, the only kind
of float exercised by the specification (e.g. `2000.0`); its `str()` form is
the integer followed by `.0`, which is Python's `repr` for such floats. -/
inductive Atom where
  | str (s : String)
  | int (n : Int)
  | float (n : Int)
  | bool (b : Bool)
  | none
deriving DecidableEq

/-- A value in a row: a scalar, or a one-level mapping of scalars (the shape
of the `__system` metadata object in Central's OData rows). -/
inductive Value where
  | atom (a : Atom)
  | dict (entries : List (String × Atom))
deriving DecidableEq

/-- Shorthand for a string value. -/
def vstr (s : String) : Value := Value.atom (Atom.str s)

/-- Shorthand for an integer value. -/
def vint (n : Int) : Value := Value.atom (Atom.int n)

/-- Shorthand for an integral-valued float value. -/
def vfloat (n : Int) : Value := Value.atom (Atom.float n)

/-- Python `repr` of a scalar: strings are quoted, `True`/`False`/`None` are
capitalized, integral floats print with a trailing `.0`. -/
def Atom.pyrepr : Atom → String
  | .str s => "\x27" ++ s ++ "\x27"
  | .int n => toString n
  | .float n => toString n ++ ".0"
  | .bool b => if b then "True" else "False"
  | .none => "None"

/-- Python `str` of a scalar: like `repr` but strings print unquoted. -/
def Atom.pystr : Atom → String
  | .str s => s
  | a => a.pyrepr

/-- Python `str` of a value.  For mappings this is the dict display form,
rendering each entry with `repr` as Python does. -/
def pyStr : Value → String
  | .atom a => a.pystr
  | .dict l =>
    "\x7b" ++ String.intercalate ", "
      (l.map fun p => "\x27" ++ p.1 ++ "\x27: " ++ p.2.pyrepr) ++ "\x7d"

/-- Numeric view of a scalar: Python compares `int`, `float` and `bool`
numerically across types (`2000 == 2000.0`, `True == 1`). -/
def Atom.asNum : Atom → Option Int
  | .int n => some n
  | .float n => some n
  | .bool b => some (if b then 1 else 0)
  | _ => Option.none

/-- Python `==` on scalars: numeric kinds compare by value, everything else
compares within its own kind only. -/
def atomEq (a b : Atom) : Bool :=
  match a.asNum, b.asNum with
  | some x, some y => x == y
  | _, _ => a == b

/-- Python `==` on values.  Mappings are compared structurally; a mapping is
never equal to a scalar.  (Mappings are unhashable in Python and so can never
reach the places where this equality is used, namely composite-key lookup:
`get_key` rejects them first, mirroring the `TypeError` Python would raise at
the subsequent dictionary operation.) -/
def pyEq : Value → Value → Bool
  | .atom a, .atom b => atomEq a b
  | .dict a, .dict b => a == b
  | _, _ => false

/-- A value is usable inside a Python dict key (tuples of such values are
hashable); mappings are not. -/
def Value.hashable : Value → Bool
  | .dict _ => false
  | _ => true

/-- A row: a Python dict from field name to value, in insertion order. -/
def Row := List (String × Value)
deriving DecidableEq

instance : Membership (String × Value) Row := inferInstanceAs (Membership _ (List _))
instance : Append Row := inferInstanceAs (Append (List _))
instance : EmptyCollection Row := ⟨([] : List (String × Value))⟩

/-- Python `row[k]` / `row.get(k)`: value of the first entry named `k`. -/
def Row.lookup : Row → String → Option Value
  | [], _ => Option.none
  | (k, v) :: r, key => if k = key then some v else Row.lookup r key

/-- Python `k in row`. -/
def Row.hasKey (r : Row) (k : String) : Bool := (r.lookup k).isSome

/-- Python `row[k] = v`: replace the value of an existing entry in place,
otherwise append a new entry. -/
def Row.insert : Row → String → Value → Row
  | [], key, v => [(key, v)]
  | (k, w) :: r, key, v =>
    if k = key then (k, v) :: r else (k, w) :: Row.insert r key v

/-- Python `row.keys()`, in insertion order. -/
def Row.keys (r : Row) : List String := (show List (String × Value) from r).map Prod.fst

/-- A composite match key: the tuple of a row's match-key field values. -/
def Key := List Value
deriving DecidableEq

/-- Python `==` on key tuples: pointwise value equality. -/
def keyEq : Key → Key → Bool
  | [], [] => true
  | a :: as, b :: bs => pyEq a b && keyEq as bs
  | _, _ => false

/-- A Python dict keyed by composite keys, in insertion order. -/
def KDict (α : Type) := List (Key × α)

instance : EmptyCollection (KDict α) := ⟨([] : List (Key × α))⟩
instance : Membership (Key × α) (KDict α) := inferInstanceAs (Membership _ (List _))
instance [DecidableEq α] : DecidableEq (KDict α) :=
  inferInstanceAs (DecidableEq (List (Key × α)))

/-- Python `d[k]` / `d.get(k)` on a key-tuple dict. -/
def lookupK : KDict α → Key → Option α
  | [], _ => Option.none
  | (k, v) :: d, key => if keyEq k key then some v else lookupK d key

/-- Python `k in d` on a key-tuple dict. -/
def containsK (d : KDict α) (k : Key) : Bool := (lookupK d k).isSome

/-- Python `d[k] = v` on a key-tuple dict: replace in place or append. -/
def insertK : KDict α → Key → α → KDict α
  | [], key, v => [(key, v)]
  | (k, w) :: d, key, v =>
    if keyEq k key then (k, v) :: d else (k, w) :: insertK d key v

/-- Python `d.pop(k, None)`: the removed value (if any) and the remaining dict. -/
def popK : KDict α → Key → Option α × KDict α
  | [], _ => (Option.none, [])
  | (k, v) :: d, key =>
    if keyEq k key then (some v, d)
    else
      let r := popK d key
      (r.1, (k, v) :: r.2)

/-- Python `len(d)`. -/
def lenK (d : KDict α) : Nat := (show List (Key × α) from d).length

/-- Keys of a key-tuple dict, in insertion order. -/
def keysK (d : KDict α) : List Key := (show List (Key × α) from d).map Prod.fst

instance {ε α : Type} [DecidableEq ε] [DecidableEq α] : DecidableEq (Except ε α) :=
  fun x y =>
    match x, y with
    | .ok a, .ok b =>
      if h : a = b then .isTrue (congrArg Except.ok h)
      else .isFalse fun hc => h (Except.ok.inj hc)
    | .error a, .error b =>
      if h : a = b then .isTrue (congrArg Except.error h)
      else .isFalse fun hc => h (Except.error.inj hc)
    | .ok _, .error _ => .isFalse fun hc => Except.noConfusion hc
    | .error _, .ok _ => .isFalse fun hc => Except.noConfusion hc

/-- Errors raised on the paths exercised by the merge engine.  All of them are
`PyODKError`s in the source except `rawKeyError` (an unwrapped Python
`KeyError`), `unhashableKey` and `typeError` (unwrapped `TypeError`s). -/
inductive MergeError where
  | sourceKeysMissingLabel
  | missingMatchKey (key : String)
  | duplicateMatchKeys
  | rawKeyError (key : String)
  | unhashableKey
  | labelRequired
  | validationError (key : String)
  | typeError
deriving DecidableEq

/-- The stable message text carried by each error, as raised by the source
(`str()` of a Python `KeyError` renders the key in quotes). -/
def MergeError.message : MergeError → String
  | .sourceKeysMissingLabel =>
    "Parameter \x27source_keys\x27 must include \"label\" or the \x27source_label_key\x27 parameter value"
  | .missingMatchKey k =>
    "Found Entity that did not have all expected match_keys: \x27" ++ k ++ "\x27"
  | .duplicateMatchKeys =>
    "Parameter \x27match_keys\x27 not unique across all \x27source_data\x27."
  | .rawKeyError k => "\x27" ++ k ++ "\x27"
  | .unhashableKey => "unhashable type: \x27dict\x27"
  | .labelRequired => "All data must include a \x27label\x27 key."
  | .validationError k => k ++ ": validation error"
  | .typeError => "type error"

/-- Lexicographic comparison of character lists by code point, which is how
Python compares strings. -/
def lexLe : List Char → List Char → Bool
  | [], _ => true
  | _ :: _, [] => false
  | a :: as, b :: bs => if a = b then lexLe as bs else decide (a.toNat < b.toNat)

/-- Python `a <= b` on strings. -/
def strLe (a b : String) : Bool := lexLe a.data b.data

/-- Python's `sorted` on strings, modelled by insertion sort (ascending,
stable); only determinism and membership of the result matter here. -/
def insertSorted (a : String) : List String → List String
  | [] => [a]
  | b :: bs => if strLe a b then a :: b :: bs else b :: insertSorted a bs

/-- Sorted copy of a list of field names (`sorted(match_keys)`). -/
def sortStrings (l : List String) : List String := l.foldr insertSorted []

/-- Python set insertion, modelled as append-if-absent. -/
def setInsert (s : List String) (k : String) : List String :=
  if k ∈ s then s else s ++ [k]

/-- Python `set.update(keys)`. -/
def setUnion (s : List String) (ks : List String) : List String :=
  ks.foldl setInsert s

/-- The fixed reserved field set of `MergeActions`
(`frozenset({"__id", "__system", "label"})`). -/
def reserved_keys : List String := ["__id", "__system", "label"]

/-- The tuple comprehension `tuple(entity[i] for i in keys)` of `get_key`:
the first missing key raises the "did not have all expected match_keys"
error wrapping its `KeyError`. -/
def lookupKeys (entity : Row) : List String → Except MergeError (List Value)
  | [] => .ok []
  | k :: ks =>
    match entity.lookup k with
    | some v => (lookupKeys entity ks).map (v :: ·)
    | Option.none => .error (.missingMatchKey k)

/-- The nested `get_key` helper of `_prep_data_for_merge`: the tuple of the
entity's values at the given keys.  A missing key raises the
"did not have all expected match_keys" error (wrapping the `KeyError` of the
first missing key).  A mapping-valued key field is rejected as unhashable,
standing for the `TypeError` Python raises at the dictionary operation the
tuple is immediately used in. -/
def get_key (entity : Row) (keys : List String) : Except MergeError Key := do
  let vals ← lookupKeys entity keys
  if vals.all Value.hashable then pure vals else throw .unhashableKey

/-- The filter of the dict comprehension in the source-row loop:
`k != source_label_key [and k in source_keys]`. -/
def keepField (source_label_key : String) (source_keys : Option (List String))
    (k : String) : Bool :=
  k ≠ source_label_key &&
    (match source_keys with
     | Option.none => true
     | some ks => ks.contains k)

/-- The body of the source-row loop of `_prep_data_for_merge` that builds one
canonical row: `row = {"label": s[source_label_key]}` followed by
`row.update({k: s[k] for k in s if k != source_label_key [and k in source_keys]})`.
A row without the label field raises Python's bare `KeyError`. -/
def normalizeRow (source_label_key : String) (source_keys : Option (List String))
    (s : Row) : Except MergeError Row :=
  match s.lookup source_label_key with
  | Option.none => .error (.rawKeyError source_label_key)
  | some lv =>
    .ok ((show List (String × Value) from s).foldl
      (fun r kv =>
        if keepField source_label_key source_keys kv.1 then r.insert kv.1 kv.2 else r)
      [("label", lv)])

/-- Accumulator of the source-row loop: the key-indexed source rows (`src`),
the row count (`source_data_len`) and the observed field names
(`result.source_keys`). -/
structure SourceAcc where
  src : KDict Row := ∅
  count : Nat := 0
  source_keys : List String := []
deriving DecidableEq

/-- One iteration of the source-row loop. -/
def sourceStep (slk : String) (skeys : Option (List String)) (mks : List String)
    (acc : SourceAcc) (s : Row) : Except MergeError SourceAcc := do
  let row ← normalizeRow slk skeys s
  let key ← get_key row mks
  pure { src := insertK acc.src key row
         count := acc.count + 1
         source_keys := setUnion acc.source_keys row.keys }

/-- The source phase of `_prep_data_for_merge`: normalize and index every
source row, then fail with the duplicate-match-keys error if two rows
collided on the same composite key (`len(src) != source_data_len`). -/
def prepSource (slk : String) (skeys : Option (List String)) (mks : List String)
    (source_data : List Row) : Except MergeError SourceAcc := do
  let acc ← source_data.foldlM (sourceStep slk skeys mks) {}
  if lenK acc.src ≠ acc.count then throw .duplicateMatchKeys
  pure acc

/-- Python `str(new_value) != v`: a string differs from every non-string
value, and from a string with different text. -/
def strNeValue (s : String) (v : Value) : Bool :=
  match v with
  | .atom (.str t) => s ≠ t
  | _ => true

/-- The update payload under construction: `new_data` and the `for_update`
changed flag. -/
structure UpdateBuild where
  new_data : Row := ∅
  for_update : Bool := false
deriving DecidableEq

/-- The body of the first update-payload loop, for one target field: copy a
reserved field verbatim; otherwise, when the source row has the field and the
source value's `str()` form differs from the target value, stage the source
value and mark the row changed. -/
def updStep1 (matchRow : Row) (b : UpdateBuild) (kv : String × Value) : UpdateBuild :=
  if kv.1 ∈ reserved_keys then
    { b with new_data := b.new_data.insert kv.1 kv.2 }
  else
    match matchRow.lookup kv.1 with
    | Option.none => b
    | some nv =>
      if strNeValue (pyStr nv) kv.2 then
        { new_data := b.new_data.insert kv.1 nv, for_update := true }
      else b

/-- The body of the second update-payload loop, for one source field: stage
it as new and mark the row changed when the target row lacks it. -/
def updStep2 (t : Row) (b : UpdateBuild) (kv : String × Value) : UpdateBuild :=
  if t.hasKey kv.1 then b
  else { new_data := b.new_data.insert kv.1 kv.2, for_update := true }

/-- The matched branch of the target loop: fold the first loop over the
target row's fields, then the second loop over the source row's fields. -/
def buildUpdate (t matchRow : Row) : UpdateBuild :=
  (show List (String × Value) from matchRow).foldl (updStep2 t)
    ((show List (String × Value) from t).foldl (updStep1 matchRow) {})

/-- Accumulator of the target-row loop. -/
structure TargetAcc where
  src : KDict Row
  to_update : KDict Row := ∅
  to_delete : KDict Row := ∅
  target_keys : List String := []
deriving DecidableEq

/-- One iteration of the target-row loop of `_prep_data_for_merge`: compute
the row's composite key, record its field names, pop the matching source row
(a miss marks the row for deletion; a hit builds the update payload, which is
recorded only when the changed flag is set). -/
def targetStep (mks : List String) (acc : TargetAcc) (t : Row) :
    Except MergeError TargetAcc := do
  let key ← get_key t mks
  let acc := { acc with target_keys := setUnion acc.target_keys t.keys }
  match popK acc.src key with
  | (Option.none, _) => pure { acc with to_delete := insertK acc.to_delete key t }
  | (some m, src2) =>
    let b := buildUpdate t m
    if b.for_update then
      pure { acc with src := src2, to_update := insertK acc.to_update key b.new_data }
    else
      pure { acc with src := src2 }

/-- The `MergeActions` result aggregate (a Python dataclass in the source).
Python sets of field names are modelled as deduplicated lists in insertion
order. -/
structure MergeActions where
  match_keys : List String
  to_insert : KDict Row := ∅
  to_update : KDict Row := ∅
  to_delete : KDict Row := ∅
  source_keys : List String := []
  target_keys : List String := []
  final_keys : List String := []
deriving DecidableEq

/-- `MergeActions.keys_difference`: source-only non-reserved field names. -/
def MergeActions.keys_difference (m : MergeActions) : List String :=
  m.source_keys.filter fun k => !m.target_keys.contains k && !reserved_keys.contains k

/-- `MergeActions.keys_intersect`: shared non-reserved field names. -/
def MergeActions.keys_intersect (m : MergeActions) : List String :=
  m.source_keys.filter fun k => m.target_keys.contains k && !reserved_keys.contains k

/-- `MergeActions.keys_union`: all non-reserved field names of either side. -/
def MergeActions.keys_union (m : MergeActions) : List String :=
  (setUnion m.source_keys m.target_keys).filter fun k => !reserved_keys.contains k

/-- The allow-list check of `_prep_data_for_merge`:
`source_keys is not None and source_label_key not in source_keys`. -/
def sourceKeysGuard (slk : String) (skO : Option (List String)) : Bool :=
  match skO with
  | some sk => !sk.contains slk
  | Option.none => false

/-- `EntityService._prep_data_for_merge`: default the label key and match
keys, sort the match keys, reject an allow-list that omits the label key,
index the source rows (failing on duplicate composite keys), then classify
every target row. -/
def prep_data_for_merge (source_data target_data : List Row)
    (match_keys : Option (List String) := Option.none)
    (source_label_key : Option String := some "label")
    (source_keys : Option (List String) := Option.none) :
    Except MergeError MergeActions := do
  let slk := source_label_key.getD "label"
  let mks := sortStrings (match_keys.getD ["label"])
  if sourceKeysGuard slk source_keys then
    throw .sourceKeysMissingLabel
  let sa ← prepSource slk source_keys mks source_data
  let ta ← target_data.foldlM (targetStep mks) { src := sa.src }
  pure { match_keys := mks
         to_insert := ta.src
         to_update := ta.to_update
         to_delete := ta.to_delete
         source_keys := sa.source_keys
         target_keys := ta.target_keys }

/-- One remote call issued by `EntityService.merge`, in issue order: the
snapshot read (`get_table`), one property registration
(`EntityListPropertyService.create`) per new field, the single batched create
(`create_many`, carrying the reshaped label/data pairs), one `update` per
changed row (carrying uuid, label, filtered data and the version
precondition), and one `delete` per unmatched target row. -/
inductive NetCall where
  | getTable
  | createProperty (name : String)
  | createMany (entities : List (Value × Row))
  | updateEntity (uuid : String) (label : String) (data : Row) (baseVersion : Int)
  | deleteEntity (uuid : String)
deriving DecidableEq

/-- Python `d[k]` raising a bare `KeyError` when absent. -/
def subscript (r : Row) (k : String) : Except MergeError Value :=
  match r.lookup k with
  | some v => .ok v
  | Option.none => .error (.rawKeyError k)

/-- pydantic's v1 `str_validator` as used by `validate_str`: strings pass
through, numbers and booleans are coerced with `str()`, everything else is a
validation error named after the parameter. -/
def validate_str (v : Value) (key : String) : Except MergeError String :=
  match v with
  | .atom (.str s) => .ok s
  | .atom a =>
    match a with
    | .none => .error (.validationError key)
    | _ => .ok a.pystr
  | _ => .error (.validationError key)

/-- pydantic's v1 `int_validator` as used by `validate_int`: integral kinds
pass through (floats truncate, which is exact for the integral floats
modelled here), numeric strings parse, everything else is an error. -/
def validate_int (v : Value) (key : String) : Except MergeError Int :=
  match v with
  | .atom (.int n) => .ok n
  | .atom (.float n) => .ok n
  | .atom (.bool b) => .ok (if b then 1 else 0)
  | .atom (.str s) =>
    match s.toInt? with
    | some n => .ok n
    | Option.none => .error (.validationError key)
  | _ => .error (.validationError key)

/-- Python `u["__system"]["version"]`: the second subscript requires a
mapping (otherwise `TypeError`) and raises `KeyError` when the field is
absent. -/
def systemVersion (u : Row) : Except MergeError Value := do
  let sys ← subscript u "__system"
  match sys with
  | .dict entries =>
    match entries.lookup "version" with
    | some a => pure (Value.atom a)
    | Option.none => throw (.rawKeyError "version")
  | _ => throw .typeError

/-- The `reshape` helper of `create_many`: each row becomes its label value
paired with its non-label fields; a row without a label raises the
"All data must include a \x27label\x27 key." error. -/
def reshape (rows : List Row) : Except MergeError (List (Value × Row)) :=
  rows.mapM fun i => do
    let lv ← match i.lookup "label" with
      | some v => pure v
      | Option.none => throw MergeError.labelRequired
    pure (lv, (show List (String × Value) from i).filter fun kv => kv.1 ≠ "label")

/-- The outcome of one `merge` invocation: the remote calls issued, in order,
and the returned `MergeActions` (or the error raised). -/
structure MergeOutcome where
  calls : List NetCall
  result : Except MergeError MergeActions
deriving DecidableEq

/-- Construction of one `update` request in the update loop of `merge`:
`u["__id"]`, `u["label"]`, the data filtered to `final_keys`, and
`u["__system"]["version"]` as the optimistic-concurrency precondition
(string/int validation as in `EntityService.update`). -/
def oneUpdateCall (final_keys : List String) (u : Row) : Except MergeError NetCall := do
  let uuidV ← subscript u "__id"
  let labelV ← subscript u "label"
  let versionV ← systemVersion u
  let uuid ← validate_str uuidV "uuid"
  let version ← validate_int versionV "base_version"
  let label ← validate_str labelV "label"
  pure (NetCall.updateEntity uuid label
    ((show List (String × Value) from u).filter fun kv => final_keys.contains kv.1)
    version)

/-- The update phase of `merge`: one request per `to_update` payload, in
order.  A failure while building a request keeps the calls already issued and
stops the loop with that error. -/
def updatePhase (final_keys : List String) : List Row → List NetCall × Option MergeError
  | [] => ([], Option.none)
  | u :: us =>
    match oneUpdateCall final_keys u with
    | .error e => ([], some e)
    | .ok c =>
      let r := updatePhase final_keys us
      (c :: r.1, r.2)

/-- The delete phase of `merge`: one request per `to_delete` row, using
`d["__id"]`; a failure keeps the calls already issued. -/
def deletePhase : List Row → List NetCall × Option MergeError
  | [] => ([], Option.none)
  | d :: ds =>
    match (subscript d "__id" >>= fun v => validate_str v "uuid") with
    | .error e => ([], some e)
    | .ok uuid =>
      let r := deletePhase ds
      (NetCall.deleteEntity uuid :: r.1, r.2)

/-- `EntityService.merge`, as a function of the snapshot the remote returns
for `get_table` (`target_response`) and the caller's arguments, producing the
ordered list of remote calls and the result.  The snapshot read is issued
first; then the diff; then (if `add_new_properties`) one property
registration per source-only field and `final_keys` is set to the key union,
otherwise to the key intersection; then the batched insert of `to_insert`
filtered to label plus `final_keys`; then per-row updates (if
`update_matched`) and per-row deletes (if `delete_not_matched`).  Remote
calls themselves are modelled as succeeding; project/entity-list validation
and the change-source metadata do not affect the call structure and are
omitted. -/
def merge (target_response : List Row) (data : List Row)
    (match_keys : Option (List String) := Option.none)
    (add_new_properties : Bool := true)
    (update_matched : Bool := true)
    (delete_not_matched : Bool := false)
    (source_label_key : Option String := some "label")
    (source_keys : Option (List String) := Option.none) : MergeOutcome :=
  let calls0 : List NetCall := [.getTable]
  match prep_data_for_merge data target_response match_keys source_label_key
      source_keys with
  | .error e => ⟨calls0, .error e⟩
  | .ok ma0 =>
    let propCalls : List NetCall :=
      if add_new_properties then ma0.keys_difference.map NetCall.createProperty
      else []
    let ma :=
      { ma0 with final_keys :=
          if add_new_properties then ma0.keys_union else ma0.keys_intersect }
    let calls1 := calls0 ++ propCalls
    let insertRows := (show List (Key × Row) from ma.to_insert).map Prod.snd
    let insertOutcome : Except MergeError (List NetCall) :=
      if insertRows.length > 0 then do
        let relevant := "label" :: ma.final_keys
        let insertFilter := insertRows.map fun i =>
          (show List (String × Value) from i).filter fun kv => relevant.contains kv.1
        let ents ← reshape insertFilter
        pure [NetCall.createMany ents]
      else pure []
    match insertOutcome with
    | .error e => ⟨calls1, .error e⟩
    | .ok insCalls =>
      let calls2 := calls1 ++ insCalls
      let upd :=
        if update_matched then
          updatePhase ma.final_keys
            ((show List (Key × Row) from ma.to_update).map Prod.snd)
        else ([], Option.none)
      let calls3 := calls2 ++ upd.1
      match upd.2 with
      | some e => ⟨calls3, .error e⟩
      | Option.none =>
        let del :=
          if delete_not_matched then
            deletePhase ((show List (Key × Row) from ma.to_delete).map Prod.snd)
          else ([], Option.none)
        let calls4 := calls3 ++ del.1
        match del.2 with
        | some e => ⟨calls4, .error e⟩
        | Option.none => ⟨calls4, .ok ma⟩

/-- Well-formedness of a key-tuple dict: entries have pairwise inequivalent
keys.  Every dict the engine builds satisfies this. -/
abbrev KWf (d : KDict α) : Prop :=
  (show List (Key × α) from d).Pairwise fun a b => keyEq a.1 b.1 = false

/-- Well-formedness of a row as a model of a Python dict: field names are
distinct. -/
abbrev RowWf (r : Row) : Prop := r.keys.Nodup

/-- The normalized row and composite key that the source loop derives from
one source row. -/
def sourceEntry (slk : String) (skeys : Option (List String)) (mks : List String)
    (s : Row) : Except MergeError (Key × Row) := do
  let row ← normalizeRow slk skeys s
  let key ← get_key row mks
  pure (key, row)

/-- The list of (key, normalized row) pairs of the source loop, in order;
used to state what `prepSource` computes. -/
def sourceList (slk : String) (skeys : Option (List String)) (mks : List String) :
    List Row → Except MergeError (List (Key × Row))
  | [] => .ok []
  | s :: ss => do
    let e ← sourceEntry slk skeys mks s
    let r ← sourceList slk skeys mks ss
    pure (e :: r)

/-- Folding a list of entries into a key-tuple dict by assignment. -/
def insertAll (d : KDict Row) (l : List (Key × Row)) : KDict Row :=
  l.foldl (fun acc e => insertK acc e.1 e.2) d

/-- The effect of the source loop on its accumulator, stated through the
entry list it derives from the source rows. -/
def accApply (acc : SourceAcc) (l : List (Key × Row)) : SourceAcc :=
  { src := insertAll acc.src l
    count := acc.count + l.length
    source_keys := l.foldl (fun sks e => setUnion sks e.2.keys) acc.source_keys }

/-- The name registered by a property-registration call, if the call is one. -/
def NetCall.propertyName : NetCall → Option String
  | .createProperty n => some n
  | _ => Option.none

/-- A row as Central stores it after a create: every value kept as its
`str()` text. -/
def textualizeRow (r : Row) : Row :=
  (show List (String × Value) from r).map fun kv => (kv.1, vstr (pyStr kv.2))

/-- Modelled from the claim: applying one `to_update` payload to its matched
target row — reserved fields keep their payload value (they were copied from
the target), every other staged value is stored as text. -/
def applyUpdate (t p : Row) : Row :=
  (show List (String × Value) from p).foldl
    (fun acc kv =>
      if kv.1 ∈ reserved_keys then acc.insert kv.1 kv.2
      else acc.insert kv.1 (vstr (pyStr kv.2)))
    t

/-- Modelled from the claim: the target collection after applying a computed
`MergeActions` — rows keyed in `to_delete` are removed, rows keyed in
`to_update` receive their payload, and the `to_insert` rows are appended with
all values stored textually.  (A row whose key cannot be computed is kept
unchanged; this cannot arise for a target the diff accepted.) -/
def applyMergeActions (ma : MergeActions) (target_data : List Row) : List Row :=
  (target_data.filterMap fun t =>
    match get_key t ma.match_keys with
    | .error _ => some t
    | .ok k =>
      if containsK ma.to_delete k then Option.none
      else
        match lookupK ma.to_update k with
        | some p => some (applyUpdate t p)
        | Option.none => some t) ++
  (show List (Key × Row) from ma.to_insert).map fun e => textualizeRow e.2

/-- The fate of one target row under a computed `MergeActions`: dropped when
keyed in `to_delete`, patched when keyed in `to_update`, kept otherwise
(the filter body of `applyMergeActions`). -/
def keepRow (ma : MergeActions) (t : Row) : Option Row :=
  match get_key t ma.match_keys with
  | .error _ => some t
  | .ok k =>
    if containsK ma.to_delete k then Option.none
    else
      match lookupK ma.to_update k with
      | some p => some (applyUpdate t p)
      | Option.none => some t

/-- The composite keys of the target rows, in order (the first failing
`get_key` aborts, exactly as the target loop does). -/
def targetKeysOf (mks : List String) : List Row → Except MergeError (List Key)
  | [] => .ok []
  | t :: ts => do
    let k ← get_key t mks
    let r ← targetKeysOf mks ts
    pure (k :: r)

/-- The condition under which one target field marks the matched row changed:
the field is not reserved, the source row has it, and the source value's
`str()` form differs from the target value. -/
def stageCond (matchRow : Row) (kv : String × Value) : Bool :=
  !reserved_keys.contains kv.1 &&
    (match matchRow.lookup kv.1 with
     | some nv => strNeValue (pyStr nv) kv.2
     | Option.none => false)

/-- The condition under which one source field marks the matched row changed
in the second loop: the target row lacks the field. -/
def newCond (t : Row) (kv : String × Value) : Bool := !t.hasKey kv.1

/-- A concrete diff result used to exercise the classification theorem:
source rows \x7b"label": "new"\x7d and \x7b"label": "same", "x": "1"\x7d against
target rows \x7b"label": "same", "x": "1"\x7d and \x7b"label": "gone"\x7d. -/
def C4ma : MergeActions :=
  ⟨["label"], [([vstr "new"], [("label", vstr "new")])], ∅,
   [([vstr "gone"], [("label", vstr "gone")])],
   ["label", "x"], ["label", "x"], []⟩

/-! Python value equality is an equivalence relation. -/

theorem atomEq_refl (a : Atom) : atomEq a a = true := by
  cases a <;> simp [atomEq, Atom.asNum]

theorem atomEq_symm {a b : Atom} (h : atomEq a b = true) : atomEq b a = true := by
  cases a <;> cases b <;> simp_all [atomEq, Atom.asNum]

theorem atomEq_trans {a b c : Atom} (h1 : atomEq a b = true)
    (h2 : atomEq b c = true) : atomEq a c = true := by
  cases a <;> cases b <;> cases c <;> simp_all [atomEq, Atom.asNum]

theorem pyEq_refl (v : Value) : pyEq v v = true := by
  cases v with
  | atom a => simp [pyEq, atomEq_refl]
  | dict l => simp [pyEq]

theorem pyEq_symm {a b : Value} (h : pyEq a b = true) : pyEq b a = true := by
  cases a <;> cases b <;> simp_all [pyEq]
  exact atomEq_symm h

theorem pyEq_trans {a b c : Value} (h1 : pyEq a b = true)
    (h2 : pyEq b c = true) : pyEq a c = true := by
  cases a <;> cases b <;> cases c <;> simp_all [pyEq]
  exact atomEq_trans h1 h2

theorem keyEq_refl (k : Key) : keyEq k k = true := by
  induction k with
  | nil => rfl
  | cons a as ih => simp [keyEq, pyEq_refl, ih]

theorem keyEq_symm {a b : Key} (h : keyEq a b = true) : keyEq b a = true := by
  induction a generalizing b with
  | nil => cases b <;> simp_all [keyEq]
  | cons x xs ih =>
    cases b with
    | nil => simp_all [keyEq]
    | cons y ys =>
      simp only [keyEq, Bool.and_eq_true] at h ⊢
      exact ⟨pyEq_symm h.1, ih h.2⟩

theorem keyEq_trans {a b c : Key} (h1 : keyEq a b = true)
    (h2 : keyEq b c = true) : keyEq a c = true := by
  induction a generalizing b c with
  | nil => cases b <;> cases c <;> simp_all [keyEq]
  | cons x xs ih =>
    cases b with
    | nil => simp_all [keyEq]
    | cons y ys =>
      cases c with
      | nil => simp_all [keyEq]
      | cons z zs =>
        simp only [keyEq, Bool.and_eq_true] at h1 h2 ⊢
        exact ⟨pyEq_trans h1.1 h2.1, ih h1.2 h2.2⟩

theorem keyEq_symm_false {a b : Key} (h : keyEq a b = false) : keyEq b a = false := by
  cases hba : keyEq b a
  · rfl
  · exact absurd (keyEq_symm hba) (by simp [h])

/-! Lookup, insertion and removal on key-tuple dicts. -/

theorem lookupK_congr {d : KDict α} {a b : Key} (h : keyEq a b = true) :
    lookupK d a = lookupK d b := by
  induction d with
  | nil => rfl
  | cons e es ih =>
    by_cases he : keyEq e.1 a = true
    · have : keyEq e.1 b = true := keyEq_trans he h
      simp [lookupK, he, this]
    · have : keyEq e.1 b = false := by
        cases hb : keyEq e.1 b
        · rfl
        · exact absurd (keyEq_trans hb (keyEq_symm h)) he
      simp only [lookupK]
      rw [if_neg (by simp [he]), if_neg (by simp [this])]
      exact ih

theorem lookupK_insertK_eq {d : KDict α} {k x : Key} {v : α}
    (h : keyEq k x = true) : lookupK (insertK d k v) x = some v := by
  induction d with
  | nil => simp [insertK, lookupK, h]
  | cons e es ih =>
    by_cases he : keyEq e.1 k = true
    · have : keyEq e.1 x = true := keyEq_trans he h
      simp [insertK, lookupK, he, this]
    · have hex : keyEq e.1 x = false := by
        cases hb : keyEq e.1 x
        · rfl
        · exact absurd (keyEq_trans hb (keyEq_symm h)) he
      simp only [insertK]
      rw [if_neg (by simp [he])]
      simp only [lookupK]
      rw [if_neg (by simp [hex])]
      exact ih

theorem lookupK_insertK_ne {d : KDict α} {k x : Key} {v : α}
    (h : keyEq k x = false) : lookupK (insertK d k v) x = lookupK d x := by
  induction d with
  | nil => simp [insertK, lookupK, h]
  | cons e es ih =>
    by_cases he : keyEq e.1 k = true
    · have hex : keyEq e.1 x = false := by
        cases hb : keyEq e.1 x
        · rfl
        · exact absurd (keyEq_trans (keyEq_symm he) hb) (by simp [h])
      simp only [insertK]
      rw [if_pos he]
      simp only [lookupK]
      rw [if_neg (by simp [hex]), if_neg (by simp [hex])]
    · simp only [insertK]
      rw [if_neg (by simp [he])]
      simp only [lookupK]
      by_cases hex : keyEq e.1 x = true
      · simp [hex]
      · rw [if_neg (by simp [hex]), if_neg (by simp [hex])]
        exact ih

theorem popK_fst (d : KDict α) (k : Key) : (popK d k).1 = lookupK d k := by
  induction d with
  | nil => rfl
  | cons e es ih =>
    by_cases he : keyEq e.1 k = true
    · simp [popK, lookupK, he]
    · simp [popK, lookupK, he, ih]

theorem lookupK_popK_ne {d : KDict α} {k x : Key} (h : keyEq k x = false) :
    lookupK (popK d k).2 x = lookupK d x := by
  induction d with
  | nil => rfl
  | cons e es ih =>
    by_cases he : keyEq e.1 k = true
    · have hex : keyEq e.1 x = false := by
        cases hb : keyEq e.1 x
        · rfl
        · exact absurd (keyEq_trans (keyEq_symm he) hb) (by simp [h])
      simp [popK, lookupK, he, hex]
    · simp only [popK]
      rw [if_neg (by simp [he])]
      simp only [lookupK]
      by_cases hex : keyEq e.1 x = true
      · simp [hex]
      · rw [if_neg (by simp [hex]), if_neg (by simp [hex])]
        exact ih

theorem KWf_nil : KWf ([] : KDict α) := List.Pairwise.nil

theorem lookupK_eq_none_of_all_ne {d : KDict α} {x : Key}
    (h : ∀ f ∈ (show List (Key × α) from d), keyEq f.1 x = false) :
    lookupK d x = Option.none := by
  induction d with
  | nil => rfl
  | cons e es ih =>
    simp only [lookupK]
    rw [if_neg (by simp [h e (by simp)])]
    exact ih fun f hf => h f (by simp [hf])

theorem popK_sublist (d : KDict α) (k : Key) :
    (show List (Key × α) from (popK d k).2).Sublist d := by
  induction d with
  | nil => simp [popK]
  | cons e es ih =>
    by_cases he : keyEq e.1 k = true
    · simp only [popK]
      rw [if_pos he]
      exact List.sublist_cons_self e es
    · simp only [popK]
      rw [if_neg (by simp [he])]
      exact List.Sublist.cons₂ e ih

theorem KWf_popK {d : KDict α} (h : KWf d) (k : Key) : KWf (popK d k).2 := by
  induction d with
  | nil => exact h
  | cons e es ih =>
    rcases h with _ | ⟨hhead, htail⟩
    by_cases he : keyEq e.1 k = true
    · simp only [popK]
      rw [if_pos he]
      exact htail
    · simp only [popK]
      rw [if_neg (by simp [he])]
      refine List.Pairwise.cons ?_ (ih htail)
      intro b hb
      exact hhead b ((popK_sublist es k).mem hb)

theorem lookupK_popK_eq {d : KDict α} (hwf : KWf d) {k x : Key}
    (h : keyEq k x = true) : lookupK (popK d k).2 x = Option.none := by
  induction d with
  | nil => rfl
  | cons e es ih =>
    rcases hwf with _ | ⟨hhead, htail⟩
    by_cases he : keyEq e.1 k = true
    · simp only [popK]
      rw [if_pos he]
      have hex : keyEq e.1 x = true := keyEq_trans he h
      refine lookupK_eq_none_of_all_ne fun f hf => ?_
      have hef : keyEq e.1 f.1 = false := hhead f hf
      cases hb : keyEq f.1 x
      · rfl
      · exact absurd (keyEq_trans hex (keyEq_symm hb)) (by simp [hef])
    · simp only [popK]
      rw [if_neg (by simp [he])]
      simp only [lookupK]
      have hex : keyEq e.1 x = false := by
        cases hb : keyEq e.1 x
        · rfl
        · exact absurd (keyEq_trans hb (keyEq_symm h)) he
      rw [if_neg (by simp [hex])]
      exact ih htail

theorem lookupK_append (d e : List (Key × α)) (x : Key) :
    lookupK (show KDict α from d ++ e) x =
      match lookupK (show KDict α from d) x with
      | some v => some v
      | Option.none => lookupK (show KDict α from e) x := by
  induction d with
  | nil => rfl
  | cons f fs ih =>
    by_cases hf : keyEq f.1 x = true
    · show (if keyEq f.1 x = true then some f.2
        else lookupK (show KDict α from fs ++ e) x) = _
      rw [if_pos hf]
      show _ = (match (if keyEq f.1 x = true then some f.2
        else lookupK (show KDict α from fs) x) with
        | some v => some v
        | Option.none => lookupK (show KDict α from e) x)
      rw [if_pos hf]
    · show (if keyEq f.1 x = true then some f.2
        else lookupK (show KDict α from fs ++ e) x) = _
      rw [if_neg (by simp [hf])]
      show _ = (match (if keyEq f.1 x = true then some f.2
        else lookupK (show KDict α from fs) x) with
        | some v => some v
        | Option.none => lookupK (show KDict α from e) x)
      rw [if_neg (by simp [hf])]
      exact ih

theorem insertK_entry_keys {d : KDict α} {k : Key} {v f} :
    f ∈ (show List (Key × α) from insertK d k v) →
      (∃ g ∈ (show List (Key × α) from d), f.1 = g.1) ∨ f = (k, v) := by
  induction d with
  | nil =>
    intro hf
    simp [insertK] at hf
    exact Or.inr hf
  | cons e es ih =>
    intro hf
    by_cases he : keyEq e.1 k = true
    · simp only [insertK] at hf
      rw [if_pos he] at hf
      rcases List.mem_cons.1 hf with h | h
      · exact Or.inl ⟨e, by simp, by simp [h]⟩
      · exact Or.inl ⟨f, by simp [h], rfl⟩
    · simp only [insertK] at hf
      rw [if_neg (by simp [he])] at hf
      rcases List.mem_cons.1 hf with h | h
      · exact Or.inl ⟨e, by simp, by simp [h]⟩
      · rcases ih h with ⟨g, hg, hfg⟩ | h2
        · exact Or.inl ⟨g, by simp [hg], hfg⟩
        · exact Or.inr h2

theorem KWf_insertK {d : KDict α} (h : KWf d) {k : Key} (v : α) :
    KWf (insertK d k v) := by
  induction d with
  | nil => simp [KWf, insertK]
  | cons e es ih =>
    rcases h with _ | ⟨hhead, htail⟩
    by_cases he : keyEq e.1 k = true
    · simp only [KWf, insertK]
      rw [if_pos he]
      exact List.Pairwise.cons hhead htail
    · simp only [KWf, insertK]
      rw [if_neg (by simp [he])]
      refine List.Pairwise.cons ?_ (ih htail)
      intro b hb
      rcases insertK_entry_keys hb with ⟨g, hg, hbg⟩ | hbk
      · rw [hbg]; exact hhead g hg
      · rw [hbk]; exact (by simpa using he)

theorem lenK_insertK (d : KDict α) (k : Key) (v : α) :
    lenK (insertK d k v) = if containsK d k then lenK d else lenK d + 1 := by
  induction d with
  | nil => simp [insertK, lenK, containsK, lookupK]
  | cons e es ih =>
    by_cases he : keyEq e.1 k = true
    · simp [insertK, lenK, containsK, lookupK, he]
    · have h1 : insertK (show KDict α from e :: es) k v =
          (show KDict α from e :: insertK es k v) := by
        show (if keyEq e.1 k = true then (e.1, v) :: es else e :: insertK es k v) = _
        rw [if_neg (by simp [he])]
      have h2 : containsK (show KDict α from e :: es) k = containsK es k := by
        show (if keyEq e.1 k = true then some e.2 else lookupK es k).isSome = _
        rw [if_neg (by simp [he])]
        rfl
      rw [h1, h2]
      show (insertK es k v : List (Key × α)).length + 1 = _
      by_cases hc : containsK es k = true
      · rw [if_pos hc] at ih
        rw [if_pos hc]
        show _ = (show List (Key × α) from e :: es).length
        simp only [List.length_cons]
        exact congrArg (· + 1) ih
      · rw [if_neg (by simpa using hc)] at ih
        rw [if_neg (by simpa using hc)]
        show _ = (show List (Key × α) from e :: es).length + 1
        simp only [List.length_cons]
        simp only [lenK] at ih
        omega

theorem insertK_of_not_contains {d : KDict α} {k : Key}
    (h : containsK d k = false) (v : α) :
    insertK d k v = (show List (Key × α) from d) ++ [(k, v)] := by
  induction d with
  | nil => rfl
  | cons e es ih =>
    simp only [containsK, lookupK] at h
    by_cases he : keyEq e.1 k = true
    · rw [if_pos he] at h
      simp at h
    · rw [if_neg (by simp [he])] at h
      simp only [insertK]
      rw [if_neg (by simp [he])]
      simp only [List.cons_append]
      rw [ih h]

theorem KDict_nil_of_lookups_none {d : KDict α}
    (h : ∀ K, lookupK d K = Option.none) :
    (show List (Key × α) from d) = [] := by
  cases hd : (show List (Key × α) from d) with
  | nil => rfl
  | cons e es =>
    have := h e.1
    rw [show d = (show KDict α from e :: es) from hd] at this
    simp [lookupK, keyEq_refl] at this

theorem lenK_insertAll_le (l : List (Key × Row)) :
    ∀ d : KDict Row, lenK (insertAll d l) ≤ lenK d + l.length := by
  induction l with
  | nil => intro d; simp [insertAll]
  | cons e rest ih =>
    intro d
    have step := lenK_insertK d e.1 e.2
    have hrec := ih (insertK d e.1 e.2)
    simp only [insertAll, List.foldl_cons] at *
    by_cases hc : containsK d e.1 = true
    · rw [if_pos hc] at step
      simp only [List.length_cons]
      omega
    · rw [if_neg (by simpa using hc)] at step
      simp only [List.length_cons]
      omega

theorem insertAll_len_eq (l : List (Key × Row)) :
    ∀ d : KDict Row, lenK (insertAll d l) = lenK d + l.length →
      (∀ e ∈ l, containsK d e.1 = false) ∧
      (l.map Prod.fst).Pairwise (fun a b => keyEq a b = false) ∧
      insertAll d l = (show List (Key × Row) from d) ++ l := by
  induction l with
  | nil => intro d _; exact ⟨by simp, by simp, by simp [insertAll]⟩
  | cons e rest ih =>
    intro d hlen
    have step := lenK_insertK d e.1 e.2
    have hbound := lenK_insertAll_le rest (insertK d e.1 e.2)
    simp only [insertAll, List.foldl_cons] at hlen hbound ⊢
    by_cases hc : containsK d e.1 = true
    · rw [if_pos hc] at step
      rw [step] at hbound
      simp only [List.length_cons] at hlen
      omega
    · have hc' : containsK d e.1 = false := by simpa using hc
      rw [if_neg (by simpa using hc)] at step
      rw [step] at hbound
      have hlen' : lenK (insertAll (insertK d e.1 e.2) rest) =
          lenK (insertK d e.1 e.2) + rest.length := by
        simp only [insertAll, List.length_cons] at hlen ⊢
        omega
      obtain ⟨hfresh, hpw, happ⟩ := ih (insertK d e.1 e.2) hlen'
      rw [insertK_of_not_contains hc' e.2] at hfresh happ
      have hfreshd : ∀ f ∈ rest, containsK d f.1 = false := by
        intro f hf
        have := hfresh f hf
        simp only [containsK, lookupK_append] at this ⊢
        cases hdf : lookupK d f.1 with
        | none => rfl
        | some v => rw [hdf] at this; simp at this
      have hfreshe : ∀ f ∈ rest, keyEq e.1 f.1 = false := by
        intro f hf
        have := hfresh f hf
        simp only [containsK, lookupK_append] at this
        cases hdf : lookupK d f.1 with
        | none =>
          rw [hdf] at this
          simp only [lookupK] at this
          by_cases hef : keyEq e.1 f.1 = true
          · rw [if_pos hef] at this; simp at this
          · simpa using hef
        | some v => rw [hdf] at this; simp at this
      refine ⟨?_, ?_, ?_⟩
      · intro f hf
        rcases List.mem_cons.1 hf with h | h
        · rw [h]; exact hc'
        · exact hfreshd f h
      · simp only [List.map_cons]
        refine List.Pairwise.cons ?_ hpw
        intro b hb
        rcases List.mem_map.1 hb with ⟨f, hf, hbf⟩
        rw [← hbf]
        exact hfreshe f hf
      · rw [insertK_of_not_contains hc' e.2]
        exact happ.trans (by simp)

theorem KWf_of_pairwise_keys {l : List (Key × Row)}
    (h : (l.map Prod.fst).Pairwise fun a b => keyEq a b = false) :
    KWf (show KDict Row from l) := by
  simpa [KWf] using (List.pairwise_map.1 h)

/-! Python set model: membership and distinctness. -/

theorem mem_setInsert {s : List String} {k x : String} :
    x ∈ setInsert s k ↔ x ∈ s ∨ x = k := by
  by_cases h : k ∈ s
  · simp only [setInsert, if_pos h]
    constructor
    · exact Or.inl
    · rintro (hx | rfl)
      · exact hx
      · exact h
  · simp [setInsert, if_neg h]

theorem nodup_setInsert {s : List String} (h : s.Nodup) (k : String) :
    (setInsert s k).Nodup := by
  by_cases hk : k ∈ s
  · simpa [setInsert, if_pos hk] using h
  · simp only [setInsert, if_neg hk]
    simpa [List.nodup_append] using ⟨h, fun hks => hk hks⟩

theorem mem_setUnion {s ks : List String} {x : String} :
    x ∈ setUnion s ks ↔ x ∈ s ∨ x ∈ ks := by
  induction ks generalizing s with
  | nil => simp [setUnion]
  | cons k rest ih =>
    simp only [setUnion, List.foldl_cons] at *
    rw [ih]
    rw [mem_setInsert]
    constructor
    · rintro ((hx | rfl) | hx)
      · exact Or.inl hx
      · exact Or.inr (by simp)
      · exact Or.inr (by simp [hx])
    · rintro (hx | hx)
      · exact Or.inl (Or.inl hx)
      · rcases List.mem_cons.1 hx with rfl | hx
        · exact Or.inl (Or.inr rfl)
        · exact Or.inr hx

theorem nodup_setUnion {s : List String} (h : s.Nodup) (ks : List String) :
    (setUnion s ks).Nodup := by
  induction ks generalizing s with
  | nil => exact h
  | cons k rest ih => exact ih (nodup_setInsert h k)

/-! Rows as Python dicts: lookup, assignment, key sets. -/

theorem Row.lookup_insert (r : Row) (k : String) (v : Value) (x : String) :
    (r.insert k v).lookup x = if k = x then some v else r.lookup x := by
  induction r with
  | nil =>
    by_cases h : k = x <;> simp [Row.insert, Row.lookup, h]
  | cons e es ih =>
    by_cases he : e.1 = k
    · subst he
      by_cases hx : e.1 = x <;> simp [Row.insert, Row.lookup, hx]
    · show Row.lookup (if e.1 = k then (e.1, v) :: es else e :: Row.insert es k v) x = _
      rw [if_neg he]
      show (if e.1 = x then some e.2 else (Row.insert es k v).lookup x) = _
      by_cases hx : e.1 = x
      · have : ¬(k = x) := fun hkx => he (hkx ▸ hx)
        rw [if_pos hx, if_neg this]
        show _ = Row.lookup (show Row from e :: es) x
        simp [Row.lookup, hx]
      · rw [if_neg hx, ih]
        by_cases hkx : k = x
        · rw [if_pos hkx, if_pos hkx]
        · rw [if_neg hkx, if_neg hkx]
          show _ = Row.lookup (show Row from e :: es) x
          simp [Row.lookup, hx]

theorem Row.keys_insert (r : Row) (k : String) (v : Value) :
    (r.insert k v).keys = if r.hasKey k then r.keys else r.keys ++ [k] := by
  induction r with
  | nil => simp [Row.insert, Row.keys, Row.hasKey, Row.lookup]
  | cons e es ih =>
    by_cases he : e.1 = k
    · simp [Row.insert, Row.keys, Row.hasKey, Row.lookup, he]
    · show ((if e.1 = k then (e.1, v) :: es else e :: Row.insert es k v) : Row).keys = _
      rw [if_neg he]
      have hhk : (show Row from e :: es).hasKey k = (show Row from es).hasKey k := by
        simp [Row.hasKey, Row.lookup, he]
      rw [hhk]
      show e.1 :: (Row.insert es k v).keys = _
      rw [ih]
      by_cases hc : (show Row from es).hasKey k = true
      · rw [if_pos hc, if_pos hc]
        rfl
      · rw [if_neg (by simpa using hc), if_neg (by simpa using hc)]
        rfl

theorem Row.lookup_isSome_iff_mem_keys {r : Row} {k : String} :
    (r.lookup k).isSome = true ↔ k ∈ r.keys := by
  induction r with
  | nil => simp [Row.lookup, Row.keys]
  | cons e es ih =>
    show (if e.1 = k then some e.2 else Row.lookup es k).isSome = true ↔
      k ∈ e.1 :: Row.keys es
    by_cases he : e.1 = k
    · simp [he]
    · rw [if_neg he]
      simp only [List.mem_cons]
      rw [ih]
      constructor
      · exact Or.inr
      · rintro (rfl | h)
        · exact absurd rfl he
        · exact h

theorem Row.lookup_eq_none_iff {r : Row} {k : String} :
    r.lookup k = Option.none ↔ k ∉ r.keys := by
  rw [← Row.lookup_isSome_iff_mem_keys]
  cases r.lookup k <;> simp

theorem RowWf_insert {r : Row} (h : RowWf r) (k : String) (v : Value) :
    RowWf (r.insert k v) := by
  unfold RowWf
  rw [Row.keys_insert]
  by_cases hc : r.hasKey k = true
  · rw [if_pos hc]; exact h
  · rw [if_neg (by simpa using hc)]
    have hk : k ∉ r.keys := fun hmem => by
      have h1 := Row.lookup_isSome_iff_mem_keys.2 hmem
      simp only [Row.hasKey] at hc
      exact hc h1
    simpa [List.nodup_append] using ⟨h, hk⟩

theorem Row.lookup_eq_some_of_mem {r : Row} (hwf : RowWf r) {k : String} {v : Value}
    (h : (k, v) ∈ (show List (String × Value) from r)) : r.lookup k = some v := by
  induction r with
  | nil => cases h
  | cons e es ih =>
    rcases hwf with _ | ⟨hhead, htail⟩
    rcases List.mem_cons.1 h with rfl | hm
    · simp [Row.lookup]
    · show (if e.1 = k then some e.2 else Row.lookup es k) = some v
      by_cases he : e.1 = k
      · exfalso
        have : k ∈ Row.keys es := List.mem_map.2 ⟨(k, v), hm, rfl⟩
        exact (List.nodup_cons.1 (by simpa [Row.keys] using
          (show (Row.keys (show Row from e :: es)).Nodup from
            List.Pairwise.cons hhead htail))).1 (he ▸ this)
      · rw [if_neg he]
        exact ih htail hm

theorem Row.mem_of_lookup_eq_some {r : Row} {k : String} {v : Value}
    (h : r.lookup k = some v) : (k, v) ∈ (show List (String × Value) from r) := by
  induction r with
  | nil => cases h
  | cons e es ih =>
    revert h
    show (if e.1 = k then some e.2 else Row.lookup es k) = some v → _
    by_cases he : e.1 = k
    · rw [if_pos he]
      intro h
      injection h with h2
      exact List.mem_cons.2 (Or.inl (by rw [← he, ← h2]))
    · rw [if_neg he]
      intro h
      exact List.mem_cons.2 (Or.inr (ih h))

/-! The row normalizer. -/

theorem foldl_insert_filtered_lookup (keep : String → Bool)
    (es : List (String × Value)) :
    ∀ (acc : Row) (x : String), (es.map Prod.fst).Nodup →
      Row.lookup
        (es.foldl (fun r kv => if keep kv.1 then r.insert kv.1 kv.2 else r) acc) x =
      match Row.lookup (show Row from es) x with
      | some v => if keep x then some v else acc.lookup x
      | Option.none => acc.lookup x := by
  induction es with
  | nil => intro acc x _; rfl
  | cons e rest ih =>
    intro acc x hnd
    rcases List.nodup_cons.1 hnd with ⟨hek, hrest⟩
    simp only [List.foldl_cons]
    rw [ih _ x hrest]
    by_cases hx : e.1 = x
    · have hrx : Row.lookup (show Row from rest) x = Option.none :=
        Row.lookup_eq_none_iff.2 (by simpa [Row.keys, hx] using hek)
      have hlx : Row.lookup (show Row from e :: rest) x = some e.2 := by
        simp [Row.lookup, hx]
      simp only [hrx, hlx]
      by_cases hk : keep e.1 = true
      · have hkx : keep x = true := hx ▸ hk
        rw [if_pos hk, if_pos hkx, Row.lookup_insert, if_pos hx]
      · have hkx : ¬ keep x = true := by rw [← hx]; exact hk
        rw [if_neg hk, if_neg hkx]
    · have hlx : Row.lookup (show Row from e :: rest) x =
          Row.lookup (show Row from rest) x := by
        simp [Row.lookup, hx]
      rw [hlx]
      have hacc : Row.lookup (if keep e.1 = true then acc.insert e.1 e.2 else acc) x =
          acc.lookup x := by
        by_cases hk : keep e.1 = true
        · rw [if_pos hk, Row.lookup_insert, if_neg hx]
        · rw [if_neg hk]
      cases hr : Row.lookup (show Row from rest) x with
      | none => simpa only [hr] using hacc
      | some v =>
        simp only [hr]
        by_cases hkx : keep x = true
        · rw [if_pos hkx, if_pos hkx]
        · rw [if_neg hkx, if_neg hkx, hacc]

theorem normalizeRow_ok {slk : String} {sk : Option (List String)} {s : Row}
    {lv : Value} (hl : s.lookup slk = some lv) :
    normalizeRow slk sk s =
      .ok ((show List (String × Value) from s).foldl
        (fun r kv =>
          if keepField slk sk kv.1 then r.insert kv.1 kv.2 else r)
        [("label", lv)]) := by
  simp only [normalizeRow, hl]

theorem normalizeRow_lookup {slk : String} {sk : Option (List String)} {s : Row}
    {lv : Value} (hwf : RowWf s) (hl : s.lookup slk = some lv) (x : String) :
    ∃ r, normalizeRow slk sk s = .ok r ∧
      r.lookup x =
        match s.lookup x with
        | some v =>
          if keepField slk sk x then some v
          else if x = "label" then some lv else Option.none
        | Option.none => if x = "label" then some lv else Option.none := by
  refine ⟨_, normalizeRow_ok hl, ?_⟩
  rw [foldl_insert_filtered_lookup (keepField slk sk) _ _ x hwf]
  have hbase : Row.lookup (show Row from [("label", lv)]) x =
      if x = "label" then some lv else Option.none := by
    by_cases hx : x = "label"
    · simp [Row.lookup, hx]
    · show (if "label" = x then some lv else Row.lookup (show Row from []) x) = _
      rw [if_neg (fun h => hx h.symm), if_neg hx]
      rfl
  cases hsx : s.lookup x with
  | none => exact hbase
  | some v =>
    show (if keepField slk sk x = true then some v
        else Row.lookup (show Row from [("label", lv)]) x) =
      (if keepField slk sk x = true then some v
        else if x = "label" then some lv else Option.none)
    by_cases hk : keepField slk sk x = true
    · rw [if_pos hk, if_pos hk]
    · rw [if_neg hk, if_neg hk]
      exact hbase

theorem normalizeRow_wf {slk : String} {sk : Option (List String)} {s r : Row}
    (h : normalizeRow slk sk s = .ok r) : RowWf r := by
  revert h
  unfold normalizeRow
  cases hl : s.lookup slk with
  | none => intro h; cases h
  | some lv =>
    intro h
    injection h with h
    subst h
    have : ∀ (es : List (String × Value)) (acc : Row), RowWf acc →
        RowWf (es.foldl (fun r kv =>
          if keepField slk sk kv.1 then r.insert kv.1 kv.2 else r) acc) := by
      intro es
      induction es with
      | nil => intro acc hacc; exact hacc
      | cons e rest ih =>
        intro acc hacc
        simp only [List.foldl_cons]
        refine ih _ ?_
        by_cases hk : keepField slk sk e.1 = true
        · rw [if_pos hk]; exact RowWf_insert hacc e.1 e.2
        · rw [if_neg hk]; exact hacc
    exact this _ _ (by simp [RowWf, Row.keys])

/-! The source phase: what `prepSource` computes, via `sourceList`. -/

theorem sourceStep_eq (slk : String) (sk : Option (List String)) (mks : List String)
    (acc : SourceAcc) (s : Row) :
    sourceStep slk sk mks acc s =
      (sourceEntry slk sk mks s).map fun e =>
        { src := insertK acc.src e.1 e.2
          count := acc.count + 1
          source_keys := setUnion acc.source_keys e.2.keys } := by
  unfold sourceStep sourceEntry
  cases hn : normalizeRow slk sk s with
  | error e => simp [hn, Except.map, Except.bind, Bind.bind]
  | ok row =>
    cases hk : get_key row mks with
    | error e => simp [hn, hk, Except.map, Except.bind, Bind.bind]
    | ok key => simp [hn, hk, Except.map, Except.bind, Bind.bind, pure, Except.pure]

theorem sourceFold_eq (slk : String) (sk : Option (List String)) (mks : List String)
    (S : List Row) :
    ∀ acc, S.foldlM (sourceStep slk sk mks) acc =
      (sourceList slk sk mks S).map (accApply acc) := by
  induction S with
  | nil => intro acc; rfl
  | cons s ss ih =>
    intro acc
    rw [List.foldlM_cons, sourceStep_eq]
    cases he : sourceEntry slk sk mks s with
    | error e => simp [sourceList, he, Except.map, Except.bind, Bind.bind]
    | ok e =>
      simp only [Except.map, Bind.bind, Except.bind]
      rw [ih]
      cases hsl : sourceList slk sk mks ss with
      | error err => simp [sourceList, he, hsl, Except.map, Except.bind, Bind.bind]
      | ok l =>
        simp only [sourceList, he, hsl, Except.map, Except.bind, Bind.bind, pure,
          Except.pure]
        congr 1
        simp only [accApply, insertAll, List.foldl_cons, List.length_cons]
        congr 1
        omega

theorem sourceList_length {slk : String} {sk : Option (List String)}
    {mks : List String} {S : List Row} {l : List (Key × Row)}
    (h : sourceList slk sk mks S = .ok l) : l.length = S.length := by
  induction S generalizing l with
  | nil => cases h; rfl
  | cons s ss ih =>
    revert h
    unfold sourceList
    cases he : sourceEntry slk sk mks s with
    | error e => intro h; cases h
    | ok e =>
      simp only [Except.bind, Bind.bind]
      cases hsl : sourceList slk sk mks ss with
      | error err => intro h; cases h
      | ok r =>
        intro h
        injection h with h
        subst h
        simp [ih hsl]

theorem prepSource_ok_inv {slk : String} {sk : Option (List String)}
    {mks : List String} {S : List Row} {sa : SourceAcc}
    (h : prepSource slk sk mks S = .ok sa) :
    ∃ l, sourceList slk sk mks S = .ok l ∧
      sa.src = (show KDict Row from l) ∧
      (l.map Prod.fst).Pairwise (fun a b => keyEq a b = false) ∧
      sa.count = l.length ∧
      sa.source_keys = l.foldl (fun sks e => setUnion sks e.2.keys) [] := by
  revert h
  unfold prepSource
  rw [sourceFold_eq]
  cases hsl : sourceList slk sk mks S with
  | error e => intro h; cases h
  | ok l =>
    simp only [Except.map, Except.bind, Bind.bind]
    by_cases hlen : lenK (accApply {} l).src ≠ (accApply {} l).count
    · rw [if_pos hlen]
      intro h; cases h
    · rw [if_neg hlen]
      intro h
      injection h with h
      subst h
      push_neg at hlen
      have hlen2 : lenK (insertAll ∅ l) = lenK (∅ : KDict Row) + l.length := by
        have h0 : lenK (∅ : KDict Row) = 0 := rfl
        rw [h0]
        simpa [accApply, lenK] using hlen
      obtain ⟨_, hpw, happ⟩ := insertAll_len_eq l ∅ hlen2
      refine ⟨l, rfl, ?_, hpw, ?_, rfl⟩
      · exact happ
      · simp [accApply]

theorem prepSource_dup {slk : String} {sk : Option (List String)}
    {mks : List String} {S : List Row} {l : List (Key × Row)}
    (hsl : sourceList slk sk mks S = .ok l)
    (hdup : ¬ (l.map Prod.fst).Pairwise fun a b => keyEq a b = false) :
    prepSource slk sk mks S = .error .duplicateMatchKeys := by
  unfold prepSource
  rw [sourceFold_eq, hsl]
  simp only [Except.map, Except.bind, Bind.bind]
  have hne : lenK (accApply {} l).src ≠ (accApply {} l).count := by
    intro heq
    have hlen2 : lenK (insertAll ∅ l) = lenK (∅ : KDict Row) + l.length := by
      have h0 : lenK (∅ : KDict Row) = 0 := rfl
      rw [h0]
      simpa [accApply, lenK] using heq
    exact hdup (insertAll_len_eq l ∅ hlen2).2.1
  rw [if_pos hne]

theorem prepSource_error {slk : String} {sk : Option (List String)}
    {mks : List String} {S : List Row} {e : MergeError}
    (hsl : sourceList slk sk mks S = .error e) :
    prepSource slk sk mks S = .error e := by
  unfold prepSource
  rw [sourceFold_eq, hsl]
  rfl

/-! The update-payload builder: changed flag and payload contents. -/

theorem contains_eq_true_iff_mem {l : List String} {x : String} :
    l.contains x = true ↔ x ∈ l := List.elem_iff

theorem updStep1_flag (m : Row) (b : UpdateBuild) (kv : String × Value) :
    (updStep1 m b kv).for_update = (b.for_update || stageCond m kv) := by
  unfold updStep1 stageCond
  by_cases hr : kv.1 ∈ reserved_keys
  · have hrc : reserved_keys.contains kv.1 = true := contains_eq_true_iff_mem.2 hr
    rw [if_pos hr, hrc]
    simp
  · have hrc : reserved_keys.contains kv.1 = false := by
      cases hc : reserved_keys.contains kv.1
      · rfl
      · exact absurd (contains_eq_true_iff_mem.1 hc) hr
    rw [if_neg hr, hrc]
    cases hm : m.lookup kv.1 with
    | none => simp
    | some nv =>
      cases hs : strNeValue (pyStr nv) kv.2 <;> simp [hs]

theorem updStep2_flag (t : Row) (b : UpdateBuild) (kv : String × Value) :
    (updStep2 t b kv).for_update = (b.for_update || newCond t kv) := by
  unfold updStep2 newCond
  cases ht : t.hasKey kv.1 <;> simp [ht]

theorem foldl_updStep1_flag (m : Row) (ts : List (String × Value)) :
    ∀ b : UpdateBuild,
      (ts.foldl (updStep1 m) b).for_update = (b.for_update || ts.any (stageCond m)) := by
  induction ts with
  | nil => intro b; simp
  | cons e rest ih =>
    intro b
    simp only [List.foldl_cons, List.any_cons]
    rw [ih, updStep1_flag]
    simp [Bool.or_assoc]

theorem foldl_updStep2_flag (t : Row) (ms : List (String × Value)) :
    ∀ b : UpdateBuild,
      (ms.foldl (updStep2 t) b).for_update = (b.for_update || ms.any (newCond t)) := by
  induction ms with
  | nil => intro b; simp
  | cons e rest ih =>
    intro b
    simp only [List.foldl_cons, List.any_cons]
    rw [ih, updStep2_flag]
    simp [Bool.or_assoc]

theorem buildUpdate_flag (t m : Row) :
    (buildUpdate t m).for_update =
      ((show List (String × Value) from t).any (stageCond m) ||
        (show List (String × Value) from m).any (newCond t)) := by
  unfold buildUpdate
  rw [foldl_updStep2_flag, foldl_updStep1_flag]
  rfl

theorem foldl_updStep1_lookup (m : Row) (ts : List (String × Value)) :
    ∀ (b : UpdateBuild) (k : String), (ts.map Prod.fst).Nodup →
      (ts.foldl (updStep1 m) b).new_data.lookup k =
        match Row.lookup (show Row from ts) k with
        | some tv =>
          if k ∈ reserved_keys then some tv
          else
            match m.lookup k with
            | some nv =>
              if strNeValue (pyStr nv) tv then some nv else b.new_data.lookup k
            | Option.none => b.new_data.lookup k
        | Option.none => b.new_data.lookup k := by
  induction ts with
  | nil => intro b k _; rfl
  | cons e rest ih =>
    intro b k hnd
    rcases List.nodup_cons.1 hnd with ⟨hek, hrest⟩
    simp only [List.foldl_cons]
    rw [ih _ k hrest]
    by_cases hk : e.1 = k
    · have hrk : Row.lookup (show Row from rest) k = Option.none :=
        Row.lookup_eq_none_iff.2 (by simpa [Row.keys, hk] using hek)
      have hlk : Row.lookup (show Row from e :: rest) k = some e.2 := by
        simp [Row.lookup, hk]
      simp only [hrk, hlk]
      subst hk
      unfold updStep1
      by_cases hr : e.1 ∈ reserved_keys
      · rw [if_pos hr, if_pos hr]
        simp [Row.lookup_insert]
      · rw [if_neg hr, if_neg hr]
        cases hm : m.lookup e.1 with
        | none => rfl
        | some nv =>
          cases hs : strNeValue (pyStr nv) e.2 <;>
            simp [hs, Row.lookup_insert]
    · have hlk : Row.lookup (show Row from e :: rest) k =
          Row.lookup (show Row from rest) k := by
        simp [Row.lookup, hk]
      rw [hlk]
      have hb : (updStep1 m b e).new_data.lookup k = b.new_data.lookup k := by
        unfold updStep1
        by_cases hr : e.1 ∈ reserved_keys
        · rw [if_pos hr]
          simp [Row.lookup_insert, hk]
        · rw [if_neg hr]
          cases hm : m.lookup e.1 with
          | none => rfl
          | some nv =>
            cases hs : strNeValue (pyStr nv) e.2 <;>
              simp [hs, Row.lookup_insert, hk]
      cases hr : Row.lookup (show Row from rest) k with
      | none => simpa only [hr] using hb
      | some tv =>
        simp only [hr]
        by_cases hres : k ∈ reserved_keys
        · rw [if_pos hres, if_pos hres]
        · rw [if_neg hres, if_neg hres]
          cases hm : m.lookup k with
          | none => dsimp only; exact hb
          | some nv =>
            dsimp only
            by_cases hs : strNeValue (pyStr nv) tv = true
            · rw [if_pos hs, if_pos hs]
            · rw [if_neg hs, if_neg hs]
              exact hb

theorem targetStep_ok {mks : List String} {acc : TargetAcc} {t : Row} {kt : Key}
    (hk : get_key t mks = .ok kt) :
    targetStep mks acc t = .ok (
      match lookupK acc.src kt with
      | Option.none =>
        { acc with target_keys := setUnion acc.target_keys t.keys
                   to_delete := insertK acc.to_delete kt t }
      | some m =>
        if (buildUpdate t m).for_update then
          { acc with target_keys := setUnion acc.target_keys t.keys
                     src := (popK acc.src kt).2
                     to_update := insertK acc.to_update kt (buildUpdate t m).new_data }
        else
          { acc with target_keys := setUnion acc.target_keys t.keys
                     src := (popK acc.src kt).2 }) := by
  unfold targetStep
  simp only [hk, Except.bind, Bind.bind]
  cases hp : popK acc.src kt with
  | mk o s2 =>
    have ho : lookupK acc.src kt = o := by rw [← popK_fst acc.src kt, hp]
    rw [ho]
    cases o with
    | none => rfl
    | some m =>
      dsimp only
      by_cases hf : (buildUpdate t m).for_update = true
      · rw [if_pos hf, if_pos hf]
        rfl
      · rw [if_neg hf, if_neg hf]
        rfl

theorem foldl_updStep2_lookup (t : Row) (ms : List (String × Value)) :
    ∀ (b : UpdateBuild) (k : String), (ms.map Prod.fst).Nodup →
      (ms.foldl (updStep2 t) b).new_data.lookup k =
        match Row.lookup (show Row from ms) k with
        | some mv => if t.hasKey k then b.new_data.lookup k else some mv
        | Option.none => b.new_data.lookup k := by
  induction ms with
  | nil => intro b k _; rfl
  | cons e rest ih =>
    intro b k hnd
    rcases List.nodup_cons.1 hnd with ⟨hek, hrest⟩
    simp only [List.foldl_cons]
    rw [ih _ k hrest]
    by_cases hk : e.1 = k
    · have hrk : Row.lookup (show Row from rest) k = Option.none :=
        Row.lookup_eq_none_iff.2 (by simpa [Row.keys, hk] using hek)
      have hlk : Row.lookup (show Row from e :: rest) k = some e.2 := by
        simp [Row.lookup, hk]
      simp only [hrk, hlk]
      subst hk
      unfold updStep2
      by_cases ht : t.hasKey e.1 = true
      · rw [if_pos ht, if_pos ht]
      · rw [if_neg ht, if_neg (by simpa using ht)]
        simp [Row.lookup_insert]
    · have hlk : Row.lookup (show Row from e :: rest) k =
          Row.lookup (show Row from rest) k := by
        simp [Row.lookup, hk]
      rw [hlk]
      have hb : (updStep2 t b e).new_data.lookup k = b.new_data.lookup k := by
        unfold updStep2
        by_cases ht : t.hasKey e.1 = true
        · rw [if_pos ht]
        · rw [if_neg ht]
          simp [Row.lookup_insert, hk]
      cases hr : Row.lookup (show Row from rest) k with
      | none => simpa only [hr] using hb
      | some mv =>
        simp only [hr]
        by_cases ht : t.hasKey k = true
        · rw [if_pos ht, if_pos ht]
          exact hb
        · rw [if_neg ht, if_neg ht]

theorem buildUpdate_lookup {t m : Row} (hwt : RowWf t) (hwm : RowWf m) (k : String) :
    (buildUpdate t m).new_data.lookup k =
      match t.lookup k with
      | some tv =>
        if k ∈ reserved_keys then some tv
        else
          match m.lookup k with
          | some nv => if strNeValue (pyStr nv) tv then some nv else Option.none
          | Option.none => Option.none
      | Option.none =>
        match m.lookup k with
        | some nv => some nv
        | Option.none => Option.none := by
  unfold buildUpdate
  rw [foldl_updStep2_lookup _ _ _ k hwm, foldl_updStep1_lookup _ _ _ k hwt]
  cases hm : m.lookup k with
  | none =>
    dsimp only
    cases ht : t.lookup k with
    | none => rfl
    | some tv =>
      dsimp only
      by_cases hres : k ∈ reserved_keys
      · rw [if_pos hres, if_pos hres]
      · rw [if_neg hres, if_neg hres]
        rfl
  | some mv =>
    have hthk : t.hasKey k = (t.lookup k).isSome := rfl
    cases ht : t.lookup k with
    | none =>
      have h1 : t.hasKey k = false := by rw [hthk, ht]; rfl
      dsimp only
      simp only [h1, Bool.false_eq_true, if_false]
    | some tv =>
      have h1 : t.hasKey k = true := by rw [hthk, ht]; rfl
      dsimp only
      simp only [h1, if_true]
      by_cases hres : k ∈ reserved_keys
      · rw [if_pos hres, if_pos hres]
      · rw [if_neg hres, if_neg hres]
        by_cases hs : strNeValue (pyStr mv) tv = true
        · rw [if_pos hs, if_pos hs]
        · rw [if_neg hs, if_neg hs]
          rfl

/-! The target loop, characterized relative to the initial source index. -/

theorem find?_zip_tail_none {ts : List Row} {ks : List Key} {kt K : Key}
    (hhead : ∀ k' ∈ ks, keyEq kt k' = false) (hKk : keyEq kt K = true) :
    (ts.zip ks).find? (fun p => keyEq p.2 K) = Option.none := by
  apply List.find?_eq_none.2
  intro p hp hcon
  have hpk : p.2 ∈ ks := (List.of_mem_zip hp).2
  have : keyEq kt p.2 = true :=
    keyEq_trans hKk (keyEq_symm (by simpa using hcon))
  rw [hhead p.2 hpk] at this
  cases this

theorem targetFold_master (mks : List String) :
    ∀ (T : List Row) (Ks : List Key) (acc : TargetAcc),
      targetKeysOf mks T = .ok Ks →
      Ks.Pairwise (fun a b => keyEq a b = false) →
      KWf acc.src →
      ∃ ta, T.foldlM (targetStep mks) acc = .ok ta ∧
        (∀ K, lookupK ta.src K =
          if Ks.any (fun kt => keyEq kt K) then Option.none else lookupK acc.src K) ∧
        (∀ K, lookupK ta.to_update K =
          match (T.zip Ks).find? (fun p => keyEq p.2 K) with
          | some p =>
            match lookupK acc.src p.2 with
            | some m =>
              if (buildUpdate p.1 m).for_update then some (buildUpdate p.1 m).new_data
              else lookupK acc.to_update K
            | Option.none => lookupK acc.to_update K
          | Option.none => lookupK acc.to_update K) ∧
        (∀ K, lookupK ta.to_delete K =
          match (T.zip Ks).find? (fun p => keyEq p.2 K) with
          | some p =>
            match lookupK acc.src p.2 with
            | some _ => lookupK acc.to_delete K
            | Option.none => some p.1
          | Option.none => lookupK acc.to_delete K) ∧
        ta.target_keys = T.foldl (fun s t => setUnion s t.keys) acc.target_keys := by
  intro T
  induction T with
  | nil =>
    intro Ks acc hmap hpw hwf
    simp only [targetKeysOf] at hmap
    injection hmap with h
    subst h
    exact ⟨acc, rfl, by simp, by simp, by simp, rfl⟩
  | cons t ts ih =>
    intro Ks acc hmap hpw hwf
    simp only [targetKeysOf, Except.bind, Bind.bind] at hmap
    revert hmap
    cases hk : get_key t mks with
    | error e => intro hmap; cases hmap
    | ok kt =>
      cases hks : targetKeysOf mks ts with
      | error e => intro hmap; cases hmap
      | ok ks =>
        intro hmap
        injection hmap with hmap
        subst hmap
        rcases hpw with _ | ⟨hhead0, hpwtail⟩
        have hhead : ∀ k' ∈ ks, keyEq kt k' = false := fun k' hk' => hhead0 k' hk'
        rw [List.foldlM_cons, targetStep_ok hk]
        simp only [Bind.bind, Except.bind]
        cases hsrc : lookupK acc.src kt with
        | some m =>
          dsimp only
          by_cases hf : (buildUpdate t m).for_update = true
          · -- matched, changed
            rw [if_pos hf]
            set acc1 : TargetAcc :=
              { acc with target_keys := setUnion acc.target_keys t.keys
                         src := (popK acc.src kt).2
                         to_update :=
                           insertK acc.to_update kt (buildUpdate t m).new_data } with hacc1
            obtain ⟨ta, hfold, h1, h2, h3, h4⟩ :=
              ih ks acc1 hks hpwtail (KWf_popK hwf kt)
            refine ⟨ta, hfold, ?_, ?_, ?_, by simpa using h4⟩
            · intro K
              rw [h1 K]
              by_cases hany : (ks.any fun kt => keyEq kt K) = true
              · rw [if_pos hany,
                  if_pos (show ((kt :: ks).any fun kt => keyEq kt K) = true by
                    simp only [List.any_cons, hany, Bool.or_true])]
              · rw [if_neg hany]
                by_cases hKk : keyEq kt K = true
                · rw [if_pos (show ((kt :: ks).any fun kt => keyEq kt K) = true by
                    simp only [List.any_cons, hKk, Bool.true_or])]
                  exact lookupK_popK_eq hwf hKk
                · rw [if_neg (show ¬ ((kt :: ks).any fun kt => keyEq kt K) = true by
                    simp [List.any_cons, hany,
                      show keyEq kt K = false from by simpa using hKk])]
                  exact lookupK_popK_ne (by simpa using hKk)
            · intro K
              rw [h2 K]
              rw [List.zip_cons_cons]
              by_cases hKk : keyEq kt K = true
              · rw [List.find?_cons_of_pos _ (by simpa using hKk)]
                rw [find?_zip_tail_none hhead hKk]
                dsimp only
                rw [hsrc]
                dsimp only
                rw [if_pos hf]
                exact lookupK_insertK_eq hKk
              · rw [List.find?_cons_of_neg _ (by simpa using hKk)]
                cases hfind : (ts.zip ks).find? (fun p => keyEq p.2 K) with
                | none =>
                  dsimp only
                  exact lookupK_insertK_ne (by simpa using hKk)
                | some p =>
                  have hpk : p.2 ∈ ks := (List.of_mem_zip (List.mem_of_find?_eq_some hfind)).2
                  have hsrceq : lookupK acc1.src p.2 = lookupK acc.src p.2 :=
                    lookupK_popK_ne (hhead p.2 hpk)
                  dsimp only
                  rw [hsrceq]
                  cases hm2 : lookupK acc.src p.2 with
                  | none =>
                    dsimp only
                    exact lookupK_insertK_ne (by simpa using hKk)
                  | some m2 =>
                    dsimp only
                    by_cases hf2 : (buildUpdate p.1 m2).for_update = true
                    · rw [if_pos hf2, if_pos hf2]
                    · rw [if_neg hf2, if_neg hf2]
                      exact lookupK_insertK_ne (by simpa using hKk)
            · intro K
              rw [h3 K]
              rw [List.zip_cons_cons]
              by_cases hKk : keyEq kt K = true
              · rw [List.find?_cons_of_pos _ (by simpa using hKk)]
                rw [find?_zip_tail_none hhead hKk]
                dsimp only
                rw [hsrc]
              · rw [List.find?_cons_of_neg _ (by simpa using hKk)]
                cases hfind : (ts.zip ks).find? (fun p => keyEq p.2 K) with
                | none => rfl
                | some p =>
                  have hpk : p.2 ∈ ks := (List.of_mem_zip (List.mem_of_find?_eq_some hfind)).2
                  have hsrceq : lookupK acc1.src p.2 = lookupK acc.src p.2 :=
                    lookupK_popK_ne (hhead p.2 hpk)
                  dsimp only
                  rw [hsrceq]
          · -- matched, unchanged
            rw [if_neg hf]
            set acc1 : TargetAcc :=
              { acc with target_keys := setUnion acc.target_keys t.keys
                         src := (popK acc.src kt).2 } with hacc1
            obtain ⟨ta, hfold, h1, h2, h3, h4⟩ :=
              ih ks acc1 hks hpwtail (KWf_popK hwf kt)
            refine ⟨ta, hfold, ?_, ?_, ?_, by simpa using h4⟩
            · intro K
              rw [h1 K]
              by_cases hany : (ks.any fun kt => keyEq kt K) = true
              · rw [if_pos hany,
                  if_pos (show ((kt :: ks).any fun kt => keyEq kt K) = true by
                    simp only [List.any_cons, hany, Bool.or_true])]
              · rw [if_neg hany]
                by_cases hKk : keyEq kt K = true
                · rw [if_pos (show ((kt :: ks).any fun kt => keyEq kt K) = true by
                    simp only [List.any_cons, hKk, Bool.true_or])]
                  exact lookupK_popK_eq hwf hKk
                · rw [if_neg (show ¬ ((kt :: ks).any fun kt => keyEq kt K) = true by
                    simp [List.any_cons, hany,
                      show keyEq kt K = false from by simpa using hKk])]
                  exact lookupK_popK_ne (by simpa using hKk)
            · intro K
              rw [h2 K]
              rw [List.zip_cons_cons]
              by_cases hKk : keyEq kt K = true
              · rw [List.find?_cons_of_pos _ (by simpa using hKk)]
                rw [find?_zip_tail_none hhead hKk]
                dsimp only
                rw [hsrc]
                dsimp only
                rw [if_neg hf]
              · rw [List.find?_cons_of_neg _ (by simpa using hKk)]
                cases hfind : (ts.zip ks).find? (fun p => keyEq p.2 K) with
                | none => rfl
                | some p =>
                  have hpk : p.2 ∈ ks := (List.of_mem_zip (List.mem_of_find?_eq_some hfind)).2
                  have hsrceq : lookupK acc1.src p.2 = lookupK acc.src p.2 :=
                    lookupK_popK_ne (hhead p.2 hpk)
                  dsimp only
                  rw [hsrceq]
            · intro K
              rw [h3 K]
              rw [List.zip_cons_cons]
              by_cases hKk : keyEq kt K = true
              · rw [List.find?_cons_of_pos _ (by simpa using hKk)]
                rw [find?_zip_tail_none hhead hKk]
                dsimp only
                rw [hsrc]
              · rw [List.find?_cons_of_neg _ (by simpa using hKk)]
                cases hfind : (ts.zip ks).find? (fun p => keyEq p.2 K) with
                | none => rfl
                | some p =>
                  have hpk : p.2 ∈ ks := (List.of_mem_zip (List.mem_of_find?_eq_some hfind)).2
                  have hsrceq : lookupK acc1.src p.2 = lookupK acc.src p.2 :=
                    lookupK_popK_ne (hhead p.2 hpk)
                  dsimp only
                  rw [hsrceq]
        | none =>
          -- unmatched target row: delete candidate
          dsimp only
          set acc1 : TargetAcc :=
            { acc with target_keys := setUnion acc.target_keys t.keys
                       to_delete := insertK acc.to_delete kt t } with hacc1
          obtain ⟨ta, hfold, h1, h2, h3, h4⟩ := ih ks acc1 hks hpwtail hwf
          refine ⟨ta, hfold, ?_, ?_, ?_, by simpa using h4⟩
          · intro K
            rw [h1 K]
            by_cases hany : (ks.any fun kt => keyEq kt K) = true
            · rw [if_pos hany,
                if_pos (show ((kt :: ks).any fun kt => keyEq kt K) = true by
                  simp only [List.any_cons, hany, Bool.or_true])]
            · rw [if_neg hany]
              by_cases hKk : keyEq kt K = true
              · rw [if_pos (show ((kt :: ks).any fun kt => keyEq kt K) = true by
                  simp only [List.any_cons, hKk, Bool.true_or])]
                show lookupK acc.src K = Option.none
                rw [← @lookupK_congr _ acc.src _ _ hKk]
                exact hsrc
              · rw [if_neg (show ¬ ((kt :: ks).any fun kt => keyEq kt K) = true by
                  simp [List.any_cons, hany,
                    show keyEq kt K = false from by simpa using hKk])]
          · intro K
            rw [h2 K]
            rw [List.zip_cons_cons]
            by_cases hKk : keyEq kt K = true
            · rw [List.find?_cons_of_pos _ (by simpa using hKk)]
              rw [find?_zip_tail_none hhead hKk]
              dsimp only
              rw [hsrc]
            · rw [List.find?_cons_of_neg _ (by simpa using hKk)]
          · intro K
            rw [h3 K]
            rw [List.zip_cons_cons]
            by_cases hKk : keyEq kt K = true
            · rw [List.find?_cons_of_pos _ (by simpa using hKk)]
              rw [find?_zip_tail_none hhead hKk]
              dsimp only
              rw [hsrc]
              dsimp only
              exact lookupK_insertK_eq hKk
            · rw [List.find?_cons_of_neg _ (by simpa using hKk)]
              cases hfind : (ts.zip ks).find? (fun p => keyEq p.2 K) with
              | none =>
                dsimp only
                exact lookupK_insertK_ne (by simpa using hKk)
              | some p =>
                dsimp only
                cases hm2 : lookupK acc.src p.2 with
                | none => rfl
                | some m2 =>
                  dsimp only
                  exact lookupK_insertK_ne (by simpa using hKk)

/-! Decomposition of `prep_data_for_merge` into its phases. -/

theorem prep_guard_error {S T : List Row} {mk : Option (List String)}
    {slkO : Option String} {skO : Option (List String)}
    (hg : sourceKeysGuard (slkO.getD "label") skO = true) :
    prep_data_for_merge S T mk slkO skO = .error .sourceKeysMissingLabel := by
  unfold prep_data_for_merge
  dsimp only
  rw [if_pos hg]
  rfl

theorem prep_eq_of_guard {S T : List Row} {mk : Option (List String)}
    {slkO : Option String} {skO : Option (List String)}
    (hg : sourceKeysGuard (slkO.getD "label") skO = false) :
    prep_data_for_merge S T mk slkO skO =
      (prepSource (slkO.getD "label") skO (sortStrings (mk.getD ["label"])) S).bind
        fun sa =>
          (T.foldlM (targetStep (sortStrings (mk.getD ["label"])))
            { src := sa.src, to_update := ∅, to_delete := ∅, target_keys := [] }).bind
            fun ta =>
              .ok { match_keys := sortStrings (mk.getD ["label"])
                    to_insert := ta.src
                    to_update := ta.to_update
                    to_delete := ta.to_delete
                    source_keys := sa.source_keys
                    target_keys := ta.target_keys } := by
  unfold prep_data_for_merge
  dsimp only
  rw [if_neg (show ¬ (sourceKeysGuard (slkO.getD "label") skO = true) from by
    simp [hg])]
  cases hsa : prepSource (slkO.getD "label") skO
      (sortStrings (mk.getD ["label"])) S with
  | error e => rfl
  | ok sa =>
    dsimp only [Except.bind, Bind.bind]
    cases hta : T.foldlM (targetStep (sortStrings (mk.getD ["label"])))
        { src := sa.src, to_update := ∅, to_delete := ∅, target_keys := [] } with
    | error e => rfl
    | ok ta => rfl

theorem prep_ok_inv {S T : List Row} {mk : Option (List String)}
    {slkO : Option String} {skO : Option (List String)} {ma : MergeActions}
    (h : prep_data_for_merge S T mk slkO skO = .ok ma) :
    ∃ sa ta,
      prepSource (slkO.getD "label") skO (sortStrings (mk.getD ["label"])) S = .ok sa ∧
      T.foldlM (targetStep (sortStrings (mk.getD ["label"])))
        { src := sa.src, to_update := ∅, to_delete := ∅, target_keys := [] } = .ok ta ∧
      ma = { match_keys := sortStrings (mk.getD ["label"])
             to_insert := ta.src
             to_update := ta.to_update
             to_delete := ta.to_delete
             source_keys := sa.source_keys
             target_keys := ta.target_keys } := by
  by_cases hg : sourceKeysGuard (slkO.getD "label") skO = true
  · rw [prep_guard_error hg] at h
    cases h
  · rw [prep_eq_of_guard (by simpa using hg)] at h
    revert h
    cases hsa : prepSource (slkO.getD "label") skO (sortStrings (mk.getD ["label"])) S with
    | error e => intro h; cases h
    | ok sa =>
      dsimp only [Except.bind]
      cases hta : T.foldlM (targetStep (sortStrings (mk.getD ["label"])))
          { src := sa.src, to_update := ∅, to_delete := ∅, target_keys := [] } with
      | error e => intro h; cases h
      | ok ta =>
        intro h
        injection h with h
        exact ⟨sa, ta, rfl, hta, h.symm⟩

/-! Key-extraction errors. -/

theorem lookupKeys_error_of {r : Row} {ks : List String}
    (h : ∃ k ∈ ks, r.lookup k = Option.none) :
    ∃ k', k' ∈ ks ∧ r.lookup k' = Option.none ∧
      lookupKeys r ks = .error (.missingMatchKey k') := by
  induction ks with
  | nil => rcases h with ⟨k, hk, _⟩; cases hk
  | cons k0 rest ih =>
    cases hl : r.lookup k0 with
    | none => exact ⟨k0, by simp, hl, by simp [lookupKeys, hl]⟩
    | some v =>
      rcases h with ⟨k, hk, hnone⟩
      rcases List.mem_cons.1 hk with rfl | hk2
      · rw [hl] at hnone; cases hnone
      · obtain ⟨k', hk', hn', herr⟩ := ih ⟨k, hk2, hnone⟩
        exact ⟨k', by simp [hk'], hn', by simp [lookupKeys, hl, herr, Except.map]⟩

theorem get_key_error_missing {r : Row} {ks : List String}
    (h : ∃ k ∈ ks, r.lookup k = Option.none) :
    ∃ k', k' ∈ ks ∧ r.lookup k' = Option.none ∧
      get_key r ks = .error (.missingMatchKey k') := by
  obtain ⟨k', hk', hn', herr⟩ := lookupKeys_error_of h
  exact ⟨k', hk', hn', by simp [get_key, herr, Except.bind, Bind.bind]⟩

theorem lookupKeys_ok_of {r : Row} {ks : List String}
    (h : ∀ k ∈ ks, (r.lookup k).isSome) :
    ∃ K, lookupKeys r ks = .ok K ∧
      ∀ v ∈ K, ∃ k ∈ ks, r.lookup k = some v := by
  induction ks with
  | nil => exact ⟨[], rfl, by simp⟩
  | cons k0 rest ih =>
    have h0 := h k0 (by simp)
    cases hl : r.lookup k0 with
    | none => rw [hl] at h0; cases h0
    | some v =>
      obtain ⟨K, hK, hmem⟩ := ih fun k hk => h k (by simp [hk])
      refine ⟨v :: K, by simp [lookupKeys, hl, hK, Except.map], ?_⟩
      intro w hw
      rcases List.mem_cons.1 hw with rfl | hw2
      · exact ⟨k0, by simp, hl⟩
      · obtain ⟨k, hk, hkl⟩ := hmem w hw2
        exact ⟨k, by simp [hk], hkl⟩

theorem get_key_ok_of {r : Row} {ks : List String}
    (hpresent : ∀ k ∈ ks, (r.lookup k).isSome)
    (hhash : ∀ k ∈ ks, ∀ v, r.lookup k = some v → v.hashable = true) :
    ∃ K, get_key r ks = .ok K := by
  obtain ⟨K, hK, hmem⟩ := lookupKeys_ok_of hpresent
  refine ⟨K, ?_⟩
  have hall : K.all Value.hashable = true := by
    rw [List.all_eq_true]
    intro v hv
    obtain ⟨k, hk, hkl⟩ := hmem v hv
    exact hhash k hk v hkl
  simp only [get_key, hK, Except.bind, Bind.bind, hall, if_true]
  rfl

/-! Error propagation through the orchestrator. -/

theorem merge_prep_error {target_response data : List Row}
    {mk : Option (List String)} {anp um dnm : Bool} {slkO : Option String}
    {skO : Option (List String)} {e : MergeError}
    (h : prep_data_for_merge data target_response mk slkO skO = .error e) :
    merge target_response data mk anp um dnm slkO skO =
      ⟨[NetCall.getTable], .error e⟩ := by
  unfold merge
  rw [h]

theorem sourceEntry_error_of_missing {slk : String} {sk : Option (List String)}
    {mks : List String} {s r : Row}
    (hn : normalizeRow slk sk s = .ok r)
    (hbad : ∃ k ∈ mks, r.lookup k = Option.none) :
    ∃ k', k' ∈ mks ∧ r.lookup k' = Option.none ∧
      sourceEntry slk sk mks s = .error (.missingMatchKey k') := by
  obtain ⟨k', h1, h2, h3⟩ := get_key_error_missing hbad
  exact ⟨k', h1, h2, by simp [sourceEntry, hn, h3, Except.bind, Bind.bind]⟩

theorem sourceList_first_missing {slk : String} {sk : Option (List String)}
    {mks : List String} :
    ∀ S : List Row,
      (∀ s ∈ S, (s.lookup slk).isSome) →
      (∀ s ∈ S, ∀ r, normalizeRow slk sk s = .ok r →
        ∀ k ∈ mks, ∀ v, r.lookup k = some v → v.hashable = true) →
      (∃ s ∈ S, ∃ r, normalizeRow slk sk s = .ok r ∧
        ∃ k ∈ mks, r.lookup k = Option.none) →
      ∃ k', (∃ s ∈ S, ∃ r, normalizeRow slk sk s = .ok r ∧ k' ∈ mks ∧
          r.lookup k' = Option.none) ∧
        sourceList slk sk mks S = .error (.missingMatchKey k') := by
  intro S
  induction S with
  | nil =>
    intro _ _ hbad
    rcases hbad with ⟨s, hs, _⟩
    cases hs
  | cons s0 rest ih =>
    intro hlab hhash hbad
    have h0 := hlab s0 (by simp)
    cases hl : s0.lookup slk with
    | none => rw [hl] at h0; cases h0
    | some lv =>
      have hn0 : ∃ r0, normalizeRow slk sk s0 = .ok r0 := by
        refine ⟨_, normalizeRow_ok hl⟩
      obtain ⟨r0, hr0⟩ := hn0
      by_cases hmiss : ∃ k ∈ mks, r0.lookup k = Option.none
      · obtain ⟨k', h1, h2, h3⟩ := sourceEntry_error_of_missing hr0 hmiss
        refine ⟨k', ⟨s0, by simp, r0, hr0, h1, h2⟩, ?_⟩
        unfold sourceList
        rw [h3]
        rfl
      · have hpresent : ∀ k ∈ mks, (r0.lookup k).isSome := by
          intro k hk
          cases hrl : r0.lookup k with
          | none => exact absurd ⟨k, hk, hrl⟩ hmiss
          | some v => rfl
        obtain ⟨K0, hK0⟩ := get_key_ok_of hpresent
          (fun k hk v hv => hhash s0 (by simp) r0 hr0 k hk v hv)
        have hentry : sourceEntry slk sk mks s0 = .ok (K0, r0) := by
          simp [sourceEntry, hr0, hK0, Except.bind, Bind.bind, pure, Except.pure]
        have hbadrest : ∃ s ∈ rest, ∃ r, normalizeRow slk sk s = .ok r ∧
            ∃ k ∈ mks, r.lookup k = Option.none := by
          rcases hbad with ⟨s, hs, r, hr, hk⟩
          rcases List.mem_cons.1 hs with rfl | hs2
          · rw [hr0] at hr
            injection hr with hr
            subst hr
            exact absurd hk hmiss
          · exact ⟨s, hs2, r, hr, hk⟩
        obtain ⟨k', hk'prop, hk'err⟩ := ih
          (fun s hs => hlab s (by simp [hs]))
          (fun s hs => hhash s (by simp [hs]))
          hbadrest
        refine ⟨k', ?_, ?_⟩
        · rcases hk'prop with ⟨s, hs, r, hr, h1, h2⟩
          exact ⟨s, by simp [hs], r, hr, h1, h2⟩
        · unfold sourceList
          rw [hentry]
          show List.cons (K0, r0) <$> sourceList slk sk mks rest =
            Except.error (MergeError.missingMatchKey k')
          rw [hk'err]
          rfl

theorem targetStep_error {mks : List String} {acc : TargetAcc} {t : Row}
    {e : MergeError} (hk : get_key t mks = .error e) :
    targetStep mks acc t = .error e := by
  unfold targetStep
  simp [hk, Except.bind, Bind.bind]

theorem targetFold_first_missing {mks : List String} :
    ∀ (T : List Row) (acc : TargetAcc),
      (∀ t ∈ T, ∀ k ∈ mks, ∀ v, t.lookup k = some v → v.hashable = true) →
      (∃ t ∈ T, ∃ k ∈ mks, t.lookup k = Option.none) →
      ∃ k', (∃ t ∈ T, k' ∈ mks ∧ t.lookup k' = Option.none) ∧
        T.foldlM (targetStep mks) acc = .error (.missingMatchKey k') := by
  intro T
  induction T with
  | nil =>
    intro _ _ hbad
    rcases hbad with ⟨t, ht, _⟩
    cases ht
  | cons t0 rest ih =>
    intro acc hhash hbad
    by_cases hmiss : ∃ k ∈ mks, t0.lookup k = Option.none
    · obtain ⟨k', h1, h2, h3⟩ := get_key_error_missing hmiss
      exact ⟨k', ⟨t0, by simp, h1, h2⟩,
        by rw [List.foldlM_cons, targetStep_error h3]; rfl⟩
    · have hpresent : ∀ k ∈ mks, (t0.lookup k).isSome := by
        intro k hk
        cases hrl : t0.lookup k with
        | none => exact absurd ⟨k, hk, hrl⟩ hmiss
        | some v => rfl
      obtain ⟨K0, hK0⟩ := get_key_ok_of hpresent
        (fun k hk v hv => hhash t0 (by simp) k hk v hv)
      have hbadrest : ∃ t ∈ rest, ∃ k ∈ mks, t.lookup k = Option.none := by
        rcases hbad with ⟨t, ht, hk⟩
        rcases List.mem_cons.1 ht with rfl | ht2
        · exact absurd hk hmiss
        · exact ⟨t, ht2, hk⟩
      obtain ⟨k', hk'prop, hk'err⟩ := ih _
        (fun t ht => hhash t (by simp [ht]))
        hbadrest
      refine ⟨k', ?_, ?_⟩
      · rcases hk'prop with ⟨t, ht, h1, h2⟩
        exact ⟨t, by simp [ht], h1, h2⟩
      · rw [List.foldlM_cons, targetStep_ok hK0]
        simp only [Bind.bind, Except.bind]
        exact hk'err

/-! Claim C1. -/

/-- C1 counterexample: with a field allow-list that omits the label field
(a validation fault), `merge` still issues the snapshot read (`get_table`)
before the configuration error is raised, so the error is NOT raised before
the first network call. -/
theorem C1_counterexample :
    merge ([] : List Row) ([] : List Row) Option.none true true false
      (some "label") (some ["x"]) =
      ⟨[NetCall.getTable], .error .sourceKeysMissingLabel⟩ ∧
    ([NetCall.getTable] : List NetCall) ≠ [] := ⟨by decide, by decide⟩

/-- C1 (amended): every input-validation error of the diff (allow-list
omitting the label field, missing match-key field, duplicate composite keys,
and every other `_prep_data_for_merge` error) is raised after the single
snapshot read but before any network write: the call trace of `merge` is
exactly the `get_table` read. -/
theorem C1_validation_before_first_write (target_response data : List Row)
    (mk : Option (List String)) (anp um dnm : Bool) (slkO : Option String)
    (skO : Option (List String)) (e : MergeError)
    (h : prep_data_for_merge data target_response mk slkO skO = .error e) :
    merge target_response data mk anp um dnm slkO skO =
      ⟨[NetCall.getTable], .error e⟩ :=
  merge_prep_error h

/-- C1 witness: a source row without a label field makes the diff fail, and
the merge outcome is the snapshot read followed by that error. -/
theorem C1_witness :
    merge ([] : List Row) [[("x", vstr "1")]] Option.none true true false
        (some "label") Option.none =
      ⟨[NetCall.getTable], .error (.rawKeyError "label")⟩ :=
  C1_validation_before_first_write [] [[("x", vstr "1")]] Option.none true true
    false (some "label") Option.none (.rawKeyError "label") (by decide)

/-! Claim C5. -/

/-- C5: if the allow-list check passes and every source row normalizes and
yields a composite key (`sourceList` succeeds), but the resulting composite
keys are not pairwise distinct, then for EVERY target collection the diff
fails with the duplicate-match-keys error — no insert/update/delete
classification is produced and no target row is examined. -/
theorem C5_duplicate_keys_fail_before_targets (S : List Row)
    (mk : Option (List String)) (slkO : Option String)
    (skO : Option (List String)) (l : List (Key × Row))
    (hg : sourceKeysGuard (slkO.getD "label") skO = false)
    (hl : sourceList (slkO.getD "label") skO (sortStrings (mk.getD ["label"])) S
      = .ok l)
    (hdup : ¬ (l.map Prod.fst).Pairwise fun a b => keyEq a b = false) :
    ∀ T, prep_data_for_merge S T mk slkO skO = .error .duplicateMatchKeys := by
  intro T
  rw [prep_eq_of_guard hg, prepSource_dup hl hdup]
  rfl

/-- C5 witness: the specification's duplicate-detection example — two
identical Sydney rows fail with the duplicate error against a target. -/
theorem C5_witness :
    prep_data_for_merge
      [[("label", vstr "Sydney"), ("state", vstr "NSW")],
       [("label", vstr "Sydney"), ("state", vstr "NSW")]]
      [[("label", vstr "Perth")]] = .error .duplicateMatchKeys :=
  C5_duplicate_keys_fail_before_targets _ _ _ _
    [([vstr "Sydney"], [("label", vstr "Sydney"), ("state", vstr "NSW")]),
     ([vstr "Sydney"], [("label", vstr "Sydney"), ("state", vstr "NSW")])]
    (by decide) (by decide) (by decide) _

/-! Claim C6. -/

/-- C6: if the allow-list check passes, every source row has the label
field, and key values are hashable, then as soon as some source row's
normalized form lacks a declared (sorted) match-key field, the diff fails —
for every target collection — with the missing-match-keys error naming a
match-key field that is indeed missing from some normalized source row, and
the error's message embeds that field name. -/
theorem C6_missing_match_key_names_field (S : List Row)
    (mk : Option (List String)) (slkO : Option String)
    (skO : Option (List String))
    (hg : sourceKeysGuard (slkO.getD "label") skO = false)
    (hlab : ∀ s ∈ S, (s.lookup (slkO.getD "label")).isSome)
    (hhash : ∀ s ∈ S, ∀ r, normalizeRow (slkO.getD "label") skO s = .ok r →
      ∀ k ∈ sortStrings (mk.getD ["label"]), ∀ v, r.lookup k = some v →
        v.hashable = true)
    (hbad : ∃ s ∈ S, ∃ r, normalizeRow (slkO.getD "label") skO s = .ok r ∧
      ∃ k ∈ sortStrings (mk.getD ["label"]), r.lookup k = Option.none) :
    ∃ k', (∃ s ∈ S, ∃ r, normalizeRow (slkO.getD "label") skO s = .ok r ∧
        k' ∈ sortStrings (mk.getD ["label"]) ∧ r.lookup k' = Option.none) ∧
      (∀ T, prep_data_for_merge S T mk slkO skO =
        .error (.missingMatchKey k')) ∧
      (MergeError.missingMatchKey k').message =
        "Found Entity that did not have all expected match_keys: \x27" ++ k'
          ++ "\x27" := by
  obtain ⟨k', hk'prop, hk'err⟩ := sourceList_first_missing S hlab hhash hbad
  refine ⟨k', hk'prop, ?_, rfl⟩
  intro T
  rw [prep_eq_of_guard hg, prepSource_error hk'err]
  rfl

/-- C6 witness: the specification's example — source row `{label: Sydney}`
with match keys `("label", "state")` fails naming `state`. -/
theorem C6_witness :
    ∃ k', (∃ s ∈ [[("label", vstr "Sydney")]], ∃ r,
        normalizeRow "label" Option.none s = .ok r ∧
        k' ∈ sortStrings ["label", "state"] ∧ r.lookup k' = Option.none) ∧
      (∀ T, prep_data_for_merge [[("label", vstr "Sydney")]] T
        (some ["label", "state"]) (some "label") Option.none =
        .error (.missingMatchKey k')) ∧
      (MergeError.missingMatchKey k').message =
        "Found Entity that did not have all expected match_keys: \x27" ++ k'
          ++ "\x27" :=
  C6_missing_match_key_names_field [[("label", vstr "Sydney")]]
    (some ["label", "state"]) (some "label") Option.none
    (by decide) (by decide)
    (by
      intro s hs r hr k hk v hv
      simp only [List.mem_singleton] at hs
      subst hs
      rw [show normalizeRow ((some "label").getD "label") Option.none
          [("label", vstr "Sydney")] = .ok [("label", vstr "Sydney")] from by
        decide] at hr
      injection hr with hr
      subst hr
      have hk2 : k = "label" ∨ k = "state" := by
        rw [show sortStrings ((some ["label", "state"]).getD ["label"]) =
          ["label", "state"] from by decide] at hk
        simpa using hk
      rcases hk2 with rfl | rfl
      · rw [show Row.lookup [("label", vstr "Sydney")] "label" =
            some (vstr "Sydney") from by decide] at hv
        injection hv with hv
        subst hv
        decide
      · rw [show Row.lookup [("label", vstr "Sydney")] "state" =
            Option.none from by decide] at hv
        cases hv)
    ⟨[("label", vstr "Sydney")], by decide, [("label", vstr "Sydney")],
      by decide, "state", by decide, by decide⟩

/-! Claim C10. -/

/-- C10: the match-key completeness requirement applies to target rows too —
if the source phase succeeds but some target row lacks a declared (sorted)
match-key field (key values otherwise hashable), the diff fails with the
same "Found Entity that did not have all expected match_keys" error naming
a match-key field missing from some target row, and the whole merge aborts
with that error after the snapshot read. -/
theorem C10_target_rows_missing_match_key (S T : List Row)
    (mk : Option (List String)) (anp um dnm : Bool) (slkO : Option String)
    (skO : Option (List String)) (sa : SourceAcc)
    (hg : sourceKeysGuard (slkO.getD "label") skO = false)
    (hsa : prepSource (slkO.getD "label") skO (sortStrings (mk.getD ["label"])) S
      = .ok sa)
    (hhash : ∀ t ∈ T, ∀ k ∈ sortStrings (mk.getD ["label"]), ∀ v,
      t.lookup k = some v → v.hashable = true)
    (hbad : ∃ t ∈ T, ∃ k ∈ sortStrings (mk.getD ["label"]),
      t.lookup k = Option.none) :
    ∃ k', (∃ t ∈ T, k' ∈ sortStrings (mk.getD ["label"]) ∧
        t.lookup k' = Option.none) ∧
      prep_data_for_merge S T mk slkO skO = .error (.missingMatchKey k') ∧
      merge T S mk anp um dnm slkO skO =
        ⟨[NetCall.getTable], .error (.missingMatchKey k')⟩ ∧
      (MergeError.missingMatchKey k').message =
        "Found Entity that did not have all expected match_keys: \x27" ++ k'
          ++ "\x27" := by
  obtain ⟨k', hk'prop, hk'err⟩ := targetFold_first_missing T
    { src := sa.src, to_update := ∅, to_delete := ∅, target_keys := [] }
    hhash hbad
  have hprep : prep_data_for_merge S T mk slkO skO =
      .error (.missingMatchKey k') := by
    rw [prep_eq_of_guard hg, hsa]
    simp only [Except.bind]
    rw [hk'err]
  exact ⟨k', hk'prop, hprep, merge_prep_error hprep, rfl⟩

/-- C10 witness: a target row without the label match key aborts the merge
with the missing-match-keys error. -/
theorem C10_witness :
    ∃ k', (∃ t ∈ [[("state", vstr "NSW")]],
        k' ∈ sortStrings ["label"] ∧ Row.lookup t k' = Option.none) ∧
      prep_data_for_merge [[("label", vstr "Sydney")]] [[("state", vstr "NSW")]]
        Option.none (some "label") Option.none =
        .error (.missingMatchKey k') ∧
      merge [[("state", vstr "NSW")]] [[("label", vstr "Sydney")]]
        Option.none true true false (some "label") Option.none =
        ⟨[NetCall.getTable], .error (.missingMatchKey k')⟩ ∧
      (MergeError.missingMatchKey k').message =
        "Found Entity that did not have all expected match_keys: \x27" ++ k'
          ++ "\x27" :=
  C10_target_rows_missing_match_key [[("label", vstr "Sydney")]]
    [[("state", vstr "NSW")]] Option.none true true false (some "label")
    Option.none
    { src := [([vstr "Sydney"], [("label", vstr "Sydney")])], count := 1
      source_keys := ["label"] }
    (by decide) (by decide)
    (by
      intro t ht k hk v hv
      simp only [List.mem_singleton] at ht
      subst ht
      have hk2 : k = "label" := by
        rw [show sortStrings ((Option.none : Option (List String)).getD
          ["label"]) = ["label"] from by decide] at hk
        simpa using hk
      subst hk2
      rw [show Row.lookup [("state", vstr "NSW")] "label" = Option.none from by
        decide] at hv
      cases hv)
    ⟨[("state", vstr "NSW")], by decide, "label", by decide, by decide⟩

/-! Claim C7. -/

/-- C7 counterexample: with a custom label key (`name`), a source row that
also carries a distinct `label` field has the renamed label value
overwritten by that field, so the output's label is NOT the configured label
field's value. -/
theorem C7_counterexample :
    normalizeRow "name" Option.none [("name", vstr "A"), ("label", vstr "B")] =
      .ok [("label", vstr "B")] ∧
    (vstr "B" : Value) ≠ vstr "A" := ⟨by decide, by decide⟩

/-- C7 (amended): the normalizer renames the configured label field to
`label` provided the row does not also carry a distinct `label` field that
survives the filter (that field otherwise overwrites the renamed value);
with an allow-list the output's field set is exactly `label` plus the
allow-listed non-label-key fields present in the row; and an allow-list that
omits the configured label key makes the diff fail with the configuration
error. -/
theorem C7_normalizer (slk : String) (skO : Option (List String)) (s : Row)
    (lv : Value) (hwf : RowWf s) (hl : s.lookup slk = some lv) :
    ((slk = "label" ∨ s.lookup "label" = Option.none ∨
        keepField slk skO "label" = false) →
      ∃ r, normalizeRow slk skO s = .ok r ∧ r.lookup "label" = some lv ∧
        (slk ≠ "label" → r.lookup slk = Option.none)) ∧
    (∀ al, skO = some al →
      ∃ r, normalizeRow slk skO s = .ok r ∧
        ∀ x, (r.lookup x).isSome = true ↔
          (x = "label" ∨ ((s.lookup x).isSome = true ∧ x ≠ slk ∧ x ∈ al))) ∧
    (∀ (S T : List Row) (mk : Option (List String)) (al : List String),
      skO = some al → slk ∉ al →
      prep_data_for_merge S T mk (some slk) skO =
        .error .sourceKeysMissingLabel) := by
  refine ⟨?_, ?_, ?_⟩
  · intro hnc
    obtain ⟨r, hr, hchar⟩ := @normalizeRow_lookup _ skO _ _ hwf hl "label"
    refine ⟨r, hr, ?_, ?_⟩
    · rw [hchar]
      rcases hnc with rfl | hnone | hkf
      · have hkeep : keepField "label" skO "label" = false := by simp [keepField]
        cases hsl : s.lookup "label" with
        | none => simp
        | some v => rw [hkeep]; simp
      · rw [hnone]; simp
      · cases hsl : s.lookup "label" with
        | none => simp
        | some v => rw [hkf]; simp
    · intro hne
      obtain ⟨r2, hr2, hchar2⟩ := @normalizeRow_lookup _ skO _ _ hwf hl slk
      rw [hr] at hr2
      injection hr2 with hr2
      subst hr2
      rw [hchar2, hl]
      have hkeep : keepField slk skO slk = false := by simp [keepField]
      rw [hkeep]
      simp [hne]
  · intro al hal
    obtain ⟨r, hr, _⟩ := @normalizeRow_lookup _ skO _ _ hwf hl "label"
    refine ⟨r, hr, ?_⟩
    intro x
    obtain ⟨r2, hr2, hchar2⟩ := @normalizeRow_lookup _ skO _ _ hwf hl x
    rw [hr] at hr2
    injection hr2 with hr2
    subst hr2
    rw [hchar2]
    subst hal
    cases hsx : s.lookup x with
    | none =>
      by_cases hx : x = "label"
      · simp [hx]
      · simp [hx]
    | some v =>
      by_cases hk : keepField slk (some al) x = true
      · rw [hk]
        have hsplit : (decide (x ≠ slk) && al.contains x) = true := hk
        simp only [Bool.and_eq_true, decide_eq_true_eq] at hsplit
        have hmem : x ∈ al := contains_eq_true_iff_mem.1 hsplit.2
        exact iff_of_true (by simp) (Or.inr ⟨by simp, hsplit.1, hmem⟩)
      · rw [show keepField slk (some al) x = false from by simpa using hk]
        have hcon : ¬ (x ≠ slk ∧ x ∈ al) := fun hc =>
          hk (show (decide (x ≠ slk) && al.contains x) = true by
            rw [contains_eq_true_iff_mem.2 hc.2,
              show decide (x ≠ slk) = true by simp [hc.1]]
            rfl)
        by_cases hx : x = "label"
        · subst hx
          exact iff_of_true (by simp) (Or.inl rfl)
        · refine iff_of_false (by simp [hx]) ?_
          rintro (h | ⟨_, h1, h2⟩)
          · exact hx h
          · exact hcon ⟨h1, h2⟩
  · intro S T mk al hal hnotmem
    subst hal
    apply prep_guard_error
    show sourceKeysGuard ((some slk).getD "label") (some al) = true
    have hc : al.contains slk = false := by
      cases hc2 : al.contains slk
      · rfl
      · exact absurd (contains_eq_true_iff_mem.1 hc2) hnotmem
    show (!al.contains slk) = true
    rw [hc]
    rfl

/-- C7 witness: a row with custom label key `name` and allow-list
`["name", "state"]` is renamed and filtered; and an allow-list omitting the
label key fails. -/
theorem C7_witness :
    ((("name" : String) = "label" ∨
        Row.lookup [("name", vstr "X"), ("state", vstr "NSW"),
          ("postcode", vstr "2000")] "label" = Option.none ∨
        keepField "name" (some ["name", "state"]) "label" = false) →
      ∃ r, normalizeRow "name" (some ["name", "state"])
          [("name", vstr "X"), ("state", vstr "NSW"),
            ("postcode", vstr "2000")] = .ok r ∧
        r.lookup "label" = some (vstr "X") ∧
        (("name" : String) ≠ "label" → r.lookup "name" = Option.none)) ∧
    (∀ al, (some ["name", "state"] : Option (List String)) = some al →
      ∃ r, normalizeRow "name" (some ["name", "state"])
          [("name", vstr "X"), ("state", vstr "NSW"),
            ("postcode", vstr "2000")] = .ok r ∧
        ∀ x, (r.lookup x).isSome = true ↔
          (x = "label" ∨
            ((Row.lookup [("name", vstr "X"), ("state", vstr "NSW"),
              ("postcode", vstr "2000")] x).isSome = true ∧
              x ≠ "name" ∧ x ∈ al))) ∧
    (∀ (S T : List Row) (mk : Option (List String)) (al : List String),
      (some ["name", "state"] : Option (List String)) = some al →
      ("name" : String) ∉ al →
      prep_data_for_merge S T mk (some "name") (some ["name", "state"]) =
        .error .sourceKeysMissingLabel) :=
  C7_normalizer "name" (some ["name", "state"])
    [("name", vstr "X"), ("state", vstr "NSW"), ("postcode", vstr "2000")]
    (vstr "X") (by decide) (by decide)

/-! Claim C3. -/

/-- C3: for a matched pair and a non-reserved field present in both rows
(target value being stored text), the source value is staged into the update
payload exactly when its `str()` form differs from the target text, and a
differing value marks the row changed; in particular integer `2000` against
text `"2000"` stages nothing while float `2000.0` does stage an update. -/
theorem C3_textual_comparison (t m : Row) (hwt : RowWf t) (hwm : RowWf m)
    (k : String) (hk : k ∉ reserved_keys) (st : String) (sv : Value)
    (ht : t.lookup k = some (vstr st)) (hm : m.lookup k = some sv) :
    ((buildUpdate t m).new_data.lookup k = some sv ↔ pyStr sv ≠ st) ∧
    (pyStr sv ≠ st → (buildUpdate t m).for_update = true) ∧
    (prep_data_for_merge [[("label", vstr "A"), ("postcode", vint 2000)]]
        [[("label", vstr "A"), ("postcode", vstr "2000")]]).map
      (fun r => r.to_update) = .ok ∅ ∧
    (prep_data_for_merge [[("label", vstr "A"), ("postcode", vfloat 2000)]]
        [[("label", vstr "A"), ("postcode", vstr "2000")]]).map
      (fun r => r.to_update) =
      .ok [([vstr "A"], [("label", vstr "A"), ("postcode", vfloat 2000)])] := by
  have hstr : strNeValue (pyStr sv) (vstr st) = decide (pyStr sv ≠ st) := rfl
  refine ⟨?_, ?_, by decide, by decide⟩
  · rw [buildUpdate_lookup hwt hwm k, ht, hm]
    dsimp only
    rw [if_neg hk, hstr]
    by_cases heq : pyStr sv = st
    · simp [heq]
    · simp [heq]
  · intro hne
    rw [buildUpdate_flag]
    have hmem := Row.mem_of_lookup_eq_some ht
    have hcond : stageCond m (k, vstr st) = true := by
      unfold stageCond
      rw [hm]
      dsimp only
      have hc : reserved_keys.contains k = false := by
        cases hc2 : reserved_keys.contains k
        · rfl
        · exact absurd (contains_eq_true_iff_mem.1 hc2) hk
      rw [hc, hstr]
      simp [hne]
    have : (show List (String × Value) from t).any (stageCond m) = true :=
      List.any_eq_true.2 ⟨(k, vstr st), hmem, hcond⟩
    rw [this]
    rfl

/-- C3 witness: with postcode stored as text `"2000"` and source float
`2000.0`, the field is staged and the row marked changed. -/
theorem C3_witness :
    (((buildUpdate
        [("label", vstr "A"), ("postcode", vstr "2000")]
        [("label", vstr "A"), ("postcode", vfloat 2000)]).new_data.lookup
          "postcode" = some (vfloat 2000) ↔
        pyStr (vfloat 2000) ≠ "2000") ∧
      (pyStr (vfloat 2000) ≠ "2000" →
        (buildUpdate [("label", vstr "A"), ("postcode", vstr "2000")]
          [("label", vstr "A"), ("postcode", vfloat 2000)]).for_update =
          true) ∧
      (prep_data_for_merge [[("label", vstr "A"), ("postcode", vint 2000)]]
          [[("label", vstr "A"), ("postcode", vstr "2000")]]).map
        (fun r => r.to_update) = .ok ∅ ∧
      (prep_data_for_merge [[("label", vstr "A"), ("postcode", vfloat 2000)]]
          [[("label", vstr "A"), ("postcode", vstr "2000")]]).map
        (fun r => r.to_update) =
        .ok [([vstr "A"],
          [("label", vstr "A"), ("postcode", vfloat 2000)])]) :=
  C3_textual_comparison
    [("label", vstr "A"), ("postcode", vstr "2000")]
    [("label", vstr "A"), ("postcode", vfloat 2000)]
    (by decide) (by decide) "postcode" (by decide) "2000" (vfloat 2000)
    (by decide) (by decide)

theorem lookupK_empty {K : Key} : lookupK (∅ : KDict α) K = Option.none := rfl

theorem find?_none_of_any_false {T : List Row} {Ks : List Key} {K : Key}
    (hany : (Ks.any fun kt => keyEq kt K) = false) :
    (T.zip Ks).find? (fun p => keyEq p.2 K) = Option.none := by
  apply List.find?_eq_none.2
  intro p hp hcon
  have hpk : p.2 ∈ Ks := (List.of_mem_zip hp).2
  have : (Ks.any fun kt => keyEq kt K) = true :=
    List.any_eq_true.2 ⟨p.2, hpk, by simpa using hcon⟩
  rw [hany] at this
  cases this

/-! Claim C2. -/

/-- C2 counterexample: with pairwise-distinct source keys but two target
rows sharing a composite key, the same key ends up in both `to_update` and
`to_delete` — the three mappings are not mutually exclusive. -/
theorem C2_counterexample :
    (prep_data_for_merge [[("label", vstr "A"), ("x", vstr "1")]]
        [[("label", vstr "A"), ("x", vstr "2")],
         [("label", vstr "A"), ("x", vstr "3")]]).map
      (fun ma => (containsK ma.to_update [vstr "A"],
        containsK ma.to_delete [vstr "A"])) = .ok (true, true) := by decide

/-- C2 (amended): when the diff succeeds and the TARGET rows' composite keys
are also pairwise distinct, every composite key appears in at most one of
`to_insert`, `to_update`, `to_delete`; `to_insert` is disjoint from the
other two even without target distinctness, but duplicate target keys can
place one key in both `to_update` and `to_delete`. -/
theorem C2_partition (S T : List Row) (mk : Option (List String))
    (slkO : Option String) (skO : Option (List String)) (ma : MergeActions)
    (Ks : List Key)
    (h : prep_data_for_merge S T mk slkO skO = .ok ma)
    (hKs : targetKeysOf (sortStrings (mk.getD ["label"])) T = .ok Ks)
    (hpwT : Ks.Pairwise fun a b => keyEq a b = false) :
    ∀ K, ¬(containsK ma.to_insert K = true ∧ containsK ma.to_update K = true) ∧
      ¬(containsK ma.to_insert K = true ∧ containsK ma.to_delete K = true) ∧
      ¬(containsK ma.to_update K = true ∧ containsK ma.to_delete K = true) := by
  obtain ⟨sa, ta, hsa, hta, hma⟩ := prep_ok_inv h
  obtain ⟨l, hsl, hsrc, hpwS, hcount, hskeys⟩ := prepSource_ok_inv hsa
  set acc0 : TargetAcc :=
    { src := sa.src, to_update := ∅, to_delete := ∅, target_keys := [] }
    with hacc0
  have hwf : KWf acc0.src := by
    show KWf sa.src
    rw [hsrc]
    exact KWf_of_pairwise_keys hpwS
  obtain ⟨ta2, hfold2, h1, h2, h3, _⟩ :=
    targetFold_master (sortStrings (mk.getD ["label"])) T Ks acc0 hKs hpwT hwf
  rw [hta] at hfold2
  injection hfold2 with hfold2
  subst hfold2
  subst hma
  intro K
  refine ⟨?_, ?_, ?_⟩
  · rintro ⟨hi, hu⟩
    unfold containsK at hi hu
    rw [h1 K] at hi
    rw [h2 K] at hu
    by_cases hany : (Ks.any fun kt => keyEq kt K) = true
    · rw [if_pos hany] at hi
      cases hi
    · rw [find?_none_of_any_false (by simpa using hany)] at hu
      dsimp only at hu
      rw [lookupK_empty] at hu
      cases hu
  · rintro ⟨hi, hd⟩
    unfold containsK at hi hd
    rw [h1 K] at hi
    rw [h3 K] at hd
    by_cases hany : (Ks.any fun kt => keyEq kt K) = true
    · rw [if_pos hany] at hi
      cases hi
    · rw [find?_none_of_any_false (by simpa using hany)] at hd
      dsimp only at hd
      rw [lookupK_empty] at hd
      cases hd
  · rintro ⟨hu, hd⟩
    unfold containsK at hu hd
    rw [h2 K] at hu
    rw [h3 K] at hd
    cases hfind : (T.zip Ks).find? (fun p => keyEq p.2 K) with
    | none =>
      rw [hfind] at hu
      dsimp only at hu
      rw [lookupK_empty] at hu
      cases hu
    | some p =>
      rw [hfind] at hu hd
      dsimp only at hu hd
      cases hm : lookupK acc0.src p.2 with
      | none =>
        rw [hm] at hu
        dsimp only at hu
        rw [lookupK_empty] at hu
        cases hu
      | some m =>
        rw [hm] at hd
        dsimp only at hd
        rw [lookupK_empty] at hd
        cases hd

/-- C2 witness: with distinct source and target keys, the key `("A")`
appears in at most one of the three mappings. -/
theorem C2_witness :
    ¬(containsK (MergeActions.to_insert ⟨["label"], ∅,
        [([vstr "A"], [("label", vstr "A"), ("x", vstr "1")])],
        [([vstr "B"], [("label", vstr "B")])],
        ["label", "x"], ["label", "x"], []⟩) [vstr "A"] = true ∧
      containsK (MergeActions.to_update ⟨["label"], ∅,
        [([vstr "A"], [("label", vstr "A"), ("x", vstr "1")])],
        [([vstr "B"], [("label", vstr "B")])],
        ["label", "x"], ["label", "x"], []⟩) [vstr "A"] = true) ∧
    ¬(containsK (MergeActions.to_insert ⟨["label"], ∅,
        [([vstr "A"], [("label", vstr "A"), ("x", vstr "1")])],
        [([vstr "B"], [("label", vstr "B")])],
        ["label", "x"], ["label", "x"], []⟩) [vstr "A"] = true ∧
      containsK (MergeActions.to_delete ⟨["label"], ∅,
        [([vstr "A"], [("label", vstr "A"), ("x", vstr "1")])],
        [([vstr "B"], [("label", vstr "B")])],
        ["label", "x"], ["label", "x"], []⟩) [vstr "A"] = true) ∧
    ¬(containsK (MergeActions.to_update ⟨["label"], ∅,
        [([vstr "A"], [("label", vstr "A"), ("x", vstr "1")])],
        [([vstr "B"], [("label", vstr "B")])],
        ["label", "x"], ["label", "x"], []⟩) [vstr "A"] = true ∧
      containsK (MergeActions.to_delete ⟨["label"], ∅,
        [([vstr "A"], [("label", vstr "A"), ("x", vstr "1")])],
        [([vstr "B"], [("label", vstr "B")])],
        ["label", "x"], ["label", "x"], []⟩) [vstr "A"] = true) :=
  C2_partition [[("label", vstr "A"), ("x", vstr "1")]]
    [[("label", vstr "A"), ("x", vstr "2")], [("label", vstr "B")]]
    Option.none (some "label") Option.none _ [[vstr "A"], [vstr "B"]]
    (by decide) (by decide) (by decide) [vstr "A"]

theorem lookupK_of_mem {d : KDict Row} (hwf : KWf d) {K : Key} {r : Row}
    (h : (K, r) ∈ (show List (Key × Row) from d)) : lookupK d K = some r := by
  induction d with
  | nil => cases h
  | cons e es ih =>
    rcases hwf with _ | ⟨hhead, htail⟩
    rcases List.mem_cons.1 h with heq | hm
    · rw [← heq]
      show (if keyEq K K then some r else lookupK es K) = some r
      rw [if_pos (keyEq_refl K)]
    · have hek : keyEq e.1 K = false := by
        have := hhead (K, r) hm
        simpa using this
      show (if keyEq e.1 K = true then some e.2 else lookupK es K) = some r
      rw [if_neg (by simp [hek])]
      exact ih htail hm

theorem sourceEntry_ok_inv {slk : String} {sk : Option (List String)}
    {mks : List String} {s : Row} {e : Key × Row}
    (h : sourceEntry slk sk mks s = .ok e) :
    ∃ r, normalizeRow slk sk s = .ok r ∧ get_key r mks = .ok e.1 ∧ e.2 = r := by
  revert h
  unfold sourceEntry
  cases hn : normalizeRow slk sk s with
  | error e2 => intro h; cases h
  | ok r =>
    simp only [Except.bind, Bind.bind]
    cases hk : get_key r mks with
    | error e2 => intro h; cases h
    | ok K =>
      intro h
      injection h with h
      subst h
      exact ⟨r, rfl, hk, rfl⟩

theorem sourceList_mem_fwd {slk : String} {sk : Option (List String)}
    {mks : List String} :
    ∀ {S : List Row} {l : List (Key × Row)},
      sourceList slk sk mks S = .ok l → ∀ s ∈ S,
        ∃ e ∈ l, sourceEntry slk sk mks s = .ok e := by
  intro S
  induction S with
  | nil => intro l _ s hs; cases hs
  | cons s0 rest ih =>
    intro l hl s hs
    revert hl
    unfold sourceList
    cases he : sourceEntry slk sk mks s0 with
    | error e2 => intro hl; cases hl
    | ok e0 =>
      simp only [Except.bind, Bind.bind]
      cases hrest : sourceList slk sk mks rest with
      | error e2 => intro hl; cases hl
      | ok l0 =>
        intro hl
        injection hl with hl
        subst hl
        rcases List.mem_cons.1 hs with rfl | hs2
        · exact ⟨e0, by simp, he⟩
        · obtain ⟨e, hel, hse⟩ := ih hrest s hs2
          exact ⟨e, by simp [hel], hse⟩

theorem sourceList_mem_bwd {slk : String} {sk : Option (List String)}
    {mks : List String} :
    ∀ {S : List Row} {l : List (Key × Row)},
      sourceList slk sk mks S = .ok l → ∀ e ∈ l,
        ∃ s ∈ S, sourceEntry slk sk mks s = .ok e := by
  intro S
  induction S with
  | nil =>
    intro l hl e he
    cases hl
    cases he
  | cons s0 rest ih =>
    intro l hl e he
    revert hl
    unfold sourceList
    cases hs0 : sourceEntry slk sk mks s0 with
    | error e2 => intro hl; cases hl
    | ok e0 =>
      simp only [Except.bind, Bind.bind]
      cases hrest : sourceList slk sk mks rest with
      | error e2 => intro hl; cases hl
      | ok l0 =>
        intro hl
        injection hl with hl
        subst hl
        rcases List.mem_cons.1 he with rfl | he2
        · exact ⟨s0, by simp, hs0⟩
        · obtain ⟨s, hsl, hse⟩ := ih hrest e he2
          exact ⟨s, by simp [hsl], hse⟩

theorem find?_zip_self {K : Key} :
    ∀ (T : List Row) (Ks : List Key), Ks.Pairwise (fun a b => keyEq a b = false) →
      ∀ t, (t, K) ∈ T.zip Ks →
        (T.zip Ks).find? (fun p => keyEq p.2 K) = some (t, K) := by
  intro T
  induction T with
  | nil => intro Ks _ t hm; cases hm
  | cons t0 rest ih =>
    intro Ks hpw t hm
    cases Ks with
    | nil => cases hm
    | cons k0 ks =>
      rcases hpw with _ | ⟨hhead, htail⟩
      rw [List.zip_cons_cons] at hm ⊢
      rcases List.mem_cons.1 hm with heq | hm2
      · injection heq with h1 h2
        subst h1
        subst h2
        rw [List.find?_cons_of_pos _ (by simpa using keyEq_refl K)]
      · have hkK : k0 ≠ K ∧ keyEq k0 K = false := by
          have hKks : K ∈ ks := (List.of_mem_zip hm2).2
          have := hhead K hKks
          exact ⟨(fun he => by rw [he, keyEq_refl] at this; cases this), this⟩
        rw [List.find?_cons_of_neg _ (by simp [hkK.2])]
        exact ih ks htail t hm2

/-! Claim C4. -/

/-- C4 counterexample: with two target rows sharing a composite key and no
matching source row, the first such target row does NOT appear in
`to_delete` — it is overwritten by the second — refuting the claim that
every target row whose key matches no source row appears in `to_delete`
verbatim. -/
theorem C4_counterexample :
    (prep_data_for_merge ([] : List Row)
        [[("label", vstr "A"), ("x", vstr "1")],
         [("label", vstr "A"), ("x", vstr "2")]]).map
      (fun ma => lookupK ma.to_delete [vstr "A"]) =
      .ok (some [("label", vstr "A"), ("x", vstr "2")]) ∧
    ([("label", vstr "A"), ("x", vstr "1")] : Row) ≠
      [("label", vstr "A"), ("x", vstr "2")] := ⟨by decide, by decide⟩

/-- C4 (amended): when the diff succeeds and target composite keys are
pairwise distinct: a normalized source row whose key matches no target key
is in `to_insert` under its key; a target row whose key matches no source
key is in `to_delete` verbatim; and a matched pair whose fields are all
textually equal (source fields all present in the target, non-reserved ones
with equal stored text) appears in none of the three mappings. -/
theorem C4_classification (S T : List Row) (mk : Option (List String))
    (slkO : Option String) (skO : Option (List String)) (ma : MergeActions)
    (Ks : List Key)
    (h : prep_data_for_merge S T mk slkO skO = .ok ma)
    (hKs : targetKeysOf (sortStrings (mk.getD ["label"])) T = .ok Ks)
    (hpwT : Ks.Pairwise fun a b => keyEq a b = false) :
    (∀ s ∈ S, ∀ r K, normalizeRow (slkO.getD "label") skO s = .ok r →
      get_key r (sortStrings (mk.getD ["label"])) = .ok K →
      (∀ kt ∈ Ks, keyEq kt K = false) →
      lookupK ma.to_insert K = some r) ∧
    (∀ t kt, (t, kt) ∈ T.zip Ks →
      (∀ s ∈ S, ∀ r K, normalizeRow (slkO.getD "label") skO s = .ok r →
        get_key r (sortStrings (mk.getD ["label"])) = .ok K →
        keyEq K kt = false) →
      lookupK ma.to_delete kt = some t) ∧
    (∀ t kt, (t, kt) ∈ T.zip Ks → RowWf t →
      ∀ s ∈ S, ∀ r K, normalizeRow (slkO.getD "label") skO s = .ok r →
      get_key r (sortStrings (mk.getD ["label"])) = .ok K →
      keyEq K kt = true →
      (∀ kv ∈ (show List (String × Value) from r), t.hasKey kv.1 = true) →
      (∀ kv ∈ (show List (String × Value) from r), kv.1 ∉ reserved_keys →
        t.lookup kv.1 = some (vstr (pyStr kv.2))) →
      lookupK ma.to_insert kt = Option.none ∧
      lookupK ma.to_update kt = Option.none ∧
      lookupK ma.to_delete kt = Option.none) := by
  obtain ⟨sa, ta, hsa, hta, hma⟩ := prep_ok_inv h
  obtain ⟨l, hsl, hsrc, hpwS, hcount, hskeys⟩ := prepSource_ok_inv hsa
  set acc0 : TargetAcc :=
    { src := sa.src, to_update := ∅, to_delete := ∅, target_keys := [] }
    with hacc0
  have hwfl : KWf (show KDict Row from l) := KWf_of_pairwise_keys hpwS
  have hsrc0 : acc0.src = (show KDict Row from l) := by
    show sa.src = _
    exact hsrc
  have hwf : KWf acc0.src := by rw [hsrc0]; exact hwfl
  obtain ⟨ta2, hfold2, h1, h2, h3, _⟩ :=
    targetFold_master (sortStrings (mk.getD ["label"])) T Ks acc0 hKs hpwT hwf
  rw [hta] at hfold2
  injection hfold2 with hfold2
  subst hfold2
  subst hma
  have hmem_entry : ∀ s ∈ S, ∀ r K,
      normalizeRow (slkO.getD "label") skO s = .ok r →
      get_key r (sortStrings (mk.getD ["label"])) = .ok K →
      (K, r) ∈ l := by
    intro s hs r K hn hgk
    obtain ⟨e, hel, hse⟩ := sourceList_mem_fwd hsl s hs
    have : sourceEntry (slkO.getD "label") skO (sortStrings (mk.getD ["label"])) s
        = .ok (K, r) := by
      unfold sourceEntry
      simp only [hn, hgk, Except.bind, Bind.bind]
      rfl
    rw [this] at hse
    injection hse with hse
    rw [hse]
    exact hel
  refine ⟨?_, ?_, ?_⟩
  · -- (a) unmatched source rows are inserted
    intro s hs r K hn hgk hnomatch
    show lookupK ta.src K = some r
    rw [h1 K]
    rw [if_neg (show ¬ ((Ks.any fun kt => keyEq kt K) = true) from by
      rw [List.any_eq_false.2 (fun kt hkt => by simp [hnomatch kt hkt])]
      simp)]
    rw [hsrc0]
    exact lookupK_of_mem hwfl (hmem_entry s hs r K hn hgk)
  · -- (b) unmatched target rows are deleted verbatim
    intro t kt hm hnosrc
    show lookupK ta.to_delete kt = some t
    rw [h3 kt, find?_zip_self T Ks hpwT t hm]
    have hnone : lookupK acc0.src kt = Option.none := by
      rw [hsrc0]
      apply lookupK_eq_none_of_all_ne
      intro f hf
      obtain ⟨s, hsS, hse⟩ := sourceList_mem_bwd hsl f hf
      obtain ⟨r, hn, hgk, hfr⟩ := sourceEntry_ok_inv hse
      exact hnosrc s hsS r f.1 hn hgk
    dsimp only
    rw [hnone]
  · -- (c) matched textually-identical pairs are no-ops
    intro t kt hm hwt s hs r K hn hgk hKkt hhas hteq
    have hktKs : kt ∈ Ks := (List.of_mem_zip hm).2
    have hsome : lookupK acc0.src kt = some r := by
      rw [hsrc0, ← lookupK_congr hKkt]
      exact lookupK_of_mem hwfl (hmem_entry s hs r K hn hgk)
    have hflag : (buildUpdate t r).for_update = false := by
      rw [buildUpdate_flag]
      have hstage : (show List (String × Value) from t).any (stageCond r)
          = false := by
        apply List.any_eq_false.2
        intro kv hkv
        unfold stageCond
        by_cases hres : kv.1 ∈ reserved_keys
        · rw [contains_eq_true_iff_mem.2 hres]
          simp
        · have hc : reserved_keys.contains kv.1 = false := by
            cases hc2 : reserved_keys.contains kv.1
            · rfl
            · exact absurd (contains_eq_true_iff_mem.1 hc2) hres
          rw [hc]
          cases hrl : r.lookup kv.1 with
          | none => simp
          | some nv =>
            have hmemr := Row.mem_of_lookup_eq_some hrl
            have ht1 : t.lookup kv.1 = some (vstr (pyStr nv)) :=
              hteq (kv.1, nv) hmemr hres
            have ht2 : t.lookup kv.1 = some kv.2 :=
              Row.lookup_eq_some_of_mem hwt hkv
            rw [ht1] at ht2
            injection ht2 with ht2
            rw [← ht2]
            simp [strNeValue, vstr]
      have hnew : (show List (String × Value) from r).any (newCond t)
          = false := by
        apply List.any_eq_false.2
        intro kv hkv
        unfold newCond
        rw [hhas kv hkv]
        simp
      rw [hstage, hnew]
      rfl
    refine ⟨?_, ?_, ?_⟩
    · show lookupK ta.src kt = Option.none
      rw [h1 kt]
      rw [if_pos (List.any_eq_true.2 ⟨kt, hktKs, by simpa using keyEq_refl kt⟩)]
    · show lookupK ta.to_update kt = Option.none
      rw [h2 kt, find?_zip_self T Ks hpwT t hm]
      dsimp only
      rw [hsome]
      dsimp only
      rw [if_neg (by simp [hflag])]
      exact lookupK_empty
    · show lookupK ta.to_delete kt = Option.none
      rw [h3 kt, find?_zip_self T Ks hpwT t hm]
      dsimp only
      rw [hsome]
      dsimp only
      exact lookupK_empty

/-- C4 witness: on concrete data the amended classification places the
unmatched source row in `to_insert`, the unmatched target row in `to_delete`
verbatim, and the textually-identical matched pair nowhere. -/
theorem C4_witness :
    lookupK C4ma.to_insert [vstr "new"] = some [("label", vstr "new")] ∧
    lookupK C4ma.to_delete [vstr "gone"] = some [("label", vstr "gone")] ∧
    lookupK C4ma.to_insert [vstr "same"] = Option.none ∧
    lookupK C4ma.to_update [vstr "same"] = Option.none ∧
    lookupK C4ma.to_delete [vstr "same"] = Option.none := by
  obtain ⟨ha, hb, hc⟩ := C4_classification
    [[("label", vstr "new")], [("label", vstr "same"), ("x", vstr "1")]]
    [[("label", vstr "same"), ("x", vstr "1")], [("label", vstr "gone")]]
    Option.none Option.none Option.none C4ma
    [[vstr "same"], [vstr "gone"]]
    (by decide) (by decide) (by decide)
  refine ⟨?_, ?_, ?_⟩
  · exact ha [("label", vstr "new")] (by decide) [("label", vstr "new")]
      [vstr "new"] (by decide) (by decide) (by decide)
  · refine hb [("label", vstr "gone")] [vstr "gone"] (by decide) ?_
    intro s hs r K hn hgk
    cases hs with
    | head =>
      have hn2 : (Except.ok ([("label", vstr "new")] : Row) :
          Except MergeError Row) = Except.ok r := by rw [← hn]; decide
      injection hn2 with hr
      subst hr
      have hg2 : (Except.ok ([vstr "new"] : Key) :
          Except MergeError Key) = Except.ok K := by rw [← hgk]; decide
      injection hg2 with hK
      subst hK
      decide
    | tail _ hs2 =>
      cases hs2 with
      | head =>
        have hn2 : (Except.ok ([("label", vstr "same"), ("x", vstr "1")] :
            Row) : Except MergeError Row) = Except.ok r := by rw [← hn]; decide
        injection hn2 with hr
        subst hr
        have hg2 : (Except.ok ([vstr "same"] : Key) :
            Except MergeError Key) = Except.ok K := by rw [← hgk]; decide
        injection hg2 with hK
        subst hK
        decide
      | tail _ hs3 => cases hs3
  · exact hc [("label", vstr "same"), ("x", vstr "1")] [vstr "same"]
      (by decide) (by decide)
      [("label", vstr "same"), ("x", vstr "1")] (by decide)
      [("label", vstr "same"), ("x", vstr "1")] [vstr "same"]
      (by decide) (by decide) (by decide) (by decide) (by decide)

/-! Claim C8: the schema-extension phase of `merge`. -/

theorem nodup_fold_setUnion (l : List (Key × Row)) :
    ∀ s : List String, s.Nodup →
      (l.foldl (fun sks e => setUnion sks e.2.keys) s).Nodup := by
  induction l with
  | nil => intro s h; exact h
  | cons e rest ih => intro s h; exact ih _ (nodup_setUnion h _)

theorem oneUpdateCall_ok_inv {fk : List String} {u : Row} {c : NetCall}
    (h : oneUpdateCall fk u = .ok c) :
    ∃ uuid lab bv, c = NetCall.updateEntity uuid lab
      ((show List (String × Value) from u).filter fun kv => fk.contains kv.1)
      bv := by
  unfold oneUpdateCall at h
  cases h1 : subscript u "__id" with
  | error e => rw [h1] at h; simp [Except.bind, Bind.bind] at h
  | ok uuidV =>
    rw [h1] at h
    simp only [Except.bind, Bind.bind] at h
    cases h2 : subscript u "label" with
    | error e => rw [h2] at h; simp [Except.bind, Bind.bind] at h
    | ok labelV =>
      rw [h2] at h
      simp only [Except.bind, Bind.bind] at h
      cases h3 : systemVersion u with
      | error e => rw [h3] at h; simp [Except.bind, Bind.bind] at h
      | ok versionV =>
        rw [h3] at h
        simp only [Except.bind, Bind.bind] at h
        cases h4 : validate_str uuidV "uuid" with
        | error e => rw [h4] at h; simp [Except.bind, Bind.bind] at h
        | ok uuid =>
          rw [h4] at h
          simp only [Except.bind, Bind.bind] at h
          cases h5 : validate_int versionV "base_version" with
          | error e => rw [h5] at h; simp [Except.bind, Bind.bind] at h
          | ok version =>
            rw [h5] at h
            simp only [Except.bind, Bind.bind] at h
            cases h6 : validate_str labelV "label" with
            | error e => rw [h6] at h; simp [Except.bind, Bind.bind] at h
            | ok lab =>
              rw [h6] at h
              simp only [Except.bind, Bind.bind, pure, Except.pure] at h
              injection h with h
              exact ⟨uuid, lab, version, h.symm⟩

theorem updatePhase_calls_mem {fk : List String} :
    ∀ (us : List Row) (c : NetCall), c ∈ (updatePhase fk us).1 →
      ∃ uuid lab bv u, u ∈ us ∧ c = NetCall.updateEntity uuid lab
        ((show List (String × Value) from u).filter fun kv => fk.contains kv.1)
        bv := by
  intro us
  induction us with
  | nil => intro c hc; cases hc
  | cons u rest ih =>
    intro c hc
    unfold updatePhase at hc
    cases hx : oneUpdateCall fk u with
    | error e => rw [hx] at hc; dsimp only at hc; cases hc
    | ok c0 =>
      rw [hx] at hc
      dsimp only at hc
      rcases List.mem_cons.1 hc with rfl | hc2
      · obtain ⟨uuid, lab, bv, hc0⟩ := oneUpdateCall_ok_inv hx
        exact ⟨uuid, lab, bv, u, by simp, hc0⟩
      · obtain ⟨uuid, lab, bv, u2, hu2, hcc⟩ := ih c hc2
        exact ⟨uuid, lab, bv, u2, by simp [hu2], hcc⟩

theorem deletePhase_calls_mem :
    ∀ (ds : List Row) (c : NetCall), c ∈ (deletePhase ds).1 →
      ∃ uuid, c = NetCall.deleteEntity uuid := by
  intro ds
  induction ds with
  | nil => intro c hc; cases hc
  | cons d rest ih =>
    intro c hc
    unfold deletePhase at hc
    cases hx : subscript d "__id" >>= fun v => validate_str v "uuid" with
    | error e => rw [hx] at hc; dsimp only at hc; cases hc
    | ok uuid =>
      rw [hx] at hc
      dsimp only at hc
      rcases List.mem_cons.1 hc with rfl | hc2
      · exact ⟨uuid, rfl⟩
      · exact ih c hc2

theorem reshape_ok_mem :
    ∀ (rows : List Row) (ents : List (Value × Row)), reshape rows = .ok ents →
      ∀ p ∈ ents, ∃ i ∈ rows, p.2 =
        (show List (String × Value) from i).filter fun kv => kv.1 ≠ "label" := by
  intro rows
  induction rows with
  | nil =>
    intro ents h p hp
    unfold reshape at h
    simp only [List.mapM_nil, pure, Except.pure] at h
    injection h with h
    subst h
    cases hp
  | cons i rest ih =>
    intro ents h p hp
    unfold reshape at h
    rw [List.mapM_cons] at h
    dsimp only at h
    cases hl : List.lookup "label" i with
    | none =>
      rw [hl] at h
      simp [Except.bind, Bind.bind, throw, throwThe, MonadExceptOf.throw] at h
    | some lv =>
      rw [hl] at h
      simp only [Except.bind, Bind.bind, pure, Except.pure] at h
      cases hr : reshape rest with
      | error e =>
        have hr2 := hr
        unfold reshape at hr2
        simp only [Except.bind, Bind.bind, pure, Except.pure] at hr2
        rw [hr2] at h
        simp [Except.bind, Bind.bind, pure, Except.pure] at h
      | ok es =>
        have hr2 := hr
        unfold reshape at hr2
        simp only [Except.bind, Bind.bind, pure, Except.pure] at hr2
        rw [hr2] at h
        simp only [Except.bind, Bind.bind, pure, Except.pure] at h
        injection h with h
        subst h
        rcases List.mem_cons.1 hp with rfl | hp2
        · exact ⟨i, by simp, rfl⟩
        · obtain ⟨i2, hi2, hpe⟩ := ih es hr p hp2
          exact ⟨i2, by simp [hi2], hpe⟩

theorem except_bind_ok {α β ε : Type} {x : Except ε α} {f : α → Except ε β}
    {b : β} (h : x >>= f = .ok b) : ∃ a, x = .ok a ∧ f a = .ok b := by
  cases x with
  | error e => simp [Bind.bind, Except.bind] at h
  | ok a => exact ⟨a, rfl, by simpa [Bind.bind, Except.bind] using h⟩

theorem updateIf_calls_mem {fk : List String} {um : Bool} {us : List Row}
    {c : NetCall}
    (hc : c ∈ (if um = true then updatePhase fk us
      else (([] : List NetCall), (Option.none : Option MergeError))).1) :
    ∃ uuid lab d bv, c = NetCall.updateEntity uuid lab d bv ∧
      ∀ kv ∈ (show List (String × Value) from d), kv.1 ∈ fk := by
  by_cases hum : um = true
  · rw [if_pos hum] at hc
    obtain ⟨uuid, lab, bv, u, _, hcc⟩ := updatePhase_calls_mem us c hc
    refine ⟨uuid, lab, _, bv, hcc, ?_⟩
    intro kv hkv
    exact contains_eq_true_iff_mem.1 (List.mem_filter.1 hkv).2
  · rw [if_neg hum] at hc
    cases hc

theorem deleteIf_calls_mem {dm : Bool} {ds : List Row} {c : NetCall}
    (hc : c ∈ (if dm = true then deletePhase ds
      else (([] : List NetCall), (Option.none : Option MergeError))).1) :
    ∃ uuid, c = NetCall.deleteEntity uuid := by
  by_cases hdm : dm = true
  · rw [if_pos hdm] at hc
    exact deletePhase_calls_mem ds c hc
  · rw [if_neg hdm] at hc
    cases hc

theorem merge_ok_shape {T S : List Row} {mk : Option (List String)}
    {anp um dm : Bool} {slkO : Option String} {skO : Option (List String)}
    {ma0 : MergeActions}
    (h : prep_data_for_merge S T mk slkO skO = .ok ma0) :
    ∃ rest : List NetCall,
      (merge T S mk anp um dm slkO skO).calls =
        NetCall.getTable ::
          ((if anp = true then ma0.keys_difference.map NetCall.createProperty
            else []) ++ rest) ∧
      (∀ c ∈ rest,
        (∃ ents, c = NetCall.createMany ents ∧
          ∀ p ∈ ents, ∀ kv ∈ (show List (String × Value) from p.2),
            kv.1 ∈ (if anp = true then ma0.keys_union
              else ma0.keys_intersect)) ∨
        (∃ uuid lab d bv, c = NetCall.updateEntity uuid lab d bv ∧
          ∀ kv ∈ (show List (String × Value) from d),
            kv.1 ∈ (if anp = true then ma0.keys_union
              else ma0.keys_intersect)) ∨
        (∃ uuid, c = NetCall.deleteEntity uuid)) ∧
      (∀ ma, (merge T S mk anp um dm slkO skO).result = .ok ma →
        ma = { ma0 with final_keys :=
          if anp = true then ma0.keys_union else ma0.keys_intersect }) := by
  unfold merge
  rw [h]
  dsimp only
  split
  · rename_i e heq
    refine ⟨[], by simp, ?_, ?_⟩
    · intro c hc
      cases hc
    · intro ma hma
      exact Except.noConfusion hma
  · rename_i insCalls heq
    have hins : ∀ c ∈ insCalls, ∃ ents, c = NetCall.createMany ents ∧
        ∀ p ∈ ents, ∀ kv ∈ (show List (String × Value) from p.2),
          kv.1 ∈ (if anp = true then ma0.keys_union
            else ma0.keys_intersect) := by
      intro c hc
      split at heq
      · obtain ⟨ents, hre, hpure⟩ := except_bind_ok heq
        simp only [pure, Except.pure] at hpure
        injection hpure with hpure
        subst hpure
        rcases List.mem_cons.1 hc with rfl | hc2
        · refine ⟨ents, rfl, ?_⟩
          intro p hp kv hkv
          obtain ⟨i, hi, hpe⟩ := reshape_ok_mem _ ents hre p hp
          rw [hpe] at hkv
          obtain ⟨hkvi, hkvlab⟩ := List.mem_filter.1 hkv
          obtain ⟨i0, hi0, hif⟩ := List.mem_map.1 hi
          rw [← hif] at hkvi
          obtain ⟨_, hrel⟩ := List.mem_filter.1 hkvi
          rcases List.mem_cons.1 (contains_eq_true_iff_mem.1 hrel) with
            hlab | hfk
          · rw [hlab] at hkvlab
            simp at hkvlab
          · exact hfk
        · cases hc2
      · simp only [pure, Except.pure] at heq
        injection heq with heq
        subst heq
        cases hc
    split
    · rename_i e heq2
      refine ⟨insCalls ++
          (if um = true then updatePhase
              (if anp = true then ma0.keys_union else ma0.keys_intersect)
              (List.map Prod.snd ma0.to_update)
            else ([], Option.none)).1,
        by simp [List.append_assoc], ?_, ?_⟩
      · intro c hc
        rcases List.mem_append.1 hc with hc1 | hc2
        · exact Or.inl (hins c hc1)
        · obtain ⟨uuid, lab, d, bv, hcc, hd⟩ := updateIf_calls_mem hc2
          exact Or.inr (Or.inl ⟨uuid, lab, d, bv, hcc, hd⟩)
      · intro ma hma
        exact Except.noConfusion hma
    · rename_i heq2
      split
      · rename_i e heq3
        refine ⟨insCalls ++
            (if um = true then updatePhase
                (if anp = true then ma0.keys_union else ma0.keys_intersect)
                (List.map Prod.snd ma0.to_update)
              else ([], Option.none)).1 ++
            (if dm = true then deletePhase (List.map Prod.snd ma0.to_delete)
              else ([], Option.none)).1,
          by simp [List.append_assoc], ?_, ?_⟩
        · intro c hc
          rcases List.mem_append.1 hc with hc12 | hc3
          · rcases List.mem_append.1 hc12 with hc1 | hc2
            · exact Or.inl (hins c hc1)
            · obtain ⟨uuid, lab, d, bv, hcc, hd⟩ := updateIf_calls_mem hc2
              exact Or.inr (Or.inl ⟨uuid, lab, d, bv, hcc, hd⟩)
          · exact Or.inr (Or.inr (deleteIf_calls_mem hc3))
        · intro ma hma
          exact Except.noConfusion hma
      · refine ⟨insCalls ++
            (if um = true then updatePhase
                (if anp = true then ma0.keys_union else ma0.keys_intersect)
                (List.map Prod.snd ma0.to_update)
              else ([], Option.none)).1 ++
            (if dm = true then deletePhase (List.map Prod.snd ma0.to_delete)
              else ([], Option.none)).1,
          by simp [List.append_assoc], ?_, ?_⟩
        · intro c hc
          rcases List.mem_append.1 hc with hc12 | hc3
          · rcases List.mem_append.1 hc12 with hc1 | hc2
            · exact Or.inl (hins c hc1)
            · obtain ⟨uuid, lab, d, bv, hcc, hd⟩ := updateIf_calls_mem hc2
              exact Or.inr (Or.inl ⟨uuid, lab, d, bv, hcc, hd⟩)
          · exact Or.inr (Or.inr (deleteIf_calls_mem hc3))
        · intro ma hma
          injection hma with hma
          exact hma.symm

theorem contains_eq_false_iff_not_mem {l : List String} {x : String} :
    l.contains x = false ↔ x ∉ l := by
  constructor
  · intro h hx
    rw [contains_eq_true_iff_mem.2 hx] at h
    cases h
  · intro h
    cases hc : l.contains x
    · rfl
    · exact absurd (contains_eq_true_iff_mem.1 hc) h

theorem prep_ok_source_keys_nodup {S T : List Row} {mk : Option (List String)}
    {slkO : Option String} {skO : Option (List String)} {ma0 : MergeActions}
    (h : prep_data_for_merge S T mk slkO skO = .ok ma0) :
    ma0.source_keys.Nodup := by
  obtain ⟨sa, ta, hsa, hta, hma⟩ := prep_ok_inv h
  obtain ⟨l, _, _, _, _, hskeys⟩ := prepSource_ok_inv hsa
  subst hma
  show sa.source_keys.Nodup
  rw [hskeys]
  exact nodup_fold_setUnion l [] (by simp)

/-- C8: when the diff succeeds, enabling `add_new_properties` makes `merge`
issue exactly one property-registration call per field in `source_keys` but
not `target_keys` (reserved fields excluded) — the registered names, in call
order, are exactly the duplicate-free `keys_difference` — and a successful
merge returns `final_keys` as the union of the source and target field sets;
disabling it issues no property-registration call, returns `final_keys` as
the intersection, and every outgoing insert or update payload carries only
intersection fields (plus the label handled separately), so source-only
fields are silently omitted rather than an error. -/
theorem C8_schema_extension (S T : List Row) (mk : Option (List String))
    (um dm : Bool) (slkO : Option String) (skO : Option (List String))
    (ma0 : MergeActions)
    (h : prep_data_for_merge S T mk slkO skO = .ok ma0) :
    ((merge T S mk true um dm slkO skO).calls.filterMap NetCall.propertyName =
        ma0.keys_difference ∧
      ma0.keys_difference.Nodup ∧
      (∀ k, k ∈ ma0.keys_difference ↔
        k ∈ ma0.source_keys ∧ k ∉ ma0.target_keys ∧ k ∉ reserved_keys) ∧
      (∀ ma, (merge T S mk true um dm slkO skO).result = .ok ma →
        ma.final_keys = ma0.keys_union ∧
        ∀ k, k ∈ ma.final_keys ↔
          ((k ∈ ma0.source_keys ∨ k ∈ ma0.target_keys) ∧
            k ∉ reserved_keys))) ∧
    ((merge T S mk false um dm slkO skO).calls.filterMap NetCall.propertyName
        = [] ∧
      (∀ ma, (merge T S mk false um dm slkO skO).result = .ok ma →
        ma.final_keys = ma0.keys_intersect ∧
        ∀ k, k ∈ ma.final_keys ↔
          (k ∈ ma0.source_keys ∧ k ∈ ma0.target_keys ∧
            k ∉ reserved_keys)) ∧
      (∀ ents, NetCall.createMany ents ∈
          (merge T S mk false um dm slkO skO).calls →
        ∀ p ∈ ents, ∀ kv ∈ (show List (String × Value) from p.2),
          kv.1 ∈ ma0.keys_intersect) ∧
      (∀ uuid lab d bv, NetCall.updateEntity uuid lab d bv ∈
          (merge T S mk false um dm slkO skO).calls →
        ∀ kv ∈ (show List (String × Value) from d),
          kv.1 ∈ ma0.keys_intersect)) := by
  obtain ⟨restT, hcallsT, hshapeT, hresT⟩ :=
    @merge_ok_shape T S mk true um dm slkO skO ma0 h
  obtain ⟨restF, hcallsF, hshapeF, hresF⟩ :=
    @merge_ok_shape T S mk false um dm slkO skO ma0 h
  have hrestT : restT.filterMap NetCall.propertyName = [] := by
    rw [List.filterMap_eq_nil_iff]
    intro c hc
    rcases hshapeT c hc with ⟨ents, rfl, _⟩ | ⟨u2, l2, d2, b2, rfl, _⟩ |
      ⟨u2, rfl⟩ <;> rfl
  have hrestF : restF.filterMap NetCall.propertyName = [] := by
    rw [List.filterMap_eq_nil_iff]
    intro c hc
    rcases hshapeF c hc with ⟨ents, rfl, _⟩ | ⟨u2, l2, d2, b2, rfl, _⟩ |
      ⟨u2, rfl⟩ <;> rfl
  refine ⟨⟨?_, ?_, ?_, ?_⟩, ?_, ?_, ?_, ?_⟩
  · rw [hcallsT]
    rw [if_pos rfl]
    simp [List.filterMap_cons, List.filterMap_append, List.filterMap_map,
      NetCall.propertyName, Function.comp, hrestT]
    rw [show NetCall.propertyName ∘ NetCall.createProperty = some from rfl]
    simp
  · exact List.Nodup.filter _ (prep_ok_source_keys_nodup h)
  · intro k
    simp [MergeActions.keys_difference, List.mem_filter,
      contains_eq_false_iff_not_mem]
  · intro ma hma
    have hmaeq := hresT ma hma
    rw [if_pos rfl] at hmaeq
    subst hmaeq
    refine ⟨rfl, ?_⟩
    intro k
    show k ∈ ma0.keys_union ↔ _
    simp [MergeActions.keys_union, List.mem_filter, mem_setUnion,
      contains_eq_false_iff_not_mem]
  · rw [hcallsF]
    rw [if_neg (by simp)]
    simp [List.filterMap_cons, NetCall.propertyName, hrestF]
  · intro ma hma
    have hmaeq := hresF ma hma
    rw [if_neg (by simp)] at hmaeq
    subst hmaeq
    refine ⟨rfl, ?_⟩
    intro k
    show k ∈ ma0.keys_intersect ↔ _
    simp [MergeActions.keys_intersect, List.mem_filter,
      contains_eq_true_iff_mem, contains_eq_false_iff_not_mem, and_assoc]
  · intro ents hents p hp kv hkv
    rw [hcallsF] at hents
    rcases List.mem_cons.1 hents with hbad | hmem
    · exact NetCall.noConfusion hbad
    · rw [if_neg (by simp)] at hmem
      rw [List.nil_append] at hmem
      rcases hshapeF _ hmem with ⟨ents2, heq, hpay⟩ | ⟨u2, l2, d2, b2, heq, _⟩ |
        ⟨u2, heq⟩
      · injection heq with heq
        subst heq
        have := hpay p hp kv hkv
        rw [if_neg (by simp)] at this
        exact this
      · exact NetCall.noConfusion heq
      · exact NetCall.noConfusion heq
  · intro uuid lab d bv hud kv hkv
    rw [hcallsF] at hud
    rcases List.mem_cons.1 hud with hbad | hmem
    · exact NetCall.noConfusion hbad
    · rw [if_neg (by simp)] at hmem
      rw [List.nil_append] at hmem
      rcases hshapeF _ hmem with ⟨ents2, heq, _⟩ | ⟨u2, l2, d2, b2, heq, hpay⟩ |
        ⟨u2, heq⟩
      · exact NetCall.noConfusion heq
      · injection heq with h1 h2 h3 h4
        subst h1; subst h2; subst h3; subst h4
        have := hpay kv hkv
        rw [if_neg (by simp)] at this
        exact this
      · exact NetCall.noConfusion heq

/-- C8 witness: with one source-only field `a`, enabling
`add_new_properties` registers exactly `a`, and disabling it registers
nothing. -/
theorem C8_witness :
    (merge [[("label", vstr "x"), ("b", vstr "2")]]
        [[("label", vstr "x"), ("a", vstr "1")]]
        Option.none true false false Option.none
        Option.none).calls.filterMap NetCall.propertyName = ["a"] ∧
    (merge [[("label", vstr "x"), ("b", vstr "2")]]
        [[("label", vstr "x"), ("a", vstr "1")]]
        Option.none false false false Option.none
        Option.none).calls.filterMap NetCall.propertyName = [] := by
  have hc8 := C8_schema_extension
    [[("label", vstr "x"), ("a", vstr "1")]]
    [[("label", vstr "x"), ("b", vstr "2")]]
    Option.none false false Option.none Option.none
    ⟨["label"], ∅,
      [([vstr "x"], [("label", vstr "x"), ("a", vstr "1")])], ∅,
      ["label", "a"], ["label", "b"], []⟩
    (by decide)
  exact ⟨hc8.1.1.trans (by decide), hc8.2.1⟩

/-! Claim C9: the diff as a fixed point after applying its own result. -/

theorem pyStr_vstr (s : String) : pyStr (vstr s) = s := rfl

theorem pyEq_vstr_inv {s : String} {w : Value} (h : pyEq (vstr s) w = true) :
    w = vstr s := by
  cases w with
  | atom b => cases b <;> simp_all [pyEq, vstr, atomEq, Atom.asNum]
  | dict l => simp [pyEq, vstr] at h

theorem lookupKeys_congr {r r2 : Row} : ∀ (ks : List String),
    (∀ k ∈ ks, r2.lookup k = r.lookup k) →
    lookupKeys r2 ks = lookupKeys r ks := by
  intro ks
  induction ks with
  | nil => intro _; rfl
  | cons k rest ih =>
    intro h
    simp only [lookupKeys]
    rw [h k (by simp), ih (fun k2 hk2 => h k2 (by simp [hk2]))]

theorem get_key_congr {r r2 : Row} {ks : List String}
    (h : ∀ k ∈ ks, r2.lookup k = r.lookup k) :
    get_key r2 ks = get_key r ks := by
  unfold get_key
  rw [lookupKeys_congr ks h]

theorem get_key_ok_present {r : Row} {ks : List String} {K : Key}
    (h : get_key r ks = .ok K) : ∀ k ∈ ks, ∃ v, r.lookup k = some v := by
  intro k hk
  cases hl : r.lookup k with
  | some v => exact ⟨v, rfl⟩
  | none =>
    obtain ⟨k2, _, _, herr⟩ := get_key_error_missing ⟨k, hk, hl⟩
    rw [herr] at h
    cases h

theorem get_key_lookupKeys {r : Row} {ks : List String} {K : Key}
    (h : get_key r ks = .ok K) : lookupKeys r ks = .ok K := by
  revert h
  unfold get_key
  cases hl : lookupKeys r ks with
  | error e =>
    simp only [Except.bind, Bind.bind]
    intro h
    cases h
  | ok vals =>
    simp only [Except.bind, Bind.bind]
    by_cases hh : vals.all Value.hashable = true
    · rw [if_pos hh]
      intro h
      injection h with h
      rw [h]
    · rw [if_neg hh]
      intro h
      simp [throw, throwThe, MonadExceptOf.throw] at h

theorem lookupK_mem_of_some {α : Type} {d : KDict α} {K : Key} {v : α}
    (h : lookupK d K = some v) :
    ∃ K2, (K2, v) ∈ (show List (Key × α) from d) ∧ keyEq K2 K = true := by
  induction d with
  | nil => cases h
  | cons e es ih =>
    revert h
    show (if keyEq e.1 K then some e.2 else lookupK es K) = some v → _
    by_cases he : keyEq e.1 K = true
    · rw [if_pos he]
      intro h
      injection h with h
      subst h
      exact ⟨e.1, List.mem_cons_self _ _, he⟩
    · rw [if_neg he]
      intro h
      obtain ⟨K2, hm, hk⟩ := ih h
      exact ⟨K2, List.mem_cons_of_mem _ hm, hk⟩

theorem textualizeRow_lookup (r : Row) (k : String) :
    (textualizeRow r).lookup k =
      (r.lookup k).map fun v => vstr (pyStr v) := by
  induction r with
  | nil => rfl
  | cons e es ih =>
    unfold textualizeRow at ih ⊢
    by_cases he : e.1 = k <;> simp [Row.lookup, he, ih]

theorem textualizeRow_keys (r : Row) : (textualizeRow r).keys = r.keys := by
  unfold textualizeRow Row.keys
  simp

theorem RowWf_textualizeRow {r : Row} (h : RowWf r) :
    RowWf (textualizeRow r) := by
  unfold RowWf
  rw [textualizeRow_keys]
  exact h

theorem foldl_applyUpdate_step_lookup :
    ∀ (l : List (String × Value)) (acc : Row) (k : String),
      (l.map Prod.fst).Nodup →
      ((l.foldl (fun acc kv =>
          if kv.1 ∈ reserved_keys then acc.insert kv.1 kv.2
          else acc.insert kv.1 (vstr (pyStr kv.2))) acc).lookup k) =
        match Row.lookup (show Row from l) k with
        | some v => some (if k ∈ reserved_keys then v else vstr (pyStr v))
        | Option.none => acc.lookup k := by
  intro l
  induction l with
  | nil => intro acc k _; rfl
  | cons e rest ih =>
    intro acc k hnd
    rcases List.nodup_cons.1 hnd with ⟨hek, hrest⟩
    simp only [List.foldl_cons]
    rw [ih _ k hrest]
    by_cases hk : e.1 = k
    · subst hk
      have hrk : Row.lookup (show Row from rest) e.1 = Option.none :=
        Row.lookup_eq_none_iff.2 (by simpa [Row.keys] using hek)
      have hlk : Row.lookup (show Row from e :: rest) e.1 = some e.2 := by
        show (if e.1 = e.1 then some e.2 else _) = _
        rw [if_pos rfl]
      rw [hrk, hlk]
      dsimp only
      by_cases hres : e.1 ∈ reserved_keys
      · rw [if_pos hres, if_pos hres]
        simp [Row.lookup_insert]
      · rw [if_neg hres, if_neg hres]
        simp [Row.lookup_insert]
    · have hlk : Row.lookup (show Row from e :: rest) k =
          Row.lookup (show Row from rest) k := by
        show (if e.1 = k then some e.2 else _) = _
        rw [if_neg hk]
      rw [hlk]
      have hstep : (if e.1 ∈ reserved_keys then acc.insert e.1 e.2
          else acc.insert e.1 (vstr (pyStr e.2))).lookup k = acc.lookup k := by
        by_cases hres : e.1 ∈ reserved_keys
        · rw [if_pos hres]
          simp [Row.lookup_insert, hk]
        · rw [if_neg hres]
          simp [Row.lookup_insert, hk]
      cases hr : Row.lookup (show Row from rest) k with
      | none => rw [hstep]
      | some v => rfl

theorem applyUpdate_lookup {t p : Row} (hwp : RowWf p) (k : String) :
    (applyUpdate t p).lookup k =
      match p.lookup k with
      | some v => some (if k ∈ reserved_keys then v else vstr (pyStr v))
      | Option.none => t.lookup k := by
  unfold applyUpdate
  exact foldl_applyUpdate_step_lookup _ t k hwp

theorem RowWf_foldl_applyUpdate_step :
    ∀ (l : List (String × Value)) (acc : Row), RowWf acc →
      RowWf (l.foldl (fun acc kv =>
        if kv.1 ∈ reserved_keys then acc.insert kv.1 kv.2
        else acc.insert kv.1 (vstr (pyStr kv.2))) acc) := by
  intro l
  induction l with
  | nil => intro acc h; exact h
  | cons e rest ih =>
    intro acc h
    simp only [List.foldl_cons]
    apply ih
    by_cases hres : e.1 ∈ reserved_keys
    · rw [if_pos hres]
      exact RowWf_insert h _ _
    · rw [if_neg hres]
      exact RowWf_insert h _ _

theorem RowWf_applyUpdate {t : Row} (p : Row) (h : RowWf t) :
    RowWf (applyUpdate t p) := by
  unfold applyUpdate
  exact RowWf_foldl_applyUpdate_step _ t h

theorem RowWf_foldl_updStep1 {m : Row} :
    ∀ (l : List (String × Value)) (b : UpdateBuild), RowWf b.new_data →
      RowWf ((l.foldl (updStep1 m) b).new_data) := by
  intro l
  induction l with
  | nil => intro b h; exact h
  | cons e rest ih =>
    intro b h
    simp only [List.foldl_cons]
    apply ih
    unfold updStep1
    by_cases hres : e.1 ∈ reserved_keys
    · rw [if_pos hres]
      exact RowWf_insert h _ _
    · rw [if_neg hres]
      cases hm : m.lookup e.1 with
      | none => exact h
      | some nv =>
        dsimp only
        by_cases hs : strNeValue (pyStr nv) e.2 = true
        · rw [if_pos hs]
          exact RowWf_insert h _ _
        · rw [if_neg hs]
          exact h

theorem RowWf_foldl_updStep2 {t : Row} :
    ∀ (l : List (String × Value)) (b : UpdateBuild), RowWf b.new_data →
      RowWf ((l.foldl (updStep2 t) b).new_data) := by
  intro l
  induction l with
  | nil => intro b h; exact h
  | cons e rest ih =>
    intro b h
    simp only [List.foldl_cons]
    apply ih
    unfold updStep2
    by_cases ht : t.hasKey e.1 = true
    · rw [if_pos ht]
      exact h
    · rw [if_neg ht]
      exact RowWf_insert h _ _

theorem RowWf_buildUpdate_new_data (t m : Row) :
    RowWf (buildUpdate t m).new_data := by
  unfold buildUpdate
  apply RowWf_foldl_updStep2
  apply RowWf_foldl_updStep1
  exact List.nodup_nil

theorem keyEq_lookupKeys_component {r t : Row} :
    ∀ (ks : List String) (K1 K2 : Key),
      lookupKeys r ks = .ok K1 → lookupKeys t ks = .ok K2 →
      keyEq K1 K2 = true →
      ∀ k ∈ ks, ∃ v w, r.lookup k = some v ∧ t.lookup k = some w ∧
        pyEq v w = true := by
  intro ks
  induction ks with
  | nil => intro K1 K2 _ _ _ k hk; cases hk
  | cons k0 rest ih =>
    intro K1 K2 h1 h2 he k hk
    simp only [lookupKeys] at h1 h2
    cases hr : r.lookup k0 with
    | none => rw [hr] at h1; cases h1
    | some v0 =>
      rw [hr] at h1
      cases ht : t.lookup k0 with
      | none => rw [ht] at h2; cases h2
      | some w0 =>
        rw [ht] at h2
        cases hlr : lookupKeys r rest with
        | error e => rw [hlr] at h1; simp [Except.map] at h1
        | ok l1 =>
          rw [hlr] at h1
          simp only [Except.map] at h1
          injection h1 with h1
          subst h1
          cases hlt : lookupKeys t rest with
          | error e => rw [hlt] at h2; simp [Except.map] at h2
          | ok l2 =>
            rw [hlt] at h2
            simp only [Except.map] at h2
            injection h2 with h2
            subst h2
            simp only [keyEq, Bool.and_eq_true] at he
            rcases List.mem_cons.1 hk with rfl | hk2
            · exact ⟨v0, w0, hr, ht, he.1⟩
            · exact ih l1 l2 hlr hlt he.2 k hk2

theorem buildUpdate_textualize_flag {r : Row} (hwr : RowWf r) :
    (buildUpdate (textualizeRow r) r).for_update = false := by
  rw [buildUpdate_flag]
  have h1 : (show List (String × Value) from textualizeRow r).any
      (stageCond r) = false := by
    apply List.any_eq_false.2
    intro kv hkv
    unfold textualizeRow at hkv
    obtain ⟨kv0, hkv0, heq⟩ := List.mem_map.1 hkv
    subst heq
    unfold stageCond
    by_cases hres : kv0.1 ∈ reserved_keys
    · rw [contains_eq_true_iff_mem.2 hres]
      simp
    · rw [contains_eq_false_iff_not_mem.2 hres]
      rw [Row.lookup_eq_some_of_mem hwr hkv0]
      simp [strNeValue, vstr]
  have h2 : (show List (String × Value) from r).any
      (newCond (textualizeRow r)) = false := by
    apply List.any_eq_false.2
    intro kv hkv
    unfold newCond
    have hk : (textualizeRow r).hasKey kv.1 = true := by
      unfold Row.hasKey
      rw [textualizeRow_lookup, Row.lookup_eq_some_of_mem hwr hkv]
      rfl
    rw [hk]
    simp
  rw [h1, h2]
  rfl

theorem buildUpdate_applyUpdate_flag {t m : Row} (hwt : RowWf t)
    (hwm : RowWf m) :
    (buildUpdate (applyUpdate t (buildUpdate t m).new_data) m).for_update
      = false := by
  have hwp : RowWf (buildUpdate t m).new_data := RowWf_buildUpdate_new_data t m
  have hwt2 : RowWf (applyUpdate t (buildUpdate t m).new_data) :=
    RowWf_applyUpdate _ hwt
  rw [buildUpdate_flag]
  have h1 : (show List (String × Value) from
      applyUpdate t (buildUpdate t m).new_data).any (stageCond m) = false := by
    apply List.any_eq_false.2
    intro kv hkv
    have hlv : (applyUpdate t (buildUpdate t m).new_data).lookup kv.1
        = some kv.2 := Row.lookup_eq_some_of_mem hwt2 hkv
    rw [applyUpdate_lookup hwp kv.1] at hlv
    rw [buildUpdate_lookup hwt hwm kv.1] at hlv
    unfold stageCond
    by_cases hres : kv.1 ∈ reserved_keys
    · rw [contains_eq_true_iff_mem.2 hres]
      simp
    · rw [contains_eq_false_iff_not_mem.2 hres]
      cases hm : m.lookup kv.1 with
      | none => simp
      | some nv =>
        rw [hm] at hlv
        cases htl : t.lookup kv.1 with
        | none =>
          rw [htl] at hlv
          dsimp only at hlv
          rw [if_neg hres] at hlv
          injection hlv with hlv
          rw [← hlv]
          simp [strNeValue, vstr]
        | some tv =>
          rw [htl] at hlv
          dsimp only at hlv
          rw [if_neg hres] at hlv
          by_cases hs : strNeValue (pyStr nv) tv = true
          · rw [if_pos hs] at hlv
            dsimp only at hlv
            rw [if_neg hres] at hlv
            injection hlv with hlv
            rw [← hlv]
            simp [strNeValue, vstr]
          · rw [if_neg hs] at hlv
            dsimp only at hlv
            injection hlv with hlv
            rw [← hlv]
            simpa using hs
  have h2 : (show List (String × Value) from m).any
      (newCond (applyUpdate t (buildUpdate t m).new_data)) = false := by
    apply List.any_eq_false.2
    intro kv hkv
    have hml : m.lookup kv.1 = some kv.2 := Row.lookup_eq_some_of_mem hwm hkv
    unfold newCond
    have hk : (applyUpdate t (buildUpdate t m).new_data).hasKey kv.1
        = true := by
      unfold Row.hasKey
      rw [applyUpdate_lookup hwp kv.1]
      cases hpl : (buildUpdate t m).new_data.lookup kv.1 with
      | some v => rfl
      | none =>
        rw [buildUpdate_lookup hwt hwm kv.1] at hpl
        cases htl : t.lookup kv.1 with
        | some tv =>
          dsimp only
          rfl
        | none =>
          rw [htl, hml] at hpl
          dsimp only at hpl
          cases hpl
    rw [hk]
    simp
  rw [h1, h2]
  rfl

theorem textualize_get_key {r : Row} {mks : List String} {K : Key}
    (hg : get_key r mks = .ok K)
    (hstr : ∀ k ∈ mks, ∀ v, r.lookup k = some v → ∃ s2, v = vstr s2) :
    get_key (textualizeRow r) mks = .ok K := by
  have hcong : ∀ k ∈ mks, (textualizeRow r).lookup k = r.lookup k := by
    intro k hk
    obtain ⟨v, hv⟩ := get_key_ok_present hg k hk
    obtain ⟨s2, rfl⟩ := hstr k hk v hv
    rw [textualizeRow_lookup, hv]
    rfl
  rw [get_key_congr hcong]
  exact hg

theorem applyUpdate_matchkey_get_key {t m : Row} {mks : List String}
    {kt K : Key}
    (hwt : RowWf t) (hwm : RowWf m)
    (hgt : get_key t mks = .ok kt) (hgm : get_key m mks = .ok K)
    (hke : keyEq K kt = true)
    (hstr : ∀ k ∈ mks, ∀ v, m.lookup k = some v → ∃ s2, v = vstr s2) :
    get_key (applyUpdate t (buildUpdate t m).new_data) mks = .ok kt := by
  have hcong : ∀ k ∈ mks,
      (applyUpdate t (buildUpdate t m).new_data).lookup k = t.lookup k := by
    intro k hk
    obtain ⟨v, w, hmv, htw, hpe⟩ := keyEq_lookupKeys_component mks K kt
      (get_key_lookupKeys hgm) (get_key_lookupKeys hgt) hke k hk
    obtain ⟨s2, rfl⟩ := hstr k hk v hmv
    have hw : w = vstr s2 := pyEq_vstr_inv hpe
    subst hw
    rw [applyUpdate_lookup (RowWf_buildUpdate_new_data t m) k]
    rw [buildUpdate_lookup hwt hwm k]
    rw [htw, hmv]
    by_cases hres : k ∈ reserved_keys
    · dsimp only
      rw [if_pos hres]
      dsimp only
      rw [if_pos hres]
    · dsimp only
      rw [if_neg hres]
      have hs : strNeValue (pyStr (vstr s2)) (vstr s2) = false := by
        simp [strNeValue, vstr, pyStr, Atom.pystr]
      rw [hs]
      simp
  rw [get_key_congr hcong]
  exact hgt

theorem targetKeysOf_mem {mks : List String} :
    ∀ {T : List Row} {Ks : List Key}, targetKeysOf mks T = .ok Ks →
      ∀ t ∈ T, ∃ kt, (t, kt) ∈ T.zip Ks ∧ get_key t mks = .ok kt ∧
        kt ∈ Ks := by
  intro T
  induction T with
  | nil => intro Ks _ t ht; cases ht
  | cons t0 rest ih =>
    intro Ks h t ht
    unfold targetKeysOf at h
    cases hk0 : get_key t0 mks with
    | error e => rw [hk0] at h; simp [Except.bind, Bind.bind] at h
    | ok k0 =>
      rw [hk0] at h
      simp only [Except.bind, Bind.bind] at h
      cases hrest : targetKeysOf mks rest with
      | error e => rw [hrest] at h; simp [Except.bind, Bind.bind] at h
      | ok ks =>
        rw [hrest] at h
        simp only [pure, Except.pure] at h
        injection h with h
        subst h
        rw [List.zip_cons_cons]
        rcases List.mem_cons.1 ht with rfl | ht2
        · exact ⟨k0, by simp, hk0, by simp⟩
        · obtain ⟨kt, hz, hg, hm⟩ := ih hrest t ht2
          exact ⟨kt, by simp [hz], hg, by simp [hm]⟩

theorem targetKeysOf_pairwise {mks : List String} :
    ∀ {T : List Row} {Ks : List Key}, targetKeysOf mks T = .ok Ks →
      Ks.Pairwise (fun a b => keyEq a b = false) →
      T.Pairwise (fun t1 t2 => ∀ k1 k2, get_key t1 mks = .ok k1 →
        get_key t2 mks = .ok k2 → keyEq k1 k2 = false) := by
  intro T
  induction T with
  | nil => intro Ks _ _; exact List.Pairwise.nil
  | cons t0 rest ih =>
    intro Ks h hpw
    unfold targetKeysOf at h
    cases hk0 : get_key t0 mks with
    | error e => rw [hk0] at h; simp [Except.bind, Bind.bind] at h
    | ok k0 =>
      rw [hk0] at h
      simp only [Except.bind, Bind.bind] at h
      cases hrest : targetKeysOf mks rest with
      | error e => rw [hrest] at h; simp [Except.bind, Bind.bind] at h
      | ok ks =>
        rw [hrest] at h
        simp only [pure, Except.pure] at h
        injection h with h
        subst h
        rcases hpw with _ | ⟨hhead, htail⟩
        refine List.Pairwise.cons ?_ (ih hrest htail)
        intro t2 ht2 k1 k2 hg1 hg2
        rw [hk0] at hg1
        injection hg1 with hg1
        subst hg1
        obtain ⟨kt, _, hg, hmem⟩ := targetKeysOf_mem hrest t2 ht2
        rw [hg] at hg2
        injection hg2 with hg2
        subst hg2
        exact hhead kt hmem

theorem targetStep_src {mks : List String} {acc acc2 : TargetAcc} {t : Row}
    (h : targetStep mks acc t = .ok acc2) :
    (show List (Key × Row) from acc2.src).Sublist
      (show List (Key × Row) from acc.src) := by
  cases hk : get_key t mks with
  | error e => rw [targetStep_error hk] at h; cases h
  | ok kt =>
    rw [targetStep_ok hk] at h
    injection h with h
    subst h
    cases hl : lookupK acc.src kt with
    | none => exact List.Sublist.refl _
    | some m =>
      dsimp only
      by_cases hf : (buildUpdate t m).for_update = true
      · rw [if_pos hf]
        exact popK_sublist _ _
      · rw [if_neg hf]
        exact popK_sublist _ _

theorem targetFold_src_sublist {mks : List String} :
    ∀ (T : List Row) (acc ta : TargetAcc),
      T.foldlM (targetStep mks) acc = .ok ta →
      (show List (Key × Row) from ta.src).Sublist
        (show List (Key × Row) from acc.src) := by
  intro T
  induction T with
  | nil =>
    intro acc ta h
    rw [List.foldlM_nil] at h
    simp only [pure, Except.pure] at h
    injection h with h
    subst h
    exact List.Sublist.refl _
  | cons t rest ih =>
    intro acc ta h
    rw [List.foldlM_cons] at h
    obtain ⟨acc1, hstep, hfold⟩ := except_bind_ok h
    exact (ih acc1 ta hfold).trans (targetStep_src hstep)

theorem targetFold_drain {mks : List String} :
    ∀ (rows : List Row) (acc : TargetAcc),
      KWf acc.src →
      (∀ t ∈ rows, ∃ k r, get_key t mks = .ok k ∧
        lookupK acc.src k = some r ∧ (buildUpdate t r).for_update = false) →
      rows.Pairwise (fun t1 t2 => ∀ k1 k2, get_key t1 mks = .ok k1 →
        get_key t2 mks = .ok k2 → keyEq k1 k2 = false) →
      (∀ e ∈ (show List (Key × Row) from acc.src), ∃ t ∈ rows, ∃ k,
        get_key t mks = .ok k ∧ keyEq k e.1 = true) →
      ∃ ta, rows.foldlM (targetStep mks) acc = .ok ta ∧
        ta.src = ∅ ∧ ta.to_update = acc.to_update ∧
        ta.to_delete = acc.to_delete := by
  intro rows
  induction rows with
  | nil =>
    intro acc hwf hrows hpw hcov
    refine ⟨acc, rfl, ?_, rfl, rfl⟩
    cases hsl : (show List (Key × Row) from acc.src) with
    | nil => exact hsl
    | cons e es =>
      obtain ⟨t, ht, _⟩ := hcov e (by rw [hsl]; simp)
      cases ht
  | cons t0 rest ih =>
    intro acc hwf hrows hpw hcov
    obtain ⟨k0, r0, hg0, hl0, hf0⟩ := hrows t0 (by simp)
    rcases hpw with _ | ⟨hhead, htail⟩
    rw [List.foldlM_cons, targetStep_ok hg0, hl0]
    dsimp only
    rw [if_neg (by simp [hf0])]
    simp only [Except.bind, Bind.bind]
    have hkey0 : ∀ t2 ∈ rest, ∀ k2, get_key t2 mks = .ok k2 →
        keyEq k0 k2 = false := by
      intro t2 ht2 k2 hg2
      exact hhead t2 ht2 k0 k2 hg0 hg2
    obtain ⟨ta, hfold, hsrc, hupd, hdel⟩ := ih
      { acc with target_keys := setUnion acc.target_keys t0.keys
                 src := (popK acc.src k0).2 }
      (KWf_popK hwf k0)
      (by
        intro t ht
        obtain ⟨k, r, hg, hl, hf⟩ := hrows t (by simp [ht])
        refine ⟨k, r, hg, ?_, hf⟩
        show lookupK (popK acc.src k0).2 k = some r
        rw [lookupK_popK_ne (hkey0 t ht k hg)]
        exact hl)
      htail
      (by
        intro e he
        have he2 : e ∈ (show List (Key × Row) from acc.src) :=
          (popK_sublist acc.src k0).subset he
        obtain ⟨t, ht, k, hg, hke⟩ := hcov e he2
        rcases List.mem_cons.1 ht with rfl | ht2
        · rw [hg0] at hg
          injection hg with hg
          subst hg
          have hnone : lookupK (popK acc.src k0).2 e.1 = Option.none :=
            lookupK_popK_eq hwf hke
          have hsome : lookupK (popK acc.src k0).2 e.1 = some e.2 :=
            lookupK_of_mem (KWf_popK hwf k0) he
          rw [hnone] at hsome
          cases hsome
        · exact ⟨t, ht2, k, hg, hke⟩)
    exact ⟨ta, hfold, hsrc, hupd, hdel⟩

theorem applyMergeActions_eq (ma : MergeActions) (target_data : List Row) :
    applyMergeActions ma target_data =
      target_data.filterMap (keepRow ma) ++
        (show List (Key × Row) from ma.to_insert).map
          (fun e => textualizeRow e.2) := rfl

theorem targetKeysOf_mem_key {mks : List String} :
    ∀ {T : List Row} {Ks : List Key}, targetKeysOf mks T = .ok Ks →
      ∀ kt ∈ Ks, ∃ t ∈ T, (t, kt) ∈ T.zip Ks ∧
        get_key t mks = .ok kt := by
  intro T
  induction T with
  | nil =>
    intro Ks h kt hkt
    injection h with h
    subst h
    cases hkt
  | cons t0 rest ih =>
    intro Ks h kt hkt
    unfold targetKeysOf at h
    cases hk0 : get_key t0 mks with
    | error e => rw [hk0] at h; simp [Except.bind, Bind.bind] at h
    | ok k0 =>
      rw [hk0] at h
      simp only [Except.bind, Bind.bind] at h
      cases hrest : targetKeysOf mks rest with
      | error e => rw [hrest] at h; simp [Except.bind, Bind.bind] at h
      | ok ks =>
        rw [hrest] at h
        simp only [pure, Except.pure] at h
        injection h with h
        subst h
        rw [List.zip_cons_cons]
        rcases List.mem_cons.1 hkt with rfl | hkt2
        · exact ⟨t0, by simp, by simp, hk0⟩
        · obtain ⟨t, htT, hz, hg⟩ := ih hrest kt hkt2
          exact ⟨t, by simp [htT], by simp [hz], hg⟩

/-- C9 (amended): under the stated side conditions — the diff succeeds, the
target composite keys are pairwise distinct, target rows have distinct field
names, and every normalized source row stores string values in its match-key
fields — re-running the diff against the applied result yields empty
`to_insert`, `to_update` and `to_delete`.  (Non-string match-key values
refute the unconditional claim: an inserted row is stored textually, so its
recomputed key no longer equals the source key.) -/
theorem C9_fixed_point (S T : List Row) (mk : Option (List String))
    (slkO : Option String) (skO : Option (List String)) (ma : MergeActions)
    (Ks : List Key)
    (h : prep_data_for_merge S T mk slkO skO = .ok ma)
    (hKs : targetKeysOf (sortStrings (mk.getD ["label"])) T = .ok Ks)
    (hpwT : Ks.Pairwise fun a b => keyEq a b = false)
    (hwT : ∀ t ∈ T, RowWf t)
    (hstr : ∀ s ∈ S, ∀ r, normalizeRow (slkO.getD "label") skO s = .ok r →
      ∀ k ∈ sortStrings (mk.getD ["label"]), ∀ v, r.lookup k = some v →
        ∃ s2, v = vstr s2) :
    ∃ ma2, prep_data_for_merge S (applyMergeActions ma T) mk slkO skO
        = .ok ma2 ∧
      ma2.to_insert = ∅ ∧ ma2.to_update = ∅ ∧ ma2.to_delete = ∅ := by
  have hg : sourceKeysGuard (slkO.getD "label") skO = false := by
    cases hgc : sourceKeysGuard (slkO.getD "label") skO
    · rfl
    · rw [prep_guard_error hgc] at h
      cases h
  obtain ⟨sa, ta, hsa, hta, hma⟩ := prep_ok_inv h
  obtain ⟨l, hsl, hsrc, hpwS, hcount, hskeys⟩ := prepSource_ok_inv hsa
  have hwfl : KWf (show KDict Row from l) := KWf_of_pairwise_keys hpwS
  set acc0 : TargetAcc :=
    { src := sa.src, to_update := ∅, to_delete := ∅, target_keys := [] }
    with hacc0
  have hsrc0 : acc0.src = (show KDict Row from l) := by
    show sa.src = _
    exact hsrc
  have hwf0 : KWf acc0.src := by rw [hsrc0]; exact hwfl
  obtain ⟨ta2, hfold2, h1, h2, h3, _⟩ :=
    targetFold_master (sortStrings (mk.getD ["label"])) T Ks acc0 hKs hpwT hwf0
  rw [hta] at hfold2
  injection hfold2 with hfold2
  subst hfold2
  have hl_entry : ∀ e ∈ l, RowWf e.2 ∧
      get_key e.2 (sortStrings (mk.getD ["label"])) = .ok e.1 ∧
      ∀ k ∈ sortStrings (mk.getD ["label"]), ∀ v, e.2.lookup k = some v →
        ∃ s2, v = vstr s2 := by
    intro e he
    obtain ⟨s, hsS, hse⟩ := sourceList_mem_bwd hsl e he
    obtain ⟨r, hn, hgk, hr⟩ := sourceEntry_ok_inv hse
    refine ⟨?_, ?_, ?_⟩
    · rw [hr]
      exact normalizeRow_wf hn
    · rw [hr]
      exact hgk
    · intro k hk v hv
      rw [hr] at hv
      exact hstr s hsS r hn k hk v hv
  have hsubta := targetFold_src_sublist T acc0 ta hta
  have hta_sub : ∀ e ∈ (show List (Key × Row) from ta.src), e ∈ l := by
    intro e he
    have h5 := hsubta.subset he
    rw [hsrc0] at h5
    exact h5
  have hwfta : KWf ta.src := by
    have h5 : KWf acc0.src := hwf0
    exact List.Pairwise.sublist hsubta h5
  have hB : ∀ e ∈ (show List (Key × Row) from ta.src),
      get_key (textualizeRow e.2) (sortStrings (mk.getD ["label"]))
        = .ok e.1 ∧
      lookupK acc0.src e.1 = some e.2 ∧
      (buildUpdate (textualizeRow e.2) e.2).for_update = false := by
    intro e he
    obtain ⟨hwfe, hge, hstre⟩ := hl_entry e (hta_sub e he)
    refine ⟨textualize_get_key hge hstre, ?_, buildUpdate_textualize_flag hwfe⟩
    rw [hsrc0]
    exact lookupK_of_mem hwfl (hta_sub e he)
  have hBnomatch : ∀ e ∈ (show List (Key × Row) from ta.src),
      ∀ kt ∈ Ks, keyEq kt e.1 = false := by
    intro e he kt hkt
    have hlk : lookupK ta.src e.1 = some e.2 := lookupK_of_mem hwfta he
    rw [h1 e.1] at hlk
    by_cases hany : (Ks.any fun kt2 => keyEq kt2 e.1) = true
    · rw [if_pos hany] at hlk
      cases hlk
    · cases hke : keyEq kt e.1
      · rfl
      · exact absurd (List.any_eq_true.2 ⟨kt, hkt, by simp [hke]⟩) hany
  have hA : ∀ t ∈ T, ∀ t', keepRow ma t = some t' →
      ∃ kt m, get_key t (sortStrings (mk.getD ["label"])) = .ok kt ∧
        kt ∈ Ks ∧
        get_key t' (sortStrings (mk.getD ["label"])) = .ok kt ∧
        lookupK acc0.src kt = some m ∧
        (buildUpdate t' m).for_update = false := by
    intro t ht t' hkeep
    obtain ⟨kt, hz, hgt, hktKs⟩ := targetKeysOf_mem hKs t ht
    have hfind := find?_zip_self T Ks hpwT t hz
    unfold keepRow at hkeep
    rw [hma] at hkeep
    dsimp only at hkeep
    rw [hgt] at hkeep
    dsimp only at hkeep
    have hdel3 := h3 kt
    rw [hfind] at hdel3
    dsimp only at hdel3
    cases hsrck : lookupK acc0.src kt with
    | none =>
      rw [hsrck] at hdel3
      dsimp only at hdel3
      rw [show containsK ta.to_delete kt = true from by
        unfold containsK; rw [hdel3]; rfl] at hkeep
      simp at hkeep
    | some m =>
      rw [hsrck] at hdel3
      dsimp only at hdel3
      have hcont : containsK ta.to_delete kt = false := by
        unfold containsK
        rw [hdel3]
        rfl
      rw [hcont] at hkeep
      rw [if_neg Bool.false_ne_true] at hkeep
      have hupd2 := h2 kt
      rw [hfind] at hupd2
      dsimp only at hupd2
      rw [hsrck] at hupd2
      dsimp only at hupd2
      have hml : lookupK (show KDict Row from l) kt = some m := by
        rw [← hsrc0]
        exact hsrck
      obtain ⟨K2, hK2mem, hK2eq⟩ := lookupK_mem_of_some hml
      obtain ⟨hwfm, hgm, hstrm⟩ := hl_entry (K2, m) hK2mem
      by_cases hflag : (buildUpdate t m).for_update = true
      · rw [if_pos hflag] at hupd2
        rw [hupd2] at hkeep
        dsimp only at hkeep
        injection hkeep with hkeep
        subst hkeep
        refine ⟨kt, m, hgt, hktKs, ?_, hsrck, ?_⟩
        · exact applyUpdate_matchkey_get_key (hwT t ht) hwfm hgt hgm
            hK2eq hstrm
        · exact buildUpdate_applyUpdate_flag (hwT t ht) hwfm
      · rw [if_neg hflag] at hupd2
        have hnone : lookupK ta.to_update kt = Option.none := by
          rw [hupd2]
          rfl
        rw [hnone] at hkeep
        dsimp only at hkeep
        injection hkeep with hkeep
        subst hkeep
        exact ⟨kt, m, hgt, hktKs, hgt, hsrck, by simpa using hflag⟩
  have Hrows : ∀ t2 ∈ T.filterMap (keepRow ma) ++
      (show List (Key × Row) from ta.src).map (fun e => textualizeRow e.2),
      ∃ k r, get_key t2 (sortStrings (mk.getD ["label"])) = .ok k ∧
        lookupK acc0.src k = some r ∧
        (buildUpdate t2 r).for_update = false := by
    intro t2 ht2
    rcases List.mem_append.1 ht2 with hA2 | hB2
    · obtain ⟨t, ht, hkeep⟩ := List.mem_filterMap.1 hA2
      obtain ⟨kt, m, _, _, hgt2, hlk, hfl⟩ := hA t ht t2 hkeep
      exact ⟨kt, m, hgt2, hlk, hfl⟩
    · obtain ⟨e, he, rfl⟩ := List.mem_map.1 hB2
      obtain ⟨hg2, hlk, hfl⟩ := hB e he
      exact ⟨e.1, e.2, hg2, hlk, hfl⟩
  have Hpw : (T.filterMap (keepRow ma) ++
      (show List (Key × Row) from ta.src).map
        (fun e => textualizeRow e.2)).Pairwise
      (fun t1 t2 => ∀ k1 k2,
        get_key t1 (sortStrings (mk.getD ["label"])) = .ok k1 →
        get_key t2 (sortStrings (mk.getD ["label"])) = .ok k2 →
        keyEq k1 k2 = false) := by
    rw [List.pairwise_append]
    refine ⟨?_, ?_, ?_⟩
    · rw [List.pairwise_filterMap]
      have hTpw := targetKeysOf_pairwise hKs hpwT
      refine hTpw.imp_of_mem ?_
      intro a b ha hb hr t1 ht1 t2 ht2 k1 k2 hg1 hg2
      obtain ⟨kta, _, hga, _, hga2, _, _⟩ := hA a ha t1 ht1
      obtain ⟨ktb, _, hgb, _, hgb2, _, _⟩ := hA b hb t2 ht2
      rw [hga2] at hg1
      injection hg1 with hg1
      subst hg1
      rw [hgb2] at hg2
      injection hg2 with hg2
      subst hg2
      exact hr kta ktb hga hgb
    · rw [List.pairwise_map]
      have hpwta : (show List (Key × Row) from ta.src).Pairwise
          (fun e1 e2 => keyEq e1.1 e2.1 = false) := hwfta
      refine hpwta.imp_of_mem ?_
      intro e1 e2 he1 he2 hke k1 k2 hg1 hg2
      obtain ⟨hga, _, _⟩ := hB e1 he1
      obtain ⟨hgb, _, _⟩ := hB e2 he2
      rw [hga] at hg1
      injection hg1 with hg1
      subst hg1
      rw [hgb] at hg2
      injection hg2 with hg2
      subst hg2
      exact hke
    · intro t1 ht1 t2 ht2 k1 k2 hg1 hg2
      obtain ⟨t, ht, hkeep⟩ := List.mem_filterMap.1 ht1
      obtain ⟨kt, m, _, hktKs, hgt2, _, _⟩ := hA t ht t1 hkeep
      obtain ⟨e, he, rfl⟩ := List.mem_map.1 ht2
      obtain ⟨hg2e, _, _⟩ := hB e he
      rw [hgt2] at hg1
      injection hg1 with hg1
      subst hg1
      rw [hg2e] at hg2
      injection hg2 with hg2
      subst hg2
      exact hBnomatch e he kt hktKs
  have Hcov : ∀ e ∈ (show List (Key × Row) from acc0.src),
      ∃ t2 ∈ T.filterMap (keepRow ma) ++
        (show List (Key × Row) from ta.src).map
          (fun e => textualizeRow e.2), ∃ k,
        get_key t2 (sortStrings (mk.getD ["label"])) = .ok k ∧
        keyEq k e.1 = true := by
    intro e he
    have hel : e ∈ l := by
      rw [hsrc0] at he
      exact he
    by_cases hany : (Ks.any fun kt => keyEq kt e.1) = true
    · obtain ⟨kt, hktKs, hke⟩ := List.any_eq_true.1 hany
      have hke2 : keyEq kt e.1 = true := by simpa using hke
      obtain ⟨t, htT, hz, hgt⟩ := targetKeysOf_mem_key hKs kt hktKs
      have hsrck : lookupK acc0.src kt = some e.2 := by
        rw [lookupK_congr hke2, hsrc0]
        exact lookupK_of_mem hwfl hel
      have hdel3 := h3 kt
      rw [find?_zip_self T Ks hpwT t hz] at hdel3
      dsimp only at hdel3
      rw [hsrck] at hdel3
      dsimp only at hdel3
      have hcont : containsK ta.to_delete kt = false := by
        unfold containsK
        rw [hdel3]
        rfl
      have hkeep : ∃ t2, keepRow ma t = some t2 := by
        unfold keepRow
        rw [hma]
        dsimp only
        rw [hgt]
        dsimp only
        rw [hcont]
        rw [if_neg Bool.false_ne_true]
        cases lookupK ta.to_update kt with
        | some p => exact ⟨applyUpdate t p, rfl⟩
        | none => exact ⟨t, rfl⟩
      obtain ⟨t2, ht2⟩ := hkeep
      obtain ⟨kt3, m, hgt3, _, hgt2, _, _⟩ := hA t htT t2 ht2
      rw [hgt] at hgt3
      injection hgt3 with hgt3
      subst hgt3
      exact ⟨t2, List.mem_append.2 (Or.inl (List.mem_filterMap.2
        ⟨t, htT, ht2⟩)), kt, hgt2, hke2⟩
    · have hsome : lookupK ta.src e.1 = some e.2 := by
        rw [h1 e.1, if_neg hany, hsrc0]
        exact lookupK_of_mem hwfl hel
      obtain ⟨K2, hK2mem, hK2eq⟩ := lookupK_mem_of_some hsome
      obtain ⟨hg2, _, _⟩ := hB (K2, e.2) hK2mem
      exact ⟨textualizeRow e.2, List.mem_append.2 (Or.inr (List.mem_map.2
        ⟨(K2, e.2), hK2mem, rfl⟩)), K2, hg2, hK2eq⟩
  obtain ⟨taD, hfoldD, hsrcD, hupdD, hdelD⟩ :=
    targetFold_drain _ acc0 hwf0 Hrows Hpw Hcov
  have hins : ma.to_insert = ta.src := by rw [hma]
  rw [prep_eq_of_guard hg, hsa]
  simp only [Except.bind, Bind.bind]
  rw [applyMergeActions_eq, hins, ← hacc0, hfoldD]
  refine ⟨_, rfl, hsrcD, ?_, ?_⟩
  · rw [hupdD]
  · rw [hdelD]

/-- C9 counterexample: with a non-string match-key value (postcode 2000),
applying the computed insert stores the value textually, so re-running the
diff matches nothing — it reports one insert and one delete instead of
empty sets, refuting the unconditional fixed-point claim. -/
theorem C9_counterexample :
    ((prep_data_for_merge [[("label", vstr "A"), ("postcode", vint 2000)]] []
        (some ["label", "postcode"]) Option.none Option.none).bind
      fun ma => (prep_data_for_merge
        [[("label", vstr "A"), ("postcode", vint 2000)]]
        (applyMergeActions ma []) (some ["label", "postcode"])
        Option.none Option.none).map
        fun ma2 => (lenK ma2.to_insert, lenK ma2.to_update,
          lenK ma2.to_delete)) = .ok (1, 0, 1) := by decide

/-- C9 witness: on an all-string dataset with one staged update, the diff of
the same source against the applied result is empty. -/
theorem C9_witness :
    ∃ ma2, prep_data_for_merge [[("label", vstr "A"), ("x", vstr "1")]]
        (applyMergeActions
          ⟨["label"], ∅,
            [([vstr "A"], [("label", vstr "A"), ("x", vstr "1")])], ∅,
            ["label", "x"], ["label", "x"], []⟩
          [[("label", vstr "A"), ("x", vstr "2")]])
        Option.none Option.none Option.none = .ok ma2 ∧
      ma2.to_insert = ∅ ∧ ma2.to_update = ∅ ∧ ma2.to_delete = ∅ := by
  apply C9_fixed_point
    [[("label", vstr "A"), ("x", vstr "1")]]
    [[("label", vstr "A"), ("x", vstr "2")]]
    Option.none Option.none Option.none
    ⟨["label"], ∅,
      [([vstr "A"], [("label", vstr "A"), ("x", vstr "1")])], ∅,
      ["label", "x"], ["label", "x"], []⟩
    [[vstr "A"]]
    (by decide) (by decide) (by decide) (by decide)
  intro s hs r hn k hk v hv
  have hs2 : s = [("label", vstr "A"), ("x", vstr "1")] := by
    rcases List.mem_cons.1 hs with rfl | h0
    · rfl
    · cases h0
  subst hs2
  have hn2 : (Except.ok ([("label", vstr "A"), ("x", vstr "1")] : Row) :
      Except MergeError Row) = Except.ok r := by rw [← hn]; decide
  injection hn2 with hn2
  subst hn2
  have hk2 : k ∈ (["label"] : List String) := hk
  rcases List.mem_cons.1 hk2 with rfl | h0
  · have hv2 : (some (vstr "A") : Option Value) = some v := by
      rw [← hv]
      rfl
    injection hv2 with hv2
    exact ⟨"A", hv2.symm⟩
  · cases h0

end PyODK
